import Mathlib

/-!
Verification development for the ccproxy protocol-translation proxy.

Shallow embedding of the core pure logic of the source:
  * a JSON value model with JavaScript object-spread semantics and a
    `JSON.stringify`-style serialiser, over which the request decorator
    `processClaudeCodeRequestBody` (src/utils/request-processor.ts) is embedded;
  * the token authority (src/auth.ts) as explicit state passing;
  * the session manager (session-manager.ts) as explicit state passing;
  * the tool-choice translation `convertToolChoice` (openai-converter.ts);
  * the streaming rewriters of the Chat-Completions and Responses handlers
    as pure functions from upstream stream parts to emitted chunks/events;
  * the Responses-input translator `convertResponsesInputToAISDK` together
    with `postProcessMessages` (openai-converter.ts).
-/

namespace CCProxy

/-! ## JSON value model

`JVal` models the JavaScript values the request decorator manipulates
(numbers do not occur in the decorator's own logic and are omitted).
Objects are insertion-ordered association lists, as in JavaScript, so a
`JSON.stringify`-style serialiser on them is byte-faithful. -/

inductive JVal where
  | null : JVal
  | bool (b : Bool) : JVal
  | str (s : String) : JVal
  | arr (items : List JVal) : JVal
  | obj (members : List (String × JVal)) : JVal
deriving Repr

mutual

def JVal.beq : JVal → JVal → Bool
  | .null, .null => true
  | .bool a, .bool b => a == b
  | .str a, .str b => a == b
  | .arr a, .arr b => JVal.beqList a b
  | .obj a, .obj b => JVal.beqMems a b
  | _, _ => false

def JVal.beqList : List JVal → List JVal → Bool
  | [], [] => true
  | a :: as, b :: bs => JVal.beq a b && JVal.beqList as bs
  | _, _ => false

def JVal.beqMems : List (String × JVal) → List (String × JVal) → Bool
  | [], [] => true
  | (k, v) :: as, (k', v') :: bs => k == k' && JVal.beq v v' && JVal.beqMems as bs
  | _, _ => false

end

instance : BEq JVal := ⟨JVal.beq⟩

mutual

/-- Serialisation in the style of `JSON.stringify` (no whitespace; strings in
the decorator's domain contain no characters needing escapes). -/
def JVal.ser : JVal → String
  | .null => "null"
  | .bool true => "true"
  | .bool false => "false"
  | .str s => "\"" ++ s ++ "\""
  | .arr items => "[" ++ String.intercalate "," (JVal.serList items) ++ "]"
  | .obj members => "\x7b" ++ String.intercalate "," (JVal.serMems members) ++ "\x7d"

/-- Serialise the elements of an array. -/
def JVal.serList : List JVal → List String
  | [] => []
  | v :: rest => JVal.ser v :: JVal.serList rest

/-- Serialise the members of an object. -/
def JVal.serMems : List (String × JVal) → List String
  | [] => []
  | (k, v) :: rest => ("\"" ++ k ++ "\":" ++ JVal.ser v) :: JVal.serMems rest

end

/-- JavaScript truthiness on the modelled values (`null`, `false` and `""` are
falsy; arrays and objects are always truthy). -/
def JVal.truthy : JVal → Bool
  | .null => false
  | .bool b => b
  | .str s => s ≠ ""
  | .arr _ => true
  | .obj _ => true

/-- Property lookup `o[k]` on an object member list (`none` = `undefined`). -/
def jget (o : List (String × JVal)) (k : String) : Option JVal :=
  (o.find? (fun p => p.1 == k)).map (·.2)

/-- JavaScript property assignment: overwrite in place if the key exists
(keeping its position), otherwise append. -/
def jset (o : List (String × JVal)) (k : String) (v : JVal) : List (String × JVal) :=
  if o.any (fun p => p.1 == k) then
    o.map (fun p => if p.1 == k then (k, v) else p)
  else
    o ++ [(k, v)]

/-- JavaScript object spread `\x7b...o, ...extra\x7d`: assign the members of
`extra` one by one on top of `o`. -/
def jspread (o : List (String × JVal)) (extra : List (String × JVal)) :
    List (String × JVal) :=
  extra.foldl (fun acc p => jset acc p.1 p.2) o

/-- Field access `v?.k` through an optional value. -/
def jgetOpt (v : Option JVal) (k : String) : Option JVal :=
  match v with
  | some (.obj o) => jget o k
  | _ => none

/-- `s.startsWith(pre)`, computed on the character lists (kernel-reducible
equivalent of `String.startsWith`). -/
def jsStartsWith (s pre : String) : Bool :=
  pre.data.isPrefixOf s.data

/-- `s.trim()`, computed on the character lists (kernel-reducible equivalent
of `String.trim`). -/
def jsTrim (s : String) : String :=
  ⟨(((s.data.dropWhile Char.isWhitespace).reverse).dropWhile
      Char.isWhitespace).reverse⟩

/-! ## Constants (src/constants.ts) -/

def TOOL_PREFIX : String := "mcp_"

def CLAUDE_CODE_SYSTEM_PROMPT : String :=
  "You are Claude Code, Anthropic's official CLI for Claude."

/-- `DEFAULT_CLAUDE_CODE_TOOL` from src/constants.ts. -/
def DEFAULT_CLAUDE_CODE_TOOL : List (String × JVal) :=
  [("name", .str "mcp_placeholder"),
   ("description", .str "Placeholder tool for Claude Code compatibility"),
   ("input_schema", .obj [("type", .str "object"), ("properties", .obj [])])]

/-! ## Request decorator (src/utils/request-processor.ts) -/

/-- `ProcessRequestOptions` with the source's defaults. -/
structure ProcessRequestOptions where
  enablePromptCache : Bool := true
  forceAddPlaceholderTool : Bool := true
  cacheMessageCount : Nat := 3

/-- `hasToolPrefix(name)`: `name?.startsWith(TOOL_PREFIX) ?? false`. -/
def hasToolPrefix (name : Option JVal) : Bool :=
  match name with
  | some (.str s) => jsStartsWith s TOOL_PREFIX
  | _ => false

/-- `hasExactClaudeCodeSystemPrompt(system)`. -/
def hasExactClaudeCodeSystemPrompt (system : Option JVal) : Bool :=
  match system with
  | none => false
  | some v =>
    if !v.truthy then false
    else match v with
      | .str s => s == CLAUDE_CODE_SYSTEM_PROMPT
      | .arr items =>
        items.any (fun item =>
          match item with
          | .str s => s == CLAUDE_CODE_SYSTEM_PROMPT
          | _ =>
            match jgetOpt (some item) "text" with
            | some (.str t) => t == CLAUDE_CODE_SYSTEM_PROMPT
            | _ => false)
      | _ => false

/-- The `cache_control` member list spread over blocks when prompt caching is
enabled (`cacheControl` in the source). -/
def ccPairs (enable : Bool) : List (String × JVal) :=
  if enable then [("cache_control", .obj [("type", .str "ephemeral")])] else []

/-- Step 1 of the decorator: prepend the Claude Code system block. -/
def decorateSystem (enable : Bool) (p : List (String × JVal)) :
    List (String × JVal) :=
  if hasExactClaudeCodeSystemPrompt (jget p "system") then p
  else
    let block : JVal :=
      .obj ([("type", .str "text"), ("text", .str CLAUDE_CODE_SYSTEM_PROMPT)] ++
        ccPairs enable)
    match jget p "system" with
    | none => jset p "system" (.arr [block])
    | some v =>
      if !v.truthy then jset p "system" (.arr [block])
      else match v with
        | .str s =>
          jset p "system"
            (.arr [block, .obj [("type", .str "text"), ("text", .str s)]])
        | .arr items => jset p "system" (.arr (block :: items))
        | _ => p

/-- The name used by the `alreadyProcessed` scan:
`tool.type === "custom" ? tool.custom?.name : tool.name`. -/
def toolScanName (tool : JVal) : Option JVal :=
  match tool with
  | .obj o =>
    if jget o "type" == some (.str "custom") then jgetOpt (jget o "custom") "name"
    else jget o "name"
  | _ => none

/-- The name-prefixing assignment of the traditional-tool branch
(`name: tool.name ? prefix + tool.name : tool.name`, assigned into the
result object `r0`). -/
def plainToolName (r0 : List (String × JVal)) (nameV : Option JVal) :
    List (String × JVal) :=
  match nameV with
  | some (.str s) =>
    if s ≠ "" then jset r0 "name" (.str (TOOL_PREFIX ++ s))
    else jset r0 "name" (.str s)
  | some v => jset r0 "name" v
  | none => r0

/-- The `input_schema` fix-up of the traditional-tool branch
(`if (result.input_schema) result.input_schema = \x7btype:"object",
...result.input_schema\x7d`). -/
def plainToolSchema (r1 : List (String × JVal)) (schemaV : Option JVal) : JVal :=
  match schemaV with
  | some (.obj sch) =>
    .obj (jset r1 "input_schema" (.obj (jspread [("type", .str "object")] sch)))
  | some v =>
    if v.truthy then .obj (jset r1 "input_schema" (.obj [("type", .str "object")]))
    else .obj r1
  | none => .obj r1

/-- Rewrite one tool (the body of the `parsed.tools.map` callback). -/
def decorateTool (enable : Bool) (isLast : Bool) (tool : JVal) : JVal :=
  let toolCC := if enable && isLast then ccPairs true else []
  match tool with
  | .obj o =>
    if jget o "type" == some (.str "custom") &&
        (jget o "custom").any JVal.truthy then
      match jget o "custom" with
      | some (.obj c) =>
        let newName : Option JVal :=
          match jget c "name" with
          | some (.str s) =>
            if s ≠ "" then some (.str (TOOL_PREFIX ++ s)) else some (.str s)
          | v => v
        let newSchema : JVal :=
          match jget c "input_schema" with
          | some (.obj sch) =>
            if (JVal.obj sch).truthy then .obj (jspread [("type", .str "object")] sch)
            else .obj [("type", .str "object"), ("properties", .obj [])]
          | some v =>
            if v.truthy then .obj [("type", .str "object")]
            else .obj [("type", .str "object"), ("properties", .obj [])]
          | none => .obj [("type", .str "object"), ("properties", .obj [])]
        let c1 := match newName with
          | some nv => jset c "name" nv
          | none => c
        let c2 := jset c1 "input_schema" newSchema
        .obj (jset (jspread o toolCC) "custom" (.obj c2))
      | _ => tool
    else
      let r1 := plainToolName (jspread o toolCC) (jget o "name")
      plainToolSchema r1 (jget r1 "input_schema")
  | _ => tool

/-- Step 2 of the decorator: tool prefixing / schema fixing / cache marker. -/
def decorateTools (opts : ProcessRequestOptions) (p : List (String × JVal)) :
    List (String × JVal) :=
  match jget p "tools" with
  | some (.arr ts) =>
    if !ts.isEmpty then
      let alreadyProcessed := ts.any (fun t => hasToolPrefix (toolScanName t))
      if alreadyProcessed then p
      else
        let n := ts.length
        let ts' := ts.mapIdx (fun i t =>
          decorateTool opts.enablePromptCache (i == n - 1) t)
        jset p "tools" (.arr ts')
    else if opts.forceAddPlaceholderTool then
      jset p "tools"
        (.arr [.obj (jspread DEFAULT_CLAUDE_CODE_TOOL
          (ccPairs opts.enablePromptCache))])
    else p
  | _ =>
    if opts.forceAddPlaceholderTool then
      jset p "tools"
        (.arr [.obj (jspread DEFAULT_CLAUDE_CODE_TOOL
          (ccPairs opts.enablePromptCache))])
    else p

/-- Rewrite one content block of one message (the body of the
`msg.content.map` callback): `shouldCache` and the position flags come from
the enclosing message. -/
def decorateBlock (enable : Bool) (shouldCache : Bool) (isLastMsg : Bool)
    (isLastBlock : Bool) (block : JVal) : JVal :=
  let prefixed : Option JVal :=
    match block with
    | .obj o =>
      if jget o "type" == some (.str "tool_use") &&
          (jget o "name").any JVal.truthy then
        if !hasToolPrefix (jget o "name") then
          match jget o "name" with
          | some (.str s) => some (.obj (jset o "name" (.str (TOOL_PREFIX ++ s))))
          | _ => none
        else none
      else none
    | _ => none
  match prefixed with
  | some b => b
  | none =>
    if shouldCache && isLastMsg && isLastBlock then
      match block with
      | .obj o => .obj (jspread o (ccPairs enable))
      | _ => block
    else block

/-- Rewrite one message (the body of the `parsed.messages.map` callback). -/
def decorateMessage (opts : ProcessRequestOptions) (messageCount : Nat)
    (cacheStartIndex : Nat) (idx : Nat) (msg : JVal) : JVal :=
  let shouldCache := opts.enablePromptCache && decide (idx ≥ cacheStartIndex)
  match msg with
  | .obj m =>
    match jget m "content" with
    | some (.arr cs) =>
      let len := cs.length
      let cs' := cs.mapIdx (fun bi b =>
        decorateBlock opts.enablePromptCache shouldCache
          (idx == messageCount - 1) (bi == len - 1) b)
      .obj (jset m "content" (.arr cs'))
    | some (.str s) =>
      if shouldCache then
        .obj (jset m "content"
          (.arr [.obj ([("type", .str "text"), ("text", .str s)] ++
            ccPairs opts.enablePromptCache)]))
      else msg
    | _ => msg
  | _ => msg

/-- Step 3 of the decorator: `tool_use` prefixing and message cache markers. -/
def decorateMessages (opts : ProcessRequestOptions) (p : List (String × JVal)) :
    List (String × JVal) :=
  match jget p "messages" with
  | some (.arr ms) =>
    let messageCount := ms.length
    let cacheStartIndex :=
      messageCount - (if opts.cacheMessageCount == 0 then 3 else opts.cacheMessageCount)
    jset p "messages"
      (.arr (ms.mapIdx (fun i m =>
        decorateMessage opts messageCount cacheStartIndex i m)))
  | _ => p

/-- `processClaudeCodeRequestBody` (src/utils/request-processor.ts, the
object-body case) with explicit options. -/
def processClaudeCodeRequestBody (opts : ProcessRequestOptions)
    (p : List (String × JVal)) : List (String × JVal) :=
  decorateMessages opts (decorateTools opts (decorateSystem opts.enablePromptCache p))

/-- The decorator on a whole request body value, with the default options used
by the `/v1/messages` handler. -/
def decorate (body : JVal) : JVal :=
  match body with
  | .obj p => .obj (processClaudeCodeRequestBody {} p)
  | v => v

/-- The custom-tool test of the decorator:
`tool.type === "custom" && tool.custom` (truthy). -/
def isCustomTool (o : List (String × JVal)) : Bool :=
  jget o "type" == some (.str "custom") && (jget o "custom").any JVal.truthy

/-! ## Token authority (src/auth.ts)

The credential store (`loadAuth`/`saveAuth`) is modelled as explicit state
passing: `Option AuthData` is the on-disk record (absent = not logged in). -/

/-- The persisted credential record (`AuthData` of src/storage.ts, the fields
used by src/auth.ts). -/
structure AuthData where
  refresh : String
  access : String
  expires : Int
deriving DecidableEq, Repr

/-- Outcome of the OAuth token endpoint (`ExchangeResult` of src/auth.ts). -/
inductive ExchangeResult where
  | success (refresh access : String) (expires : Int)
  | failed
deriving DecidableEq, Repr

/-- `getValidAccessToken`: read the record; absent fails, otherwise return the
stored `access` field (no expiry check appears in the source). -/
def getValidAccessToken (store : Option AuthData) : Option String :=
  match store with
  | none => none
  | some auth => some auth.access

/-- `forceRefreshAccessToken`, with the OAuth refresh call abstracted as a
function of the stored refresh token. Returns the token handed to the caller
together with the store as left on disk. -/
def forceRefreshAccessToken (refreshToken : String → ExchangeResult)
    (store : Option AuthData) : Option String × Option AuthData :=
  match store with
  | none => (none, store)
  | some auth =>
    match refreshToken auth.refresh with
    | .failed => (none, store)
    | .success r a e => (some a, some ⟨r, a, e⟩)

/-- An upstream HTTP response, by status and an identity tag so that theorems
can speak about "the original response object". -/
structure UpstreamResponse where
  status : Nat
  tag : String
deriving DecidableEq, Repr

/-- Result of `sendClaudeCodeRequest`: a response, or the network error thrown
after exhausting retries. -/
inductive SendResult where
  | response (r : UpstreamResponse)
  | networkError
  | maxRetriesError
deriving DecidableEq, Repr

/-- One attempt round of `sendClaudeCodeRequest`'s retry loop. `upstream` gives
the response of each successive `fetch` call (`none` = network error thrown);
`refreshOutcomes` gives the outcome of each successive `forceRefreshAccessToken`
call.  Mirrors the `while (attempts < MAX_RETRIES)` loop of
src/utils/request-processor.ts with `MAX_RETRIES = 3`. -/
def sendLoop (upstream : List (Option UpstreamResponse))
    (refreshOutcomes : List (Option String)) : Nat → SendResult
  | 0 => .maxRetriesError
  | fuel + 1 =>
    match upstream with
    | [] => .networkError
    | none :: restUp =>
      -- fetch threw: retry if attempts remain, else rethrow
      if fuel = 0 then .networkError
      else sendLoop restUp refreshOutcomes fuel
    | some resp :: restUp =>
      if resp.status = 401 then
        match refreshOutcomes with
        | some _newTok :: restRef => sendLoop restUp restRef fuel
        | _ => .response resp            -- refresh failed: return original 401
      else if resp.status = 429 ∨ resp.status = 529 then
        sendLoop restUp refreshOutcomes fuel
      else .response resp

/-- `sendClaudeCodeRequest` (the control flow of its retry loop). -/
def sendClaudeCodeRequest (upstream : List (Option UpstreamResponse))
    (refreshOutcomes : List (Option String)) : SendResult :=
  sendLoop upstream refreshOutcomes 3

/-! ## Session manager (session-manager.ts)

Explicit state passing for the two mutable tables; `Clock.now` is passed as an
argument; the SHA-256 content hash is abstracted as a function parameter. -/

/-- `ActiveRequest` (the abort controller is irrelevant to the claims). -/
structure ActiveRequest where
  startTime : Nat
  contentHash : String
deriving DecidableEq, Repr

/-- `DedupeEntry`. -/
structure DedupeEntry where
  timestamp : Nat
  inProgress : Bool
deriving DecidableEq, Repr

/-- `SessionManagerConfig` with the source's `DEFAULT_CONFIG`. -/
structure SessionManagerConfig where
  dedupeWindowMs : Nat := 2000
  requestTimeoutMs : Nat := 300000
  enableDedupe : Bool := true
  enableBusyCheck : Bool := true
deriving Repr

/-- The two tables of `SessionManager` (JavaScript `Map`s as association
lists keyed by first component). -/
structure SMState where
  activeRequests : List (String × ActiveRequest) := []
  dedupeCache : List (String × DedupeEntry) := []
deriving Repr

/-- `Map.get`. -/
def mapGet {α : Type} (m : List (String × α)) (k : String) : Option α :=
  (m.find? (fun p => p.1 == k)).map (·.2)

/-- `Map.set` (replace or append). -/
def mapSet {α : Type} (m : List (String × α)) (k : String) (v : α) :
    List (String × α) :=
  if m.any (fun p => p.1 == k) then
    m.map (fun p => if p.1 == k then (k, v) else p)
  else m ++ [(k, v)]

/-- `Map.delete`. -/
def mapDelete {α : Type} (m : List (String × α)) (k : String) :
    List (String × α) :=
  m.filter (fun p => p.1 != k)

/-- The request bodies the session manager receives, as far as
`extractSessionId` inspects them. -/
structure SMBody where
  sessionId : Option String := none
  metadataSessionId : Option String := none
  messages : Option (List String) := none
  input : Option (List String) := none
  raw : String := ""
deriving DecidableEq, Repr

/-- The content hash: `sha256(JSON.stringify(content)).hex.substring(0,16)`,
abstracted as a parameter `hashMsg` for message/input items and `hashBody` for
whole bodies (only determinism of the hash matters to the claims). -/
structure SMHash where
  hashMsg : String → String
  hashBody : SMBody → String

/-- `extractSessionId` after both explicit `session_id` sources failed
(steps 3–5 of the source). -/
def extractSessionIdRest (h : SMHash) (body : SMBody) : String :=
  match body.messages with
  | some (m0 :: rest) =>
    "msg_" ++ toString (m0 :: rest).length ++ "_" ++ h.hashMsg m0
  | _ =>
    match body.input with
    | some (i0 :: rest) =>
      "input_" ++ toString (i0 :: rest).length ++ "_" ++ h.hashMsg i0
    | _ => "req_" ++ h.hashBody body

/-- `extractSessionId(body)` (`if (body.session_id)` is a truthiness test, so
an empty string falls through like an absent one; likewise for
`body.metadata?.session_id`). -/
def extractSessionId (h : SMHash) (body : SMBody) : String :=
  match body.sessionId with
  | some sid =>
    if sid ≠ "" then sid
    else match body.metadataSessionId with
      | some sid' => if sid' ≠ "" then sid' else extractSessionIdRest h body
      | none => extractSessionIdRest h body
  | none =>
    match body.metadataSessionId with
    | some sid' => if sid' ≠ "" then sid' else extractSessionIdRest h body
    | none => extractSessionIdRest h body

/-- `isSessionBusy(sessionId)` — returns the flag and the state (a timed-out
entry is deleted on the way). -/
def isSessionBusy (cfg : SessionManagerConfig) (now : Nat) (st : SMState)
    (sessionId : String) : Bool × SMState :=
  if !cfg.enableBusyCheck then (false, st)
  else
    match mapGet st.activeRequests sessionId with
    | none => (false, st)
    | some active =>
      if now - active.startTime > cfg.requestTimeoutMs then
        (false, { st with activeRequests := mapDelete st.activeRequests sessionId })
      else (true, st)

/-- `isDuplicateRequest(body)`. -/
def isDuplicateRequest (cfg : SessionManagerConfig) (h : SMHash) (now : Nat)
    (st : SMState) (body : SMBody) : Bool :=
  if !cfg.enableDedupe then false
  else
    match mapGet st.dedupeCache (h.hashBody body) with
    | none => false
    | some entry =>
      decide (now - entry.timestamp < cfg.dedupeWindowMs) && entry.inProgress

/-- Result of `startRequest`. -/
structure StartResult where
  accepted : Bool
  reason : Option String := none
deriving DecidableEq, Repr

/-- The literal busy reason built by the source. -/
def busyReason (sessionId : String) : String :=
  "Session " ++ sessionId ++ " is busy processing another request"

/-- The literal duplicate reason built by the source. -/
def duplicateReason : String :=
  "Duplicate request detected within dedupe window"

/-- `startRequest(sessionId, body)`: the session-busy check runs first, then
the duplicate check; on acceptance both tables are updated. -/
def startRequest (cfg : SessionManagerConfig) (h : SMHash) (now : Nat)
    (st : SMState) (sessionId : String) (body : SMBody) :
    StartResult × SMState :=
  let (busy, st1) := isSessionBusy cfg now st sessionId
  if busy then
    ({ accepted := false, reason := some (busyReason sessionId) }, st1)
  else if isDuplicateRequest cfg h now st1 body then
    ({ accepted := false, reason := some duplicateReason }, st1)
  else
    let contentHash := h.hashBody body
    ({ accepted := true },
     { activeRequests := mapSet st1.activeRequests sessionId
        { startTime := now, contentHash },
       dedupeCache := mapSet st1.dedupeCache contentHash
        { timestamp := now, inProgress := true } })

/-- `endRequest(sessionId)`. -/
def endRequest (st : SMState) (sessionId : String) : SMState :=
  match mapGet st.activeRequests sessionId with
  | none => st
  | some active =>
    let dedupe' :=
      match mapGet st.dedupeCache active.contentHash with
      | none => st.dedupeCache
      | some entry =>
        mapSet st.dedupeCache active.contentHash { entry with inProgress := false }
    { activeRequests := mapDelete st.activeRequests sessionId,
      dedupeCache := dedupe' }

/-! ## Tool-choice translation (`convertToolChoice`, openai-converter.ts) -/

/-- The JavaScript values `convertToolChoice` can receive, by shape: absent /
null, booleans, numbers (represented by an integer; only truthiness matters),
strings, and objects carrying an optional `type` field and an optional
`function` field with an optional `name`. `objOther` stands for any other
object (arrays included), whose `type` and `function` accesses yield
`undefined`. -/
inductive TCInput where
  | absent
  | jsNull
  | jsBool (b : Bool)
  | jsNum (n : Int)
  | jsStr (s : String)
  | jsObj (type : Option String) (functionName : Option (Option String))
  | objOther
deriving DecidableEq, Repr

/-- Results of `convertToolChoice`. -/
inductive TCResult where
  | undef
  | strv (s : String)
  | toolv (toolName : String)
deriving DecidableEq, Repr

/-- JavaScript truthiness of `toolChoice` itself. -/
def tcTruthy : TCInput → Bool
  | .absent => false
  | .jsNull => false
  | .jsBool b => b
  | .jsNum n => n ≠ 0
  | .jsStr s => s ≠ ""
  | .jsObj _ _ => true
  | .objOther => true

/-- `toolChoice.function?.name` truthiness. -/
def tcFunctionNameTruthy : Option (Option String) → Bool
  | some (some s) => s ≠ ""
  | _ => false

/-- `convertToolChoice(toolChoice)` (openai-converter.ts). -/
def convertToolChoice (tc : TCInput) : TCResult :=
  if !tcTruthy tc then .undef
  else
    match tc with
    | .jsStr s =>
      if s = "none" ∨ s = "auto" ∨ s = "required" then .strv s
      else if s = "any" then .strv "required"
      else .strv "auto"
    | .jsObj type functionName =>
      if type = some "function" ∧ tcFunctionNameTruthy functionName then
        match functionName with
        | some (some n) => .toolv n
        | _ => .strv "auto"    -- unreachable given the guard
      else if type = some "function" then .strv "required"
      else if type = some "any" then .strv "required"
      else if type = some "none" then .strv "none"
      else if type = some "auto" then .strv "auto"
      else if type = some "required" then .strv "required"
      else .strv "auto"
    | .objOther => .strv "auto"
    | _ => .strv "auto"          -- non-string, non-object truthy values

/-! ## Chat-Completions streaming rewriter (chat-completions.ts)

The `for await (const part of result.fullStream)` loop is modelled as a fold
over the upstream stream-part list.  An `error` part also records the stream
error, mirroring the `onError` callback the source registers with
`streamText` (the AI SDK surfaces a stream error both as an `error` part in
`fullStream` and through `onError`). -/

/-- Upstream stream parts, as the handler distinguishes them (`other` stands
for every part type the handler ignores). -/
inductive CCPart where
  | textDelta (text : String)
  | toolCall (id name args : String)
  | errorPart (message : String)
  | finish
  | other
deriving DecidableEq, Repr

/-- SSE payloads emitted by the handler, in order.  `done` is the literal
terminator line `data: [DONE]`.  `createSSEErrorResponse` returns one string
holding an error chunk (with `finish_reason:"error"` and an `error` field)
immediately followed by a `[DONE]` terminator; it is modelled as the two
payloads it contains. -/
inductive CCChunk where
  | contentDelta (text : String)
  | toolCallDelta (index : Nat) (id name args : String)
  | finishChunk (reason : String) (hasErrorField : Bool)
  | done
deriving DecidableEq, Repr

/-- A chunk carrying a non-null `finish_reason` (the "final chunk" of the
claim). -/
def CCChunk.isFinal : CCChunk → Bool
  | .finishChunk _ _ => true
  | _ => false

/-- Mutable state of the streaming loop. -/
structure CCStreamState where
  toolCallIndex : Nat := 0
  toolCallIds : List String := []   -- key set of `toolCallsMap`
  streamError : Option String := none
deriving Repr

/-- `Map.set` on the key set of `toolCallsMap`. -/
def ccMapInsert (ids : List String) (id : String) : List String :=
  if ids.contains id then ids else ids ++ [id]

/-- Process one upstream part (the body of the `for await` loop). -/
def ccStep (st : CCStreamState) : CCPart → CCStreamState × List CCChunk
  | .textDelta t => (st, [.contentDelta t])
  | .toolCall id name args =>
    ({ st with toolCallIndex := st.toolCallIndex + 1,
               toolCallIds := ccMapInsert st.toolCallIds id },
     [.toolCallDelta st.toolCallIndex id name args])
  | .errorPart m =>
    ({ st with streamError := some m }, [.finishChunk "error" true, .done])
  | .finish =>
    let reason :=
      match st.streamError with
      | some _ => "error"
      | none => if st.toolCallIds.length > 0 then "tool_calls" else "stop"
    (st, [.finishChunk reason st.streamError.isSome])
  | .other => (st, [])

/-- Fold the loop over the upstream parts. -/
def ccRun (st : CCStreamState) : List CCPart → List CCChunk
  | [] => []
  | p :: rest =>
    let (st', out) := ccStep st p
    out ++ ccRun st' rest

/-- The full emitted payload sequence of the streaming Chat-Completions
handler: the loop's chunks followed by the closing `data: [DONE]`. -/
def chatCompletionsStream (parts : List CCPart) : List CCChunk :=
  ccRun {} parts ++ [.done]

/-! ## Responses streaming rewriter (src/handlers/responses.ts)

Every emitted event carries `sequence_number` from the post-incremented
`sequenceNumber` counter.  The message `output_item.added` is only produced
on the first `text-delta`. -/

/-- Upstream stream parts as the Responses handler distinguishes them.  A
trailing stream exception (caught by the handler's `catch`, which emits a
`response.error` event) is modelled separately in `responsesStream`. -/
inductive RSPart where
  | textDelta (text : String)
  | toolCall (id name args : String)
  | finish
  | other
deriving DecidableEq, Repr

/-- The emitted Responses events (argument order: payload fields first, the
carried `sequence_number` last). -/
inductive REvent where
  | created (seq : Nat)
  | outputItemAddedMessage (outputIndex seq : Nat)
  | contentPartAdded (outputIndex contentIndex seq : Nat)
  | outputTextDelta (delta : String) (outputIndex contentIndex seq : Nat)
  | outputItemAddedFunctionCall (id name args : String) (outputIndex seq : Nat)
  | functionCallArgumentsDone (id name args : String) (outputIndex seq : Nat)
  | outputItemDoneFunctionCall (id name args : String) (outputIndex seq : Nat)
  | contentPartDone (text : String) (outputIndex contentIndex seq : Nat)
  | outputItemDoneMessage (text : String) (outputIndex seq : Nat)
  | completed (seq : Nat)
  | responseError (message : String) (seq : Nat)
deriving DecidableEq, Repr

/-- The `sequence_number` carried by an event. -/
def REvent.seq : REvent → Nat
  | .created s => s
  | .outputItemAddedMessage _ s => s
  | .contentPartAdded _ _ s => s
  | .outputTextDelta _ _ _ s => s
  | .outputItemAddedFunctionCall _ _ _ _ s => s
  | .functionCallArgumentsDone _ _ _ _ s => s
  | .outputItemDoneFunctionCall _ _ _ _ s => s
  | .contentPartDone _ _ _ s => s
  | .outputItemDoneMessage _ _ s => s
  | .completed s => s
  | .responseError _ s => s

/-- Whether an event is the lazily created message output item. -/
def REvent.isMessageItemAdded : REvent → Bool
  | .outputItemAddedMessage _ _ => true
  | _ => false

/-- Mutable state of the Responses streaming loop (`outputIndex` is declared
and used but never incremented in the source, hence constant 0). -/
structure RSState where
  seq : Nat := 0
  hasTextContent : Bool := false
  fullText : String := ""
  toolCallsCount : Nat := 0
deriving Repr

/-- Process one upstream part (the body of the `for await` loop of the
streaming branch of `createResponsesHandler`). -/
def rsStep (st : RSState) : RSPart → RSState × List REvent
  | .textDelta t =>
    if st.hasTextContent then
      ({ st with fullText := st.fullText ++ t, seq := st.seq + 1 },
       [.outputTextDelta t 0 0 st.seq])
    else
      ({ st with hasTextContent := true, fullText := st.fullText ++ t,
                 seq := st.seq + 3 },
       [.outputItemAddedMessage 0 st.seq,
        .contentPartAdded 0 0 (st.seq + 1),
        .outputTextDelta t 0 0 (st.seq + 2)])
  | .toolCall id name args =>
    let oi := if st.hasTextContent then 1 + st.toolCallsCount else st.toolCallsCount
    ({ st with toolCallsCount := st.toolCallsCount + 1, seq := st.seq + 3 },
     [.outputItemAddedFunctionCall id name args oi st.seq,
      .functionCallArgumentsDone id name args oi (st.seq + 1),
      .outputItemDoneFunctionCall id name args oi (st.seq + 2)])
  | .finish =>
    if st.hasTextContent then
      ({ st with seq := st.seq + 3 },
       [.contentPartDone st.fullText 0 0 st.seq,
        .outputItemDoneMessage st.fullText 0 (st.seq + 1),
        .completed (st.seq + 2)])
    else
      ({ st with seq := st.seq + 1 }, [.completed st.seq])
  | .other => (st, [])

/-- Fold the loop over the upstream parts, returning the final state too. -/
def rsRun (st : RSState) : List RSPart → RSState × List REvent
  | [] => (st, [])
  | p :: rest =>
    let (st', out) := rsStep st p
    let (stEnd, outRest) := rsRun st' rest
    (stEnd, out ++ outRest)

/-- The full emitted event sequence of the streaming Responses handler: the
`response.created` event, the loop's events, and — when the iteration ends
with a caught stream exception `err` — the `response.error` event built by
`createSSEErrorResponse`. -/
def responsesStream (parts : List RSPart) (err : Option String) : List REvent :=
  let st0 : RSState := { seq := 1 }
  let (stEnd, loopEvents) := rsRun st0 parts
  .created 0 :: loopEvents ++
    (match err with
     | some m => [.responseError m stEnd.seq]
     | none => [])

/-! ## Responses-input translator (`convertResponsesInputToAISDK` and
`postProcessMessages`, openai-converter.ts)

Input items carry a single `call_id` identifier (covering the source's
`item.call_id || item.id` fallback); message items are modelled with string
content (the source's array-content variant only changes how the text is
extracted). -/

/-- Roles a Responses `message` input item can carry. -/
inductive RRole where
  | developer
  | system
  | user
  | assistant
deriving DecidableEq, Repr

/-- A Responses input item. -/
inductive RItem where
  | message (role : RRole) (content : String)
  | functionCall (callId name args : String)
  | functionCallOutput (callId output : String)
deriving DecidableEq, Repr

/-- A part of an AI-SDK message's array content (`input` of a tool call and
the `output.value` of a tool result are kept as the raw strings). -/
inductive Part where
  | text (t : String)
  | toolCall (id name args : String)
  | toolResult (id name value : String)
deriving DecidableEq, Repr

/-- AI-SDK message content: a plain string or an array of parts. -/
inductive MContent where
  | str (s : String)
  | parts (ps : List Part)
deriving DecidableEq, Repr

/-- An AI-SDK message. -/
structure Msg where
  role : String
  content : MContent
deriving DecidableEq, Repr

def RItem.isMessage : RItem → Bool
  | .message _ _ => true
  | _ => false

def RItem.isFc : RItem → Bool
  | .functionCall _ _ _ => true
  | _ => false

/-- The `call_id` of a `function_call` item (`none` otherwise). -/
def RItem.fcId : RItem → Option String
  | .functionCall c _ _ => some c
  | _ => none

/-- The `call_id` of a `function_call_output` item (`none` otherwise). -/
def RItem.fcoId : RItem → Option String
  | .functionCallOutput c _ => some c
  | _ => none

def Part.isToolCall : Part → Bool
  | .toolCall _ _ _ => true
  | _ => false

def Part.toolCallId : Part → Option String
  | .toolCall c _ _ => some c
  | _ => none

def Part.toolResultId : Part → Option String
  | .toolResult c _ _ => some c
  | _ => none

/-- The array content of a message (`[]` when the content is a string). -/
def Msg.parts : Msg → List Part
  | ⟨_, .parts ps⟩ => ps
  | _ => []

/-- Whether the content is an array (`Array.isArray(msg.content)`). -/
def Msg.hasArrayContent : Msg → Bool
  | ⟨_, .parts _⟩ => true
  | _ => false

/-- The `toolCallId`s of the tool-call parts of a message, when it is an
assistant message with array content (the shape every `alreadyProcessed`
scan of the source tests). -/
def Msg.tcIds (m : Msg) : List String :=
  if m.role == "assistant" && m.hasArrayContent then
    m.parts.filterMap Part.toolCallId
  else []

/-- The `toolCallId`s of the tool-result parts of a message. -/
def Msg.trIds (m : Msg) : List String :=
  m.parts.filterMap Part.toolResultId

/-- Whether some already-emitted assistant message contains a tool call with
this id (the `alreadyProcessed` scans). -/
def mentionsCall (msgs : List Msg) (c : String) : Bool :=
  msgs.any (fun m => m.tcIds.contains c)

/-- Pass 1's `toolCallInfo` map: the name recorded for a call id is that of
the last `function_call` item carrying it (`Map.set` overwrites). -/
def toolCallInfoF (input : List RItem) (c : String) : Option String :=
  match input.reverse.find? (fun it => it.fcId == some c) with
  | some (.functionCall _ n _) => some n
  | _ => none

/-- `input.find(i => i.type === "function_call_output" && i.call_id === c)`. -/
def findFcoOut (input : List RItem) (c : String) : Option String :=
  match input.find? (fun it => it.fcoId == some c) with
  | some (.functionCallOutput _ out) => some out
  | _ => none

/-- `input.find(i => i.type === "function_call" && (i.call_id === c || i.id === c))`. -/
def findFc (input : List RItem) (c : String) : Option RItem :=
  input.find? (fun it => it.fcId == some c)

/-- Build the tool-result part for call id `c` with output `out`. -/
def mkResult (input : List RItem) (c out : String) : Part :=
  .toolResult c ((toolCallInfoF input c).getD "unknown") out

/-- Build the tool-call part of a `function_call` item. -/
def mkToolCall : RItem → Part
  | .functionCall c n a => .toolCall c n a
  | _ => .text ""

/-- State of the second pass of `convertResponsesInputToAISDK`. -/
structure ConvState where
  msgs : List Msg
  processed : List String
  system : Option String
deriving Repr

/-- Look up each id (in order) anywhere in the input and emit a tool result
for it unless already processed — the collection loops of the
preceding-function-call and bare-function-call branches. -/
def collectAnywhere (input : List RItem) (ids : List String)
    (processed : List String) : List Part × List String :=
  ids.foldl
    (fun acc c =>
      if acc.2.contains c then acc
      else
        match findFcoOut input c with
        | some out => (acc.1 ++ [mkResult input c out], acc.2 ++ [c])
        | none => acc)
    ([], processed)

/-- Scan the batching window in order and emit tool results for the outputs
whose ids belong to the current assistant message's tool calls — the window
collection loop of the assistant-message branch. -/
def collectWindow (input : List RItem) (window : List RItem)
    (ids : List String) (processed : List String) : List Part × List String :=
  window.foldl
    (fun acc it =>
      match it with
      | .functionCallOutput c out =>
        if ids.contains c && !acc.2.contains c then
          (acc.1 ++ [mkResult input c out], acc.2 ++ [c])
        else acc
      | _ => acc)
    ([], processed)

/-- The items between the previous `message` item and position `idx`
(scanned backwards by the source, collected here in input order). -/
def tailNoMsg (pre : List RItem) : List RItem :=
  (pre.reverse.takeWhile (fun it => !it.isMessage)).reverse

/-- The batching window after an assistant message: the items that follow it
up to the next message item. -/
def saWindow (input : List RItem) (idx : Nat) : List RItem :=
  (input.drop (idx + 1)).takeWhile (fun it => !it.isMessage)

/-- The ids of the function-call outputs available in the window. -/
def saAvail (input : List RItem) (idx : Nat) : List String :=
  (saWindow input idx).filterMap RItem.fcoId

/-- The window function calls whose output is available in the window. -/
def saIncluded (input : List RItem) (idx : Nat) : List RItem :=
  (saWindow input idx).filter
    (fun it => it.isFc && (saAvail input idx).contains ((it.fcId).getD ""))

/-- The ids of the included window calls. -/
def saToolCallIds (input : List RItem) (idx : Nat) : List String :=
  (saIncluded input idx).filterMap RItem.fcId

/-- The content parts of the assistant message: its non-blank text and the
included window tool calls. -/
def saContentParts (input : List RItem) (idx : Nat) (content : String) :
    List Part :=
  (if jsTrim content ≠ "" then [Part.text content] else [])
    ++ (saIncluded input idx).map mkToolCall

/-- The unmentioned function calls preceding the assistant message since the
previous message item (the backward scan of the source, in input order). -/
def saPreceding (input : List RItem) (idx : Nat) (st : ConvState) : List RItem :=
  (tailNoMsg (input.take idx)).filter
    (fun it => it.isFc && !mentionsCall st.msgs ((it.fcId).getD ""))

/-- Emit the assistant message itself when it has content parts. -/
def saMid (input : List RItem) (idx : Nat) (content : String)
    (st1 : ConvState) : ConvState :=
  if (saContentParts input idx content).isEmpty then st1
  else { st1 with
    msgs := st1.msgs ++ [⟨"assistant", .parts (saContentParts input idx content)⟩] }

/-- Emit the window tool results after the assistant message. -/
def saFinish (input : List RItem) (idx : Nat) (content : String)
    (st1 : ConvState) : ConvState :=
  if (saToolCallIds input idx).isEmpty then saMid input idx content st1
  else
    { saMid input idx content st1 with
      msgs :=
        if (collectWindow input (saWindow input idx) (saToolCallIds input idx)
            (saMid input idx content st1).processed).1.isEmpty
        then (saMid input idx content st1).msgs
        else (saMid input idx content st1).msgs ++
          [⟨"tool", .parts (collectWindow input (saWindow input idx)
            (saToolCallIds input idx) (saMid input idx content st1).processed).1⟩],
      processed := (collectWindow input (saWindow input idx)
        (saToolCallIds input idx) (saMid input idx content st1).processed).2 }

/-- The assistant-message branch of the second pass: flush the unmentioned
preceding calls, then emit the message and its window results. -/
def stepAssistant (input : List RItem) (idx : Nat) (content : String)
    (st : ConvState) : ConvState :=
  saFinish input idx content
    (if (saPreceding input idx st).isEmpty then st
     else
       { st with
         msgs :=
           if (collectAnywhere input ((saPreceding input idx st).filterMap RItem.fcId)
               st.processed).1.isEmpty
           then st.msgs ++
             [⟨"assistant", .parts ((saPreceding input idx st).map mkToolCall)⟩]
           else (st.msgs ++
             [⟨"assistant", .parts ((saPreceding input idx st).map mkToolCall)⟩])
             ++ [⟨"tool", .parts (collectAnywhere input
               ((saPreceding input idx st).filterMap RItem.fcId) st.processed).1⟩],
         processed := (collectAnywhere input
           ((saPreceding input idx st).filterMap RItem.fcId) st.processed).2 })

/-- Whether the message before a trailing tool message carries this call id
(the `hasCorrespondingToolCall` check). -/
def fcoHasCorr (callId : String) (msgs : List Msg) : Bool :=
  match (msgs.dropLast).getLast? with
  | some second => second.tcIds.contains callId
  | none => false

/-- The trailing-tool-message branch of the `function_call_output` handler. -/
def fcoLastTool (input : List RItem) (callId : String) (tr : Part)
    (msgs : List Msg) (last : Msg) : List Msg :=
  if fcoHasCorr callId msgs then
    msgs.dropLast ++ [⟨"tool", .parts (last.parts ++ [tr])⟩]
  else
    match findFc input callId with
    | some fc =>
      msgs.dropLast ++
        [⟨"assistant", .parts [mkToolCall fc]⟩,
         ⟨"tool", .parts (last.parts ++ [tr])⟩]
    | none => msgs

/-- The non-tool-tail branch of the `function_call_output` handler. -/
def fcoNotTool (input : List RItem) (callId : String) (tr : Part)
    (msgs : List Msg) : List Msg :=
  match msgs.findIdx? (fun m => m.tcIds.contains callId) with
  | some i =>
    match msgs[i + 1]? with
    | some next =>
      if next.role == "tool" then
        msgs.set (i + 1) ⟨"tool", .parts (next.parts ++ [tr])⟩
      else
        msgs.take (i + 1) ++ [⟨"tool", .parts [tr]⟩] ++ msgs.drop (i + 1)
    | none => msgs ++ [⟨"tool", .parts [tr]⟩]
  | none =>
    match findFc input callId with
    | some fc =>
      msgs ++ [⟨"assistant", .parts [mkToolCall fc]⟩, ⟨"tool", .parts [tr]⟩]
    | none => msgs

/-- The `function_call_output` branch of the second pass. -/
def stepFco (input : List RItem) (callId output : String) (st : ConvState) :
    ConvState :=
  if st.processed.contains callId then st
  else
    { st with
      msgs :=
        match st.msgs.getLast? with
        | some last =>
          if last.role == "tool" then
            fcoLastTool input callId (mkResult input callId output) st.msgs last
          else fcoNotTool input callId (mkResult input callId output) st.msgs
        | none =>
          match findFc input callId with
          | some fc =>
            st.msgs ++ [⟨"assistant", .parts [mkToolCall fc]⟩,
              ⟨"tool", .parts [mkResult input callId output]⟩]
          | none => st.msgs,
      processed := st.processed ++ [callId] }

/-- The run of still-unmentioned function calls from this position. -/
def fcBatch (input : List RItem) (idx : Nat) (st : ConvState) : List RItem :=
  ((input.drop idx).takeWhile RItem.isFc).filter
    (fun it => !mentionsCall st.msgs ((it.fcId).getD ""))

/-- Append the batched tool calls, merging into a trailing assistant
array-content message. -/
def fcMerge (tcc : List Part) (msgs : List Msg) : List Msg :=
  match msgs.getLast? with
  | some last =>
    if last.role == "assistant" && last.hasArrayContent then
      msgs.dropLast ++ [⟨"assistant", .parts (last.parts ++ tcc)⟩]
    else msgs ++ [⟨"assistant", .parts tcc⟩]
  | none => msgs ++ [⟨"assistant", .parts tcc⟩]

/-- The bare `function_call` branch of the second pass. -/
def stepFc (input : List RItem) (idx : Nat) (callId : String) (st : ConvState) :
    ConvState :=
  if mentionsCall st.msgs callId then st
  else if (fcBatch input idx st).isEmpty then st
  else
    { st with
      msgs :=
        if (collectAnywhere input ((fcBatch input idx st).filterMap RItem.fcId)
            st.processed).1.isEmpty
        then fcMerge ((fcBatch input idx st).map mkToolCall) st.msgs
        else fcMerge ((fcBatch input idx st).map mkToolCall) st.msgs ++
          [⟨"tool", .parts (collectAnywhere input
            ((fcBatch input idx st).filterMap RItem.fcId) st.processed).1⟩],
      processed := (collectAnywhere input ((fcBatch input idx st).filterMap RItem.fcId)
        st.processed).2 }

/-- The developer/system-message branch: merge the text into the system
prompt. -/
def stepSystem (content : String) (st : ConvState) : ConvState :=
  if jsTrim content ≠ "" then
    { st with
      system :=
        match st.system with
        | some s => if s ≠ "" then some (s ++ "\n\n" ++ content) else some content
        | none => some content }
  else st

/-- The user-message branch. -/
def stepUser (content : String) (st : ConvState) : ConvState :=
  if content ≠ "" ∧ jsTrim content ≠ "" then
    { st with msgs := st.msgs ++ [⟨"user", .str content⟩] }
  else st

/-- Dispatch on the item at position `idx` (one iteration of the second
pass). -/
def stepItem (input : List RItem) (idx : Nat) (st : ConvState) : ConvState :=
  match input[idx]? with
  | some (.message .developer content) => stepSystem content st
  | some (.message .system content) => stepSystem content st
  | some (.message .assistant content) => stepAssistant input idx content st
  | some (.message .user content) => stepUser content st
  | some (.functionCall c _ _) => stepFc input idx c st
  | some (.functionCallOutput c out) => stepFco input c out st
  | none => st

/-- The second pass (`for (let itemIndex = 0; ...)`): fold the per-item step
over the item indices. -/
def convLoop (input : List RItem) (idxs : List Nat) (st : ConvState) : ConvState :=
  idxs.foldl (fun s idx => stepItem input idx s) st

/-- Lift string content to a single text part (the user-merge step of
`postProcessMessages`). -/
def toPartList : MContent → List Part
  | .str s => [.text s]
  | .parts ps => ps

/-- Merge consecutive `user` messages (first loop of `postProcessMessages`). -/
def mergeUsersAux (acc : List Msg) (msg : Msg) : List Msg :=
  match acc.getLast? with
  | some last =>
    if msg.role == "user" && last.role == "user" then
      acc.dropLast ++ [⟨"user", .parts (toPartList last.content ++ toPartList msg.content)⟩]
    else acc ++ [msg]
  | none => [msg]

def mergeUsers (msgs : List Msg) : List Msg :=
  msgs.foldl mergeUsersAux []

/-- All tool results with ids in `ids` found in tool messages of `rest`
(the forward scan of the repair step). -/
def gatherResults (ids : List String) (rest : List Msg) : List Part :=
  rest.foldl
    (fun acc m =>
      if m.role == "tool" && m.hasArrayContent then
        acc ++ m.parts.filter
          (fun p =>
            match p.toolResultId with
            | some c => ids.contains c
            | none => false)
      else acc)
    []

/-- Remove the lifted tool results from the later tool messages. -/
def stripResults (ids : List String) (msgs : List Msg) : List Msg :=
  msgs.map (fun m =>
    if m.role == "tool" && m.hasArrayContent then
      ⟨"tool", .parts (m.parts.filter
        (fun p =>
          match p.toolResultId with
          | some c => !ids.contains c
          | none => true))⟩
    else m)

/-- The validation loop of `postProcessMessages`: every assistant message
with tool calls whose next message is not a tool message has its results
lifted out of the later messages and spliced right after it.  Structural
recursion over a fuel bound (`stripResults` preserves length, so any fuel of
at least the list's length gives the loop's behaviour). -/
def validateLoopF : Nat → List Msg → List Msg
  | 0, msgs => msgs
  | _ + 1, [] => []
  | fuel + 1, msg :: rest =>
    let ids := msg.tcIds
    if ids.isEmpty then msg :: validateLoopF fuel rest
    else
      let nextIsTool :=
        match rest.head? with
        | some next => next.role == "tool"
        | none => false
      if nextIsTool then msg :: validateLoopF fuel rest
      else
        let tr := gatherResults ids rest
        if tr.isEmpty then msg :: validateLoopF fuel rest
        else msg :: ⟨"tool", .parts tr⟩ :: validateLoopF fuel (stripResults ids rest)

def validateLoop (msgs : List Msg) : List Msg :=
  validateLoopF msgs.length msgs

/-- Final filter of `postProcessMessages`: drop empty tool messages. -/
def dropEmptyTools (msgs : List Msg) : List Msg :=
  msgs.filter (fun m => m.role != "tool" || (m.hasArrayContent && !m.parts.isEmpty))

/-- `postProcessMessages(messages)`. -/
def postProcessMessages (msgs : List Msg) : List Msg :=
  dropEmptyTools (validateLoop (mergeUsers msgs))

/-- `convertResponsesInputToAISDK(input, instructions)` for an array input:
the produced messages and the system prompt. -/
def convertResponsesInputToAISDK (input : List RItem)
    (instructions : Option String) : List Msg × Option String :=
  let stEnd := convLoop input (List.range input.length) ⟨[], [], instructions⟩
  (postProcessMessages stEnd.msgs, stEnd.system)

/-- A placeholder message for total indexing. -/
def mdef : Msg := ⟨"", .str ""⟩

/-- The claim's pairing property: every assistant message containing
tool-call parts is immediately followed by a tool message whose tool-result
ids form the same set as the assistant message's tool-call ids. -/
def ToolPaired (msgs : List Msg) : Prop :=
  ∀ i, i < msgs.length → (msgs.getD i mdef).tcIds ≠ [] →
    i + 1 < msgs.length ∧ (msgs.getD (i + 1) mdef).role = "tool" ∧
      ∀ c, c ∈ (msgs.getD i mdef).tcIds ↔ c ∈ (msgs.getD (i + 1) mdef).trIds

/-- The ids of the `function_call` items of the input. -/
def fcIds (input : List RItem) : List String :=
  input.filterMap RItem.fcId

/-- The ids of the `function_call_output` items of the input. -/
def fcoIds (input : List RItem) : List String :=
  input.filterMap RItem.fcoId

/-! ## Auxiliary notions used by the theorems -/

/-- Substring test (`hay` contains `needle`), used to state "a reason
containing \"Duplicate\"". -/
def strContains (hay needle : String) : Bool :=
  (List.range (hay.data.length + 1)).any
    (fun i => needle.data.isPrefixOf (hay.data.drop i))

/-- The identity-style content hash used for concrete admission-controller
scenarios (any deterministic function stands in for the SHA-256 prefix). -/
def idHash : SMHash := ⟨fun s => s, fun b => b.raw⟩

/-- A concrete message-shaped request body. -/
def dupBody : SMBody := { messages := some ["m"], raw := "B" }

/-- Whether a Chat-Completions upstream part is a tool call. -/
def CCPart.isToolCall : CCPart → Bool
  | .toolCall _ _ _ => true
  | _ => false

/-- Whether a Responses upstream part is a text delta. -/
def RSPart.isTextDelta : RSPart → Bool
  | .textDelta _ => true
  | _ => false

/-- A request body whose last message's last content block is a `tool_use`
block with an unprefixed name. -/
def toolUseBody : JVal :=
  .obj [("messages", .arr [ .obj [("role", .str "user"),
    ("content", .arr [ .obj [("type", .str "tool_use"), ("name", .str "t")] ])] ])]

/-- The value of the *last* entry of an object member list carrying a key
(the value JavaScript's spread semantics retains for duplicated keys). -/
def lastVal (o : List (String × JVal)) (k : String) : Option JVal :=
  (o.reverse.find? (fun p => p.1 == k)).map (·.2)

/-- The Chat-Completions loop state after consuming a list of parts. -/
def ccState (st : CCStreamState) (ps : List CCPart) : CCStreamState :=
  ps.foldl (fun s p => (ccStep s p).1) st

/-! ## Block decomposition of the translated message list (analysis of C1)

Under unique and complete call ids, the message list built by the second
pass of `convertResponsesInputToAISDK` always decomposes into blocks: single
messages without tool calls, and completed chains of tool-call assistant
messages closed by a single tool message carrying exactly the chain's call
ids.  The definitions below express that decomposition and the loop
invariant that sustains it. -/

/-- A structural block of the message list built by the second pass. -/
inductive Block where
  | plain (m : Msg)
  | chain (As : List Msg) (t : List Part)

/-- The messages a block stands for. -/
def Block.conc : Block → List Msg
  | .plain m => [m]
  | .chain As t => As ++ [⟨"tool", .parts t⟩]

/-- Concatenation of the messages of a block list. -/
def concB : List Block → List Msg
  | [] => []
  | b :: bs => b.conc ++ concB bs

/-- The tool-call ids of a message list, in order. -/
def callIdsOf : List Msg → List String
  | [] => []
  | m :: ms => m.tcIds ++ callIdsOf ms

/-- The tool-call ids a block mentions. -/
def Block.callIds : Block → List String
  | .plain _ => []
  | .chain As _ => callIdsOf As

/-- The tool-call ids of a block list. -/
def allCallIds : List Block → List String
  | [] => []
  | b :: bs => b.callIds ++ allCallIds bs

/-- The ids of the tool-result parts of a part list. -/
def partIds (t : List Part) : List String :=
  t.filterMap Part.toolResultId

/-- Well-formedness of a plain block: a user or assistant message with no
tool-call parts. -/
def WFplain (m : Msg) : Prop :=
  (m.role = "user" ∨ m.role = "assistant") ∧ m.tcIds = []

/-- Well-formedness of a chain block: a non-empty run of assistant tool-call
messages whose closing tool message carries exactly the chain's call ids. -/
def WFchain (As : List Msg) (t : List Part) : Prop :=
  As ≠ [] ∧
  (∀ a ∈ As, a.role = "assistant" ∧ a.hasArrayContent = true ∧ a.tcIds ≠ []) ∧
  (∀ p ∈ t, (Part.toolResultId p).isSome = true) ∧
  (partIds t).Nodup ∧
  (∀ c, c ∈ partIds t ↔ c ∈ callIdsOf As)

def Block.WF : Block → Prop
  | .plain m => WFplain m
  | .chain As t => WFchain As t

/-- A well-formed block decomposition with globally distinct call ids. -/
def GoodBlocks (bs : List Block) : Prop :=
  (∀ b ∈ bs, b.WF) ∧ (allCallIds bs).Nodup

/-- Closed form of the forward result-gathering scan of the repair step
(`gatherResults` unrolled message by message). -/
def gatherInto (ids : List String) : List Msg → List Part
  | [] => []
  | m :: l =>
    (if m.role == "tool" && m.hasArrayContent then
      m.parts.filter (fun p =>
        match p.toolResultId with
        | some c => ids.contains c
        | none => false)
    else []) ++ gatherInto ids l

/-- Position of the `function_call` item carrying a call id. -/
def fcIdx : List RItem → String → Nat
  | [], _ => 0
  | it :: rest, c => if it.fcId == some c then 0 else fcIdx rest c + 1

/-- Position of the `function_call_output` item carrying a call id. -/
def fcoIdx : List RItem → String → Nat
  | [], _ => 0
  | it :: rest, c => if it.fcoId == some c then 0 else fcoIdx rest c + 1

/-- The loop invariant of the second pass under unique and complete call
ids: the emitted messages decompose into well-formed blocks; every mentioned
call id is a processed `function_call` id and vice versa for processed
`function_call` ids; every item strictly before the cursor has been handled;
and every mentioned call id is reachable — its output or its call was
already passed, or no message item separates the cursor from its call. -/
structure Inv (input : List RItem) (idx : Nat) (st : ConvState) : Prop where
  good : ∃ bs, st.msgs = concB bs ∧ GoodBlocks bs
  mentionFc : ∀ c, mentionsCall st.msgs c = true → c ∈ fcIds input
  mentionProcessed : ∀ c, mentionsCall st.msgs c = true → c ∈ st.processed
  processedMention : ∀ c, c ∈ st.processed → c ∈ fcIds input →
    mentionsCall st.msgs c = true
  fcBefore : ∀ j, j < idx → ∀ c n a,
    input[j]? = some (.functionCall c n a) → mentionsCall st.msgs c = true
  fcoBefore : ∀ j, j < idx → ∀ c o,
    input[j]? = some (.functionCallOutput c o) → c ∈ st.processed
  reach : ∀ c, mentionsCall st.msgs c = true →
    fcoIdx input c < idx ∨ fcIdx input c < idx ∨
    ∀ i, idx ≤ i → i < fcIdx input c → ∀ r s,
      input[i]? ≠ some (.message r s)

/-! # Theorems -/

/-- **C4.** Obtain-usable-access-token: `getValidAccessToken` returns a
failure value (`none`) iff no credential record exists on disk, and otherwise
returns exactly the stored `access` field, regardless of the stored expiry
value — no expiry check is performed. -/
theorem C4_getValidAccessToken (store : Option AuthData) :
    (getValidAccessToken store = none ↔ store = none) ∧
    (∀ a : AuthData, store = some a → getValidAccessToken store = some a.access) ∧
    (∀ a : AuthData, ∀ e : Int,
      getValidAccessToken (some { a with expires := e }) = some a.access) := by
  refine ⟨?_, ?_, ?_⟩
  · cases store <;> simp [getValidAccessToken]
  · rintro a rfl; rfl
  · intro a e; rfl

/-- Witness for C4 at a concrete store. -/
theorem C4_getValidAccessToken_witness :
    getValidAccessToken (some ⟨"r", "tok", 0⟩) = some "tok" :=
  (C4_getValidAccessToken (some ⟨"r", "tok", 0⟩)).2.1 ⟨"r", "tok", 0⟩ rfl

/-- **C5.** Force-refresh on upstream 401: when the OAuth refresh succeeds,
the full new triple is the one persisted to storage by the very call that
returns the new access token (the returned store holds `⟨r, a, e⟩` and the
returned token is `a`); when the refresh fails, `forceRefreshAccessToken`
returns `none` and the stored credential is unchanged; and in
`sendClaudeCodeRequest`, a 401 response whose refresh yields no new token is
returned to the caller as-is (same response object). -/
theorem C5_forceRefresh_refresh401 (refreshFn : String → ExchangeResult) :
    (∀ auth : AuthData, ∀ r a : String, ∀ e : Int,
      refreshFn auth.refresh = .success r a e →
      forceRefreshAccessToken refreshFn (some auth) = (some a, some ⟨r, a, e⟩)) ∧
    (∀ auth : AuthData, refreshFn auth.refresh = .failed →
      forceRefreshAccessToken refreshFn (some auth) = (none, some auth)) ∧
    (forceRefreshAccessToken refreshFn none = (none, none)) ∧
    (∀ resp : UpstreamResponse, resp.status = 401 →
      ∀ rest, sendClaudeCodeRequest (some resp :: rest) [] = .response resp) := by
  refine ⟨?_, ?_, rfl, ?_⟩
  · intro auth r a e h
    simp [forceRefreshAccessToken, h]
  · intro auth h
    simp [forceRefreshAccessToken, h]
  · intro resp h rest
    simp [sendClaudeCodeRequest, sendLoop, h]

/-- Witness for C5 at concrete inputs. -/
theorem C5_forceRefresh_refresh401_witness :
    forceRefreshAccessToken (fun _ => .success "r2" "a2" 7) (some ⟨"r1", "a1", 0⟩) =
      (some "a2", some ⟨"r2", "a2", 7⟩) ∧
    sendClaudeCodeRequest [some ⟨401, "orig"⟩] [] = .response ⟨401, "orig"⟩ :=
  ⟨(C5_forceRefresh_refresh401 (fun _ => .success "r2" "a2" 7)).1
      ⟨"r1", "a1", 0⟩ "r2" "a2" 7 rfl,
   (C5_forceRefresh_refresh401 (fun _ => .failed)).2.2.2 ⟨401, "orig"⟩ rfl []⟩

/-- **C10 counterexample.** The empty string is an input value on which
`convertToolChoice` returns `undefined`, not `"auto"`, although the claim
says every string other than the documented ones maps to `"auto"`. -/
theorem C10_convertToolChoice_counterexample :
    convertToolChoice (.jsStr "") = .undef ∧
    ((convertToolChoice (.jsStr "")) == .strv "auto") = false := by
  constructor <;> rfl

/-- **C10 (amended).** Tool-choice translation is total and closed over the
fixed result set; every *falsy* input (absent, `null`, `false`, `0`, `""`)
maps to `undefined`; every other string beyond `none`/`auto`/`required`/`any`
maps to `"auto"`; `"any"` and `\x7btype:"any"\x7d` map to `"required"`; a
`\x7btype:"function"\x7d` object with a non-empty `function.name` maps to the
tool selector; and every truthy object of unrecognised `type` maps to
`"auto"`. -/
theorem C10_convertToolChoice_total (tc : TCInput) :
    (convertToolChoice tc = .undef ∨ convertToolChoice tc = .strv "none" ∨
      convertToolChoice tc = .strv "auto" ∨ convertToolChoice tc = .strv "required" ∨
      ∃ n, convertToolChoice tc = .toolv n) ∧
    (tcTruthy tc = false → convertToolChoice tc = .undef) ∧
    (∀ s, tc = .jsStr s → s ≠ "" → s ≠ "none" → s ≠ "auto" → s ≠ "required" →
      s ≠ "any" → convertToolChoice tc = .strv "auto") ∧
    (convertToolChoice (.jsStr "any") = .strv "required") ∧
    (convertToolChoice (.jsObj (some "any") none) = .strv "required") ∧
    (∀ n, n ≠ "" → convertToolChoice (.jsObj (some "function") (some (some n))) =
      .toolv n) ∧
    (∀ ty fn, ty ≠ some "function" → ty ≠ some "any" → ty ≠ some "none" →
      ty ≠ some "auto" → ty ≠ some "required" →
      convertToolChoice (.jsObj ty fn) = .strv "auto") := by
  refine ⟨?_, ?_, ?_, rfl, rfl, ?_, ?_⟩
  · cases tc with
    | jsStr s =>
      simp only [convertToolChoice, tcTruthy]
      split <;> [exact Or.inl rfl; skip]
      split
      · rename_i h
        rcases h with h | h | h <;> subst h
        · right; left; rfl
        · right; right; left; rfl
        · right; right; right; left; rfl
      · split
        · right; right; right; left; rfl
        · right; right; left; rfl
    | jsObj ty fn =>
      simp only [convertToolChoice, tcTruthy, Bool.not_true, Bool.false_eq_true,
        if_false]
      split
      · rename_i hg
        match fn with
        | some (some n) => exact Or.inr (Or.inr (Or.inr (Or.inr ⟨n, rfl⟩)))
        | some none => exact absurd hg.2 (by simp [tcFunctionNameTruthy])
        | none => exact absurd hg.2 (by simp [tcFunctionNameTruthy])
      · split
        · right; right; right; left; rfl
        · split
          · right; right; right; left; rfl
          · split
            · right; left; rfl
            · split
              · right; right; left; rfl
              · split
                · right; right; right; left; rfl
                · right; right; left; rfl
    | absent => exact Or.inl rfl
    | jsNull => exact Or.inl rfl
    | jsBool b =>
      cases b
      · exact Or.inl rfl
      · right; right; left; rfl
    | jsNum n =>
      by_cases h : n = 0
      · subst h; exact Or.inl rfl
      · right; right; left
        simp [convertToolChoice, tcTruthy, h]
    | objOther => right; right; left; rfl
  · intro h
    simp [convertToolChoice, h]
  · rintro s rfl hne h1 h2 h3 h4
    simp [convertToolChoice, tcTruthy, hne, h1, h2, h3, h4]
  · intro n hn
    simp [convertToolChoice, tcTruthy, tcFunctionNameTruthy, hn]
  · intro ty fn h1 h2 h3 h4 h5
    simp [convertToolChoice, tcTruthy, h1, h2, h3, h4, h5]

/-- Witness for C10 at concrete inputs. -/
theorem C10_convertToolChoice_total_witness :
    convertToolChoice (.jsStr "weird") = .strv "auto" ∧
    convertToolChoice (.jsObj (some "function") (some (some "f"))) = .toolv "f" :=
  ⟨(C10_convertToolChoice_total (.jsStr "weird")).2.2.1 "weird" rfl
      (by decide) (by decide) (by decide) (by decide) (by decide),
   (C10_convertToolChoice_total (.jsObj (some "function") (some (some "f")))).2.2.2.2.2.1
      "f" (by decide)⟩

/-- **C9.** Session-key extraction is deterministic on message content: for
message-shaped bodies without an explicit session id, equal first message and
equal message count give equal keys of the form `msg_<N>_<hash(first)>`; an
explicit `session_id` takes precedence when present. -/
theorem C9_extractSessionId_deterministic (h : SMHash) :
    (∀ b1 b2 : SMBody, ∀ m : String, ∀ r1 r2 : List String,
      b1.sessionId = none → b1.metadataSessionId = none →
      b2.sessionId = none → b2.metadataSessionId = none →
      b1.messages = some (m :: r1) → b2.messages = some (m :: r2) →
      r1.length = r2.length →
      extractSessionId h b1 = extractSessionId h b2 ∧
      extractSessionId h b1 =
        "msg_" ++ toString (r1.length + 1) ++ "_" ++ h.hashMsg m) ∧
    (∀ b : SMBody, ∀ sid : String, b.sessionId = some sid → sid ≠ "" →
      extractSessionId h b = sid) := by
  constructor
  · intro b1 b2 m r1 r2 hs1 hm1 hs2 hm2 hmsg1 hmsg2 hlen
    have e1 : extractSessionId h b1 =
        "msg_" ++ toString (r1.length + 1) ++ "_" ++ h.hashMsg m := by
      simp [extractSessionId, extractSessionIdRest, hs1, hm1, hmsg1]
    have e2 : extractSessionId h b2 =
        "msg_" ++ toString (r2.length + 1) ++ "_" ++ h.hashMsg m := by
      simp [extractSessionId, extractSessionIdRest, hs2, hm2, hmsg2]
    constructor
    · rw [e1, e2, hlen]
    · rw [e1]
  · intro b sid hsid hne
    simp [extractSessionId, hsid, hne]

/-- Witness for C9 at concrete bodies. -/
theorem C9_extractSessionId_deterministic_witness :
    extractSessionId idHash { messages := some ["m", "x"], raw := "A" } =
      extractSessionId idHash { messages := some ["m", "y"], raw := "B" } ∧
    extractSessionId idHash { sessionId := some "sess", raw := "C" } = "sess" :=
  ⟨((C9_extractSessionId_deterministic idHash).1
      { messages := some ["m", "x"], raw := "A" }
      { messages := some ["m", "y"], raw := "B" }
      "m" ["x"] ["y"] rfl rfl rfl rfl rfl rfl rfl).1,
   (C9_extractSessionId_deterministic idHash).2
      { sessionId := some "sess", raw := "C" } "sess" rfl (by decide)⟩

/-- **C3 counterexample.** A second identical request arriving 500 ms after
the first, while the first is in flight, is rejected — but with the
session-busy reason, which does not contain `"Duplicate"`, although the
dedupe table does hold a fresh `inProgress` entry for the body's hash at that
moment (the claim's first listed check and the claimed reason are wrong). -/
theorem C3_admission_counterexample :
    (isDuplicateRequest {} idHash 1500
      (startRequest {} idHash 1000 {} (extractSessionId idHash dupBody) dupBody).2
      dupBody = true) ∧
    ((startRequest {} idHash 1500
      (startRequest {} idHash 1000 {} (extractSessionId idHash dupBody) dupBody).2
      (extractSessionId idHash dupBody) dupBody).1.accepted = false) ∧
    ((startRequest {} idHash 1500
      (startRequest {} idHash 1000 {} (extractSessionId idHash dupBody) dupBody).2
      (extractSessionId idHash dupBody) dupBody).1.reason =
      some (busyReason (extractSessionId idHash dupBody))) ∧
    (strContains (busyReason (extractSessionId idHash dupBody)) "Duplicate" = false) := by
  refine ⟨rfl, rfl, rfl, ?_⟩
  decide

/-- Replacing the value of a present key puts `(k, v)` where the first match
was. -/
theorem mapFind_replace {α : Type} (m : List (String × α)) (k : String) (v : α)
    (h : m.any (fun p => p.1 == k) = true) :
    (m.map (fun p => if p.1 == k then (k, v) else p)).find? (fun p => p.1 == k) =
      some (k, v) := by
  induction m with
  | nil => simp at h
  | cons p rest ih =>
    by_cases hp : (p.1 == k) = true
    · rw [List.map_cons, if_pos hp, List.find?_cons_of_pos]
      simp
    · have h' : rest.any (fun p => p.1 == k) = true := by
        simpa [List.any_cons, hp] using h
      rw [List.map_cons, if_neg hp, List.find?_cons_of_neg, ih h']
      simpa using hp

/-- `Map.get` after `Map.set` of the same key. -/
theorem mapGet_mapSet_self {α : Type} (m : List (String × α)) (k : String)
    (v : α) : mapGet (mapSet m k v) k = some v := by
  unfold mapGet mapSet
  by_cases h : m.any (fun p => p.1 == k)
  · simp only [h, if_true]
    rw [mapFind_replace m k v h]
    rfl
  · rw [if_neg h, List.find?_append]
    have hnone : m.find? (fun p => p.1 == k) = none := by
      rw [List.find?_eq_none]
      intro x hx
      have := List.any_eq_false.mp (Bool.eq_false_iff.mpr h) x hx
      simpa using this
    simp [hnone, List.find?_cons]

/-- **C3 (amended).** Admission-controller begin with the default
configuration: the *session-busy* check runs first — a non-expired
active-request entry for the session key yields a not-accepted result with
the session-busy reason; only otherwise, a dedupe entry for the body's hash
younger than the 2-second window that is still `inProgress` yields a
not-accepted result with the reason containing "Duplicate"; otherwise begin
inserts into both tables and accepts.  In particular a second identical
request while the first is in flight is rejected with the *session-busy*
reason. -/
theorem C3_admission_amended (h : SMHash) (st : SMState) (sid : String)
    (body : SMBody) (now t0 t1 : Nat) :
    (∀ active : ActiveRequest, mapGet st.activeRequests sid = some active →
      now - active.startTime ≤ 300000 →
      (startRequest {} h now st sid body).1 =
        ⟨false, some (busyReason sid)⟩) ∧
    (mapGet st.activeRequests sid = none →
      ∀ entry : DedupeEntry,
      mapGet st.dedupeCache (h.hashBody body) = some entry →
      now - entry.timestamp < 2000 → entry.inProgress = true →
      (startRequest {} h now st sid body).1 = ⟨false, some duplicateReason⟩) ∧
    (strContains duplicateReason "Duplicate" = true) ∧
    (mapGet st.activeRequests sid = none →
      isDuplicateRequest {} h now st body = false →
      (startRequest {} h now st sid body).1 = ⟨true, none⟩ ∧
      mapGet (startRequest {} h now st sid body).2.activeRequests sid =
        some ⟨now, h.hashBody body⟩ ∧
      mapGet (startRequest {} h now st sid body).2.dedupeCache (h.hashBody body) =
        some ⟨now, true⟩) ∧
    (mapGet st.activeRequests sid = none →
      isDuplicateRequest {} h t0 st body = false →
      t1 - t0 ≤ 300000 →
      (startRequest {} h t1 (startRequest {} h t0 st sid body).2 sid body).1 =
        ⟨false, some (busyReason sid)⟩) := by
  have hbusy : ∀ n : Nat, ∀ s : SMState, ∀ active : ActiveRequest,
      mapGet s.activeRequests sid = some active →
      n - active.startTime ≤ 300000 →
      (startRequest {} h n s sid body).1 = ⟨false, some (busyReason sid)⟩ := by
    intro n s active hget hyoung
    have : isSessionBusy {} n s sid = (true, s) := by
      simp [isSessionBusy, hget, Nat.not_lt.mpr hyoung]
    simp [startRequest, this]
  have hinsert : ∀ n : Nat, ∀ s : SMState,
      mapGet s.activeRequests sid = none →
      isDuplicateRequest {} h n s body = false →
      (startRequest {} h n s sid body).1 = ⟨true, none⟩ ∧
      (startRequest {} h n s sid body).2.activeRequests =
        mapSet s.activeRequests sid ⟨n, h.hashBody body⟩ ∧
      (startRequest {} h n s sid body).2.dedupeCache =
        mapSet s.dedupeCache (h.hashBody body) ⟨n, true⟩ := by
    intro n s hget hdup
    have hb : isSessionBusy {} n s sid = (false, s) := by
      simp [isSessionBusy, hget]
    simp [startRequest, hb, hdup]
  refine ⟨fun active hget hyoung => hbusy now st active hget hyoung,
    ?_, by decide, ?_, ?_⟩
  · intro hget entry hentry hyoung hprog
    have hb : isSessionBusy {} now st sid = (false, st) := by
      simp [isSessionBusy, hget]
    have hd : isDuplicateRequest {} h now st body = true := by
      simp [isDuplicateRequest, hentry, hyoung, hprog]
    simp [startRequest, hb, hd]
  · intro hget hdup
    obtain ⟨hres, hact, hded⟩ := hinsert now st hget hdup
    refine ⟨hres, ?_, ?_⟩
    · rw [hact]; exact mapGet_mapSet_self _ _ _
    · rw [hded]; exact mapGet_mapSet_self _ _ _
  · intro hget hdup hwin
    obtain ⟨_, hact, _⟩ := hinsert t0 st hget hdup
    exact hbusy t1 _ ⟨t0, h.hashBody body⟩
      (by rw [hact]; exact mapGet_mapSet_self _ _ _) hwin

/-- Witness for C3 (amended) at a concrete state. -/
theorem C3_admission_amended_witness :
    (startRequest {} idHash 1500
      (startRequest {} idHash 1000 {} "s" dupBody).2 "s" dupBody).1 =
      ⟨false, some (busyReason "s")⟩ :=
  (C3_admission_amended idHash {} "s" dupBody 0 1000 1500).2.2.2.2
    rfl rfl (by decide)

/-- **C2.** The request decorator is *not* byte-idempotent, although both the
claim and the function's own doc comment say it is designed to be: on a body
whose last message's last content block is a `tool_use` block with an
unprefixed name, the first application renames the block and — because the
renaming branch returns early — skips the cache marker, which the second
application then attaches, so the serialised outputs differ. -/
theorem C2_decorator_not_idempotent :
    ((decorate (decorate toolUseBody)).ser == (decorate toolUseBody).ser) = false := by
  decide

/-- **C8 counterexample.** An upstream `error` part makes the handler emit an
error chunk *plus a premature `data: [DONE]`* immediately, and the later
`finish` part still emits its own final chunk and terminator — two final
chunks, two terminators; and a stream with no `finish` part produces no final
chunk at all. -/
theorem C8_stream_end_counterexample :
    chatCompletionsStream [.errorPart "boom", .finish] =
      [.finishChunk "error" true, .done, .finishChunk "error" true, .done] ∧
    ((chatCompletionsStream [.errorPart "boom", .finish]).filter
      CCChunk.isFinal).length = 2 ∧
    ((chatCompletionsStream [.textDelta "x"]).filter CCChunk.isFinal).length = 0 := by
  refine ⟨rfl, rfl, rfl⟩

/-- Splitting the Chat-Completions loop over an append. -/
theorem ccRun_append (st : CCStreamState) (ps qs : List CCPart) :
    ccRun st (ps ++ qs) = ccRun st ps ++ ccRun (ccState st ps) qs := by
  induction ps generalizing st with
  | nil => simp [ccRun, ccState]
  | cons p rest ih =>
    simp only [List.cons_append, ccRun, ccState, List.foldl_cons, List.append_eq]
    rw [ih]
    simp [ccState, List.append_assoc]

/-- On error-free, finish-free parts the loop emits neither a final chunk nor
a terminator, records no stream error, and records a tool-call id iff a
tool-call part occurred. -/
theorem ccRun_clean (ps : List CCPart) (st : CCStreamState)
    (he : ∀ m, CCPart.errorPart m ∉ ps) (hf : CCPart.finish ∉ ps) :
    (∀ c ∈ ccRun st ps, c.isFinal = false ∧ c ≠ .done) ∧
    (ccState st ps).streamError = st.streamError ∧
    ((ccState st ps).toolCallIds.length > 0 ↔
      (st.toolCallIds.length > 0 ∨ ps.any CCPart.isToolCall = true)) := by
  induction ps generalizing st with
  | nil => simp [ccRun, ccState]
  | cons p rest ih =>
    have he' : ∀ m, CCPart.errorPart m ∉ rest := fun m hm => he m (List.mem_cons_of_mem _ hm)
    have hf' : CCPart.finish ∉ rest := fun hm => hf (List.mem_cons_of_mem _ hm)
    have hstep := ih (ccStep st p).1 he' hf'
    cases p with
    | textDelta t =>
      refine ⟨?_, ?_, ?_⟩
      · intro c hc
        simp only [ccRun] at hc
        rcases List.mem_append.mp hc with h | h
        · simp only [ccStep, List.mem_singleton] at h
          subst h; exact ⟨rfl, by simp⟩
        · exact hstep.1 c h
      · simpa [ccState, List.foldl_cons, ccStep] using hstep.2.1
      · simpa [ccState, List.foldl_cons, ccStep, CCPart.isToolCall] using hstep.2.2
    | toolCall id name args =>
      refine ⟨?_, ?_, ?_⟩
      · intro c hc
        simp only [ccRun] at hc
        rcases List.mem_append.mp hc with h | h
        · simp only [ccStep, List.mem_singleton] at h
          subst h; exact ⟨rfl, by simp⟩
        · exact hstep.1 c h
      · simpa [ccState, List.foldl_cons, ccStep] using hstep.2.1
      · have hlen : (ccMapInsert st.toolCallIds id).length > 0 := by
          unfold ccMapInsert
          split
          · rename_i hmem
            exact List.length_pos.mpr
              (List.ne_nil_of_mem (List.mem_of_elem_eq_true hmem))
          · simp
        have hrw := hstep.2.2
        simp only [ccState, List.foldl_cons, ccStep] at hrw ⊢
        rw [hrw]
        constructor
        · intro _; right; simp [List.any_cons, CCPart.isToolCall]
        · intro _; left; exact hlen
    | errorPart m => exact (he m (List.mem_cons_self _ _)).elim
    | finish => exact (hf (List.mem_cons_self _ _)).elim
    | other =>
      refine ⟨?_, ?_, ?_⟩
      · intro c hc
        simp only [ccRun] at hc
        rcases List.mem_append.mp hc with h | h
        · simp only [ccStep] at h
          exact absurd h (List.not_mem_nil c)
        · exact hstep.1 c h
      · simpa [ccState, List.foldl_cons, ccStep] using hstep.2.1
      · simpa [ccState, List.foldl_cons, ccStep, CCPart.isToolCall] using hstep.2.2

/-- **C8 (amended).** For an error-free upstream sequence ending in its single
`finish` event, the handler emits exactly one final chunk — `finish_reason`
`"tool_calls"` if at least one tool call was emitted, else `"stop"` — and the
literal `data: [DONE]` terminator directly follows it.  (When a stream error
part occurs, the source instead emits an error chunk *with its own `[DONE]`*
at once, and the `finish` event still yields a second final chunk, as the
counterexample shows.) -/
theorem C8_stream_end_amended (ps : List CCPart)
    (he : ∀ m, CCPart.errorPart m ∉ ps) (hf : CCPart.finish ∉ ps) :
    chatCompletionsStream (ps ++ [.finish]) =
      ccRun {} ps ++
        [.finishChunk (if ps.any CCPart.isToolCall then "tool_calls" else "stop")
          false, .done] ∧
    (∀ c ∈ ccRun {} ps, c.isFinal = false ∧ c ≠ .done) ∧
    (chatCompletionsStream (ps ++ [.finish])).filter CCChunk.isFinal =
      [.finishChunk (if ps.any CCPart.isToolCall then "tool_calls" else "stop")
        false] := by
  obtain ⟨hclean, herr, htool⟩ := ccRun_clean ps {} he hf
  have hreason :
      ccRun (ccState {} ps) [.finish] =
        [.finishChunk (if ps.any CCPart.isToolCall then "tool_calls" else "stop")
          false] := by
    simp only [ccRun, ccStep, herr]
    by_cases htc : ps.any CCPart.isToolCall = true
    · have : (ccState {} ps).toolCallIds.length > 0 := htool.mpr (Or.inr htc)
      simp [htc, this, herr]
    · have h0 : ¬ (ccState {} ps).toolCallIds.length > 0 := by
        intro hgt
        rcases htool.mp hgt with h | h
        · simp at h
        · exact htc h
      simp [htc, h0, herr]
  have hmain : chatCompletionsStream (ps ++ [.finish]) =
      ccRun {} ps ++
        [.finishChunk (if ps.any CCPart.isToolCall then "tool_calls" else "stop")
          false, .done] := by
    unfold chatCompletionsStream
    rw [ccRun_append, hreason]
    simp
  refine ⟨hmain, hclean, ?_⟩
  rw [hmain, List.filter_append]
  have h1 : (ccRun {} ps).filter CCChunk.isFinal = [] := by
    rw [List.filter_eq_nil_iff]
    intro c hc
    simp [(hclean c hc).1]
  rw [h1]
  simp [CCChunk.isFinal]

/-- Witness for C8 (amended) on the S2-style stream. -/
theorem C8_stream_end_amended_witness :
    chatCompletionsStream
      [.textDelta "Let me check", .toolCall "call_7" "get_weather" "city",
        .finish] =
      [.contentDelta "Let me check",
       .toolCallDelta 0 "call_7" "get_weather" "city",
       .finishChunk "tool_calls" false, .done] := by
  have := (C8_stream_end_amended
    [.textDelta "Let me check", .toolCall "call_7" "get_weather" "city"]
    (by intro m; simp) (by simp)).1
  simpa [ccRun, ccStep] using this

/-- One step of the Responses loop emits events with consecutive sequence
numbers from the entry counter, and advances the counter by their number. -/
theorem rsStep_seq (st : RSState) (p : RSPart) :
    List.map REvent.seq (rsStep st p).2 =
      List.range' st.seq (rsStep st p).2.length ∧
    (rsStep st p).1.seq = st.seq + (rsStep st p).2.length := by
  cases p with
  | textDelta t =>
    by_cases h : st.hasTextContent <;>
      simp [rsStep, h, REvent.seq, List.range']
  | toolCall id name args => simp [rsStep, REvent.seq, List.range']
  | finish =>
    by_cases h : st.hasTextContent <;>
      simp [rsStep, h, REvent.seq, List.range']
  | other => simp [rsStep, List.range']

/-- Gluing consecutive sequence-number ranges over an append. -/
theorem seq_range_glue (s : Nat) (xs ys : List REvent)
    (hx : List.map REvent.seq xs = List.range' s xs.length)
    (hy : List.map REvent.seq ys = List.range' (s + xs.length) ys.length) :
    List.map REvent.seq (xs ++ ys) = List.range' s (xs ++ ys).length := by
  rw [List.map_append, hx, hy, List.length_append]
  have h := List.range'_append s xs.length ys.length 1
  simpa [Nat.add_comm] using h

/-- The Responses loop emits events with consecutive sequence numbers. -/
theorem rsRun_seq (parts : List RSPart) (st : RSState) :
    List.map REvent.seq (rsRun st parts).2 =
      List.range' st.seq (rsRun st parts).2.length ∧
    (rsRun st parts).1.seq = st.seq + (rsRun st parts).2.length := by
  induction parts generalizing st with
  | nil => simp [rsRun]
  | cons p rest ih =>
    obtain ⟨hx, hadv⟩ := rsStep_seq st p
    obtain ⟨ih1, ih2⟩ := ih (rsStep st p).1
    simp only [rsRun]
    constructor
    · refine seq_range_glue st.seq _ _ hx ?_
      rw [ih1, hadv]
    · rw [ih2, hadv, List.length_append]
      omega

/-- Without a text delta the loop keeps `hasTextContent` false and never
emits the message `output_item.added`. -/
theorem rsRun_no_message_item (parts : List RSPart) (st : RSState)
    (hp : ∀ p ∈ parts, RSPart.isTextDelta p = false)
    (hs : st.hasTextContent = false) :
    (∀ e ∈ (rsRun st parts).2, e.isMessageItemAdded = false) ∧
    (rsRun st parts).1.hasTextContent = false := by
  induction parts generalizing st with
  | nil => simpa [rsRun] using hs
  | cons p rest ih =>
    have hp' : ∀ q ∈ rest, RSPart.isTextDelta q = false :=
      fun q hq => hp q (List.mem_cons_of_mem _ hq)
    have hstate : (rsStep st p).1.hasTextContent = false := by
      cases p with
      | textDelta t => exact absurd (hp _ (List.mem_cons_self _ _)) (by simp [RSPart.isTextDelta])
      | toolCall id name args => simpa [rsStep] using hs
      | finish => cases hh : st.hasTextContent <;> simp [rsStep, hh] <;> simp_all
      | other => simpa [rsStep] using hs
    obtain ⟨ihe, ihs⟩ := ih (rsStep st p).1 hp' hstate
    refine ⟨?_, ihs⟩
    intro e he
    simp only [rsRun] at he
    rcases List.mem_append.mp he with h | h
    · cases p with
      | textDelta t => exact absurd (hp _ (List.mem_cons_self _ _)) (by simp [RSPart.isTextDelta])
      | toolCall id name args =>
        simp only [rsStep, List.mem_cons, List.not_mem_nil, or_false] at h
        rcases h with h | h | h <;> (subst h; rfl)
      | finish =>
        simp only [rsStep, hs] at h
        simp only [Bool.false_eq_true, if_false, List.mem_singleton] at h
        subst h; rfl
      | other => simp [rsStep] at h
    · exact ihe e h

/-- **C7.** In the Responses-format streaming output, the `sequence_number`
carried by the emitted events starts at 0 and is strictly increasing and
contiguous across the whole stream (loop events and a trailing
`response.error` included); and the message output item is created lazily on
the first text delta, so a response consisting purely of tool calls contains
no message `output_item.added`. -/
theorem C7_responses_sequence_numbers (parts : List RSPart) (err : Option String) :
    List.map REvent.seq (responsesStream parts err) =
      List.range (responsesStream parts err).length ∧
    ((∀ p ∈ parts, RSPart.isTextDelta p = false) →
      ∀ e ∈ responsesStream parts err, e.isMessageItemAdded = false) := by
  constructor
  · obtain ⟨hmap, hadv⟩ := rsRun_seq parts { seq := 1 }
    have hcreated : List.map REvent.seq [REvent.created 0] = List.range' 0 1 := by
      simp [REvent.seq, List.range']
    cases err with
    | none =>
      have h2 : List.map REvent.seq (rsRun { seq := 1 } parts).2 =
          List.range' (0 + [REvent.created 0].length)
            (rsRun { seq := 1 } parts).2.length := by
        simpa using hmap
      have hglue := seq_range_glue 0 [REvent.created 0]
        (rsRun { seq := 1 } parts).2 hcreated h2
      simp only [responsesStream, List.append_nil, List.range_eq_range']
      simpa using hglue
    | some m =>
      have h3 : List.map REvent.seq
          [REvent.responseError m (rsRun { seq := 1 } parts).1.seq] =
          List.range' (1 + (rsRun { seq := 1 } parts).2.length) 1 := by
        simp [REvent.seq, List.range']
        simpa using hadv
      have h2 : List.map REvent.seq
          ((rsRun { seq := 1 } parts).2 ++
            [REvent.responseError m (rsRun { seq := 1 } parts).1.seq]) =
          List.range' (0 + [REvent.created 0].length)
            ((rsRun { seq := 1 } parts).2 ++
              [REvent.responseError m (rsRun { seq := 1 } parts).1.seq]).length := by
        refine (seq_range_glue 1 _ _ (by simpa using hmap) ?_).trans (by norm_num)
        simpa using h3
      have hglue := seq_range_glue 0 [REvent.created 0] _ hcreated h2
      simp only [responsesStream, List.range_eq_range']
      simpa using hglue
  · intro hp e he
    obtain ⟨hloop, _⟩ := rsRun_no_message_item parts { seq := 1 } hp rfl
    cases err with
    | none =>
      simp only [responsesStream, List.append_nil, List.mem_cons] at he
      rcases he with h | h
      · subst h; rfl
      · exact hloop e h
    | some m =>
      simp only [responsesStream, List.cons_append, List.mem_cons] at he
      rcases he with h | h
      · subst h; rfl
      · rcases List.mem_append.mp h with h2 | h2
        · exact hloop e h2
        · simp only [List.mem_singleton] at h2
          subst h2; rfl

/-- Replacing the value of key `k` leaves lookups of other keys unchanged. -/
theorem find?_replace_other {α : Type} (m : List (String × α)) (k k' : String)
    (v : α) (h : k' ≠ k) :
    (m.map (fun p => if p.1 == k then (k, v) else p)).find? (fun p => p.1 == k') =
      m.find? (fun p => p.1 == k') := by
  induction m with
  | nil => rfl
  | cons p rest ih =>
    by_cases hp : (p.1 == k) = true
    · have hk : p.1 = k := by simpa using hp
      rw [List.map_cons, if_pos hp, List.find?_cons_of_neg, List.find?_cons_of_neg, ih]
      · simp [hk]; exact fun hh => h hh.symm
      · simp; exact fun hh => h hh.symm
    · rw [List.map_cons, if_neg hp]
      by_cases hq : (p.1 == k') = true
      · simp only [List.find?, hq]
      · have hq' : (p.1 == k') = false := by simpa using hq
        simp only [List.find?, hq']
        exact ih

/-- `Map.get` of a different key after `Map.set`. -/
theorem mapGet_mapSet_other {α : Type} (m : List (String × α)) (k k' : String)
    (v : α) (h : k' ≠ k) : mapGet (mapSet m k v) k' = mapGet m k' := by
  have hbk : ((k : String) == k') = false := by
    simp; exact fun hh => h hh.symm
  unfold mapGet mapSet
  split
  · rw [find?_replace_other m k k' v h]
  · rw [List.find?_append]
    cases hfind : m.find? (fun p => p.1 == k') with
    | some q => simp [hfind]
    | none => simp [hfind, List.find?_cons, hbk]

/-- `jget` after `jset` of the same key. -/
theorem jget_jset_self (o : List (String × JVal)) (k : String) (v : JVal) :
    jget (jset o k v) k = some v :=
  mapGet_mapSet_self o k v

/-- `jget` of a different key after `jset`. -/
theorem jget_jset_other (o : List (String × JVal)) (k k' : String) (v : JVal)
    (h : k' ≠ k) : jget (jset o k v) k' = jget o k' :=
  mapGet_mapSet_other o k k' v h

/-- Spreading members none of which carry key `k` leaves `k`'s value. -/
theorem jget_jspread_of_absent (sch : List (String × JVal)) :
    ∀ k : String, (∀ p ∈ sch, p.1 ≠ k) →
    ∀ acc, jget (jspread acc sch) k = jget acc k := by
  induction sch with
  | nil => intro k _ acc; rfl
  | cons p rest ih =>
    intro k h acc
    have h1 : p.1 ≠ k := h p (List.mem_cons_self _ _)
    have h' : ∀ q ∈ rest, q.1 ≠ k := fun q hq => h q (List.mem_cons_of_mem _ hq)
    show jget (jspread (jset acc p.1 p.2) rest) k = jget acc k
    rw [ih k h' _, jget_jset_other _ _ _ _ (Ne.symm h1)]

/-- Spreading duplicate-free members carrying `(k, w)` yields `w` at `k`. -/
theorem jget_jspread_of_mem_nodup (sch : List (String × JVal)) :
    ∀ (k : String) (w : JVal), (sch.map Prod.fst).Nodup → jget sch k = some w →
    ∀ acc, jget (jspread acc sch) k = some w := by
  induction sch with
  | nil => intro k w _ h acc; simp [jget] at h
  | cons p rest ih =>
    intro k w hnodup h acc
    show jget (jspread (jset acc p.1 p.2) rest) k = some w
    by_cases hp : (p.1 == k) = true
    · have hk : p.1 = k := by simpa using hp
      have hfind : List.find? (fun q => q.1 == k) (p :: rest) = some p := by
        apply List.find?_cons_of_pos
        exact hp
      have hw : w = p.2 := by
        unfold jget at h
        rw [hfind] at h
        simpa using h.symm
      have hnotin : p.1 ∉ rest.map Prod.fst :=
        (List.nodup_cons.mp (by simpa using hnodup)).1
      have habs : ∀ q ∈ rest, q.1 ≠ k := by
        intro q hq hqk
        exact hnotin (hk ▸ hqk ▸ List.mem_map_of_mem Prod.fst hq)
      rw [jget_jspread_of_absent rest k habs _, hk, jget_jset_self, hw]
    · have hfind : List.find? (fun q => q.1 == k) (p :: rest) =
          List.find? (fun q => q.1 == k) rest := by
        apply List.find?_cons_of_neg
        exact hp
      have h' : jget rest k = some w := by
        unfold jget at h ⊢
        rwa [hfind] at h
      have hnodup' : (rest.map Prod.fst).Nodup :=
        (List.nodup_cons.mp (by simpa using hnodup)).2
      exact ih k w hnodup' h' _

/-- A `jget` miss means no member carries the key. -/
theorem jget_eq_none_iff (o : List (String × JVal)) (k : String) :
    jget o k = none ↔ ∀ p ∈ o, p.1 ≠ k := by
  unfold jget
  rw [Option.map_eq_none', List.find?_eq_none]
  constructor
  · intro h p hp
    have := h p hp
    simpa using this
  · intro h p hp
    simpa using h p hp

/-- Step 1 of the decorator touches only the `system` key. -/
theorem jget_decorateSystem_other (e : Bool) (p : List (String × JVal))
    (k : String) (hk : k ≠ "system") :
    jget (decorateSystem e p) k = jget p k := by
  unfold decorateSystem
  split
  · rfl
  · split
    · exact jget_jset_other _ _ _ _ hk
    · split
      · exact jget_jset_other _ _ _ _ hk
      · split
        · exact jget_jset_other _ _ _ _ hk
        · exact jget_jset_other _ _ _ _ hk
        · rfl

/-- Step 3 of the decorator touches only the `messages` key. -/
theorem jget_decorateMessages_other (opts : ProcessRequestOptions)
    (p : List (String × JVal)) (k : String) (hk : k ≠ "messages") :
    jget (decorateMessages opts p) k = jget p k := by
  unfold decorateMessages
  split
  · exact jget_jset_other _ _ _ _ hk
  · rfl

/-- The element of a `mapIdx` at an in-range position. -/
theorem getD_mapIdx {α : Type} (l : List α) (f : Nat → α → α) (i : Nat)
    (d : α) (h : i < l.length) :
    (l.mapIdx f).getD i d = f i (l.getD i d) := by
  rw [List.getD_eq_getElem?_getD, List.getD_eq_getElem?_getD, List.getElem?_mapIdx,
    List.getElem?_eq_getElem h]
  rfl

/-- **C6 counterexample.** With the default options: a tools list in which
one tool already carries the `mcp_` prefix is left entirely unchanged — the
unprefixed tool `b` keeps its bare name and no cache marker is attached; and
an `input_schema` that already carries `type:"string"` keeps it (the spread
`\x7btype:"object", ...schema\x7d` lets the existing type win) and no
`properties` object is supplied. -/
theorem C6_tools_counterexample :
    (jget (processClaudeCodeRequestBody {}
        [("tools", .arr [.obj [("name", .str "mcp_a")], .obj [("name", .str "b")]])])
      "tools" =
      some (.arr [.obj [("name", .str "mcp_a")], .obj [("name", .str "b")]])) ∧
    (jget (processClaudeCodeRequestBody {}
        [("tools", .arr [.obj [("name", .str "a"),
          ("input_schema", .obj [("type", .str "string")])]])]) "tools" =
      some (.arr [.obj [("name", .str "mcp_a"),
        ("input_schema", .obj [("type", .str "string")]),
        ("cache_control", .obj [("type", .str "ephemeral")])]])) ∧
    (hasToolPrefix (some (.str "b")) = false) :=
  ⟨rfl, rfl, rfl⟩

/-- Lookups of keys other than `cache_control` pass through the conditional
cache-marker spread. -/
theorem jget_ccSpread_other (o : List (String × JVal)) (b : Bool) (k : String)
    (hk : k ≠ "cache_control") :
    jget (jspread o (if b then ccPairs true else [])) k = jget o k := by
  cases b
  · rfl
  · exact jget_jset_other _ _ _ _ hk

/-- The conditional cache-marker spread sets `cache_control` exactly when the
flag is on or the key was already present. -/
theorem jget_ccSpread_self (o : List (String × JVal)) (b : Bool) :
    (jget (jspread o (if b then ccPairs true else [])) "cache_control").isSome ↔
      (b = true ∨ (jget o "cache_control").isSome) := by
  cases b
  · show (jget o "cache_control").isSome ↔
      (false = true ∨ (jget o "cache_control").isSome)
    simp
  · have h : jspread o (if true then ccPairs true else []) =
        jset o "cache_control" (.obj [("type", .str "ephemeral")]) := rfl
    rw [h, jget_jset_self]
    simp

/-- The name step leaves every other key alone. -/
theorem jget_plainToolName_other (r0 : List (String × JVal)) (nv : Option JVal)
    (k : String) (hk : k ≠ "name") :
    jget (plainToolName r0 nv) k = jget r0 k := by
  cases nv with
  | none => rfl
  | some v =>
    cases v with
    | str s =>
      show jget (if s ≠ "" then jset r0 "name" (.str (TOOL_PREFIX ++ s))
        else jset r0 "name" (.str s)) k = jget r0 k
      split
      · exact jget_jset_other _ _ _ _ hk
      · exact jget_jset_other _ _ _ _ hk
    | null => exact jget_jset_other _ _ _ _ hk
    | bool b => exact jget_jset_other _ _ _ _ hk
    | arr xs => exact jget_jset_other _ _ _ _ hk
    | obj m => exact jget_jset_other _ _ _ _ hk

/-- The name step prefixes a non-empty string name. -/
theorem jget_plainToolName_name (r0 : List (String × JVal)) (s : String)
    (hs : s ≠ "") : jget (plainToolName r0 (some (.str s))) "name" =
      some (.str (TOOL_PREFIX ++ s)) := by
  show jget (if s ≠ "" then jset r0 "name" (.str (TOOL_PREFIX ++ s))
    else jset r0 "name" (.str s)) "name" = some (.str (TOOL_PREFIX ++ s))
  rw [if_pos hs]
  exact jget_jset_self _ _ _

/-- `jget` on the singleton base object. -/
theorem jget_singleton_other (K : String) (V : JVal) (k : String) (hk : k ≠ K) :
    jget [(K, V)] k = none := by
  unfold jget
  rw [List.find?_cons_of_neg]
  · rfl
  · simp
    exact fun hh => hk hh.symm

/-- Behaviour of one plain (non-custom) object tool under the decorator. -/
theorem decorateTool_plain (enable isLast : Bool) (o : List (String × JVal))
    (hcust : (jget o "type" == some (.str "custom") &&
      (jget o "custom").any JVal.truthy) = false) :
    ∃ o', decorateTool enable isLast (.obj o) = .obj o' ∧
      (∀ s, jget o "name" = some (.str s) → s ≠ "" →
        jget o' "name" = some (.str (TOOL_PREFIX ++ s))) ∧
      ((jget o' "cache_control").isSome ↔
        ((enable && isLast) = true ∨ (jget o "cache_control").isSome)) ∧
      (jget o "input_schema" = none → jget o' "input_schema" = none) ∧
      (∀ sch, jget o "input_schema" = some (.obj sch) →
        (sch.map Prod.fst).Nodup →
        ∃ sch', jget o' "input_schema" = some (.obj sch') ∧
          (jget sch "type" = none → jget sch' "type" = some (.str "object")) ∧
          (∀ v, jget sch "type" = some v → jget sch' "type" = some v) ∧
          (∀ k, k ≠ "type" → jget sch' k = jget sch k) ∧
          jget sch' "properties" = jget sch "properties") := by
  have hred : decorateTool enable isLast (.obj o) =
      plainToolSchema
        (plainToolName (jspread o (if enable && isLast then ccPairs true else []))
          (jget o "name"))
        (jget (plainToolName
          (jspread o (if enable && isLast then ccPairs true else []))
          (jget o "name")) "input_schema") := by
    simp only [decorateTool, hcust, Bool.false_eq_true, if_false]
  set r1 := plainToolName
    (jspread o (if enable && isLast then ccPairs true else [])) (jget o "name")
    with hr1
  have hr1_schema : jget r1 "input_schema" = jget o "input_schema" := by
    rw [hr1, jget_plainToolName_other _ _ _ (by decide),
      jget_ccSpread_other _ _ _ (by decide)]
  have hr1_cc : (jget r1 "cache_control").isSome ↔
      ((enable && isLast) = true ∨ (jget o "cache_control").isSome) := by
    rw [hr1, jget_plainToolName_other _ _ _ (by decide)]
    exact jget_ccSpread_self o _
  have hr1_name : ∀ s, jget o "name" = some (.str s) → s ≠ "" →
      jget r1 "name" = some (.str (TOOL_PREFIX ++ s)) := by
    intro s hs hne
    rw [hr1, hs]
    exact jget_plainToolName_name _ s hne
  have mkSchema : ∀ sch : List (String × JVal), (sch.map Prod.fst).Nodup →
      (jget sch "type" = none →
        jget (jspread [("type", .str "object")] sch) "type" = some (.str "object")) ∧
      (∀ v, jget sch "type" = some v →
        jget (jspread [("type", .str "object")] sch) "type" = some v) ∧
      (∀ k, k ≠ "type" →
        jget (jspread [("type", .str "object")] sch) k = jget sch k) := by
    intro sch hnodup
    refine ⟨?_, ?_, ?_⟩
    · intro hmiss
      have habs := (jget_eq_none_iff sch "type").mp hmiss
      rw [jget_jspread_of_absent sch "type" habs _]
      rfl
    · intro v hv
      exact jget_jspread_of_mem_nodup sch "type" v hnodup hv _
    · intro k hk
      cases hgk : jget sch k with
      | some w => exact jget_jspread_of_mem_nodup sch k w hnodup hgk _
      | none =>
        have habs := (jget_eq_none_iff sch k).mp hgk
        rw [jget_jspread_of_absent sch k habs _]
        exact jget_singleton_other _ _ _ hk
  cases hsch : jget o "input_schema" with
  | none =>
    have hresult : decorateTool enable isLast (.obj o) = .obj r1 := by
      rw [hred, hr1_schema.trans hsch]
      rfl
    refine ⟨r1, hresult, hr1_name, hr1_cc, fun _ => hr1_schema.trans hsch, ?_⟩
    intro sch h
    exact Option.noConfusion h
  | some v =>
    cases v with
    | obj sch =>
      have hr1s : jget r1 "input_schema" = some (.obj sch) := hr1_schema.trans hsch
      have hresult : decorateTool enable isLast (.obj o) =
          .obj (jset r1 "input_schema" (.obj (jspread [("type", .str "object")] sch))) := by
        rw [hred, hr1s]
        rfl
      refine ⟨_, hresult, ?_, ?_, ?_, ?_⟩
      · intro s hs hne
        rw [jget_jset_other _ _ _ _ (by decide)]
        exact hr1_name s hs hne
      · rw [jget_jset_other _ _ _ _ (by decide)]
        exact hr1_cc
      · intro h
        exact Option.noConfusion h
      · intro sch0 h hnodup
        injection h with h
        injection h with h
        subst h
        obtain ⟨f1, f2, f3⟩ := mkSchema _ hnodup
        exact ⟨_, jget_jset_self _ _ _, f1, f2, f3, f3 "properties" (by decide)⟩
    | null =>
      have hresult : decorateTool enable isLast (.obj o) = .obj r1 := by
        rw [hred, hr1_schema.trans hsch]
        rfl
      refine ⟨r1, hresult, hr1_name, hr1_cc, ?_, ?_⟩
      · intro h; exact Option.noConfusion h
      · intro sch h
        exact absurd (Option.some.inj h) (by intro hh; cases hh)
    | bool b =>
      cases b with
      | false =>
        have hresult : decorateTool enable isLast (.obj o) = .obj r1 := by
          rw [hred, hr1_schema.trans hsch]
          rfl
        refine ⟨r1, hresult, hr1_name, hr1_cc, ?_, ?_⟩
        · intro h; exact Option.noConfusion h
        · intro sch h
          exact absurd (Option.some.inj h) (by intro hh; cases hh)
      | true =>
        have hresult : decorateTool enable isLast (.obj o) =
            .obj (jset r1 "input_schema" (.obj [("type", .str "object")])) := by
          rw [hred, hr1_schema.trans hsch]
          rfl
        refine ⟨_, hresult, ?_, ?_, ?_, ?_⟩
        · intro s hs hne
          rw [jget_jset_other _ _ _ _ (by decide)]
          exact hr1_name s hs hne
        · rw [jget_jset_other _ _ _ _ (by decide)]
          exact hr1_cc
        · intro h; exact Option.noConfusion h
        · intro sch h
          exact absurd (Option.some.inj h) (by intro hh; cases hh)
    | str s =>
      by_cases hs : s = ""
      · subst hs
        have hresult : decorateTool enable isLast (.obj o) = .obj r1 := by
          rw [hred, hr1_schema.trans hsch]
          rfl
        refine ⟨r1, hresult, hr1_name, hr1_cc, ?_, ?_⟩
        · intro h; exact Option.noConfusion h
        · intro sch h
          exact absurd (Option.some.inj h) (by intro hh; cases hh)
      · have hresult : decorateTool enable isLast (.obj o) =
            .obj (jset r1 "input_schema" (.obj [("type", .str "object")])) := by
          rw [hred, hr1_schema.trans hsch]
          simp [plainToolSchema, JVal.truthy, hs]
        refine ⟨_, hresult, ?_, ?_, ?_, ?_⟩
        · intro s0 hs0 hne
          rw [jget_jset_other _ _ _ _ (by decide)]
          exact hr1_name s0 hs0 hne
        · rw [jget_jset_other _ _ _ _ (by decide)]
          exact hr1_cc
        · intro h; exact Option.noConfusion h
        · intro sch h
          exact absurd (Option.some.inj h) (by intro hh; cases hh)
    | arr xs =>
      have hresult : decorateTool enable isLast (.obj o) =
          .obj (jset r1 "input_schema" (.obj [("type", .str "object")])) := by
        rw [hred, hr1_schema.trans hsch]
        rfl
      refine ⟨_, hresult, ?_, ?_, ?_, ?_⟩
      · intro s hs hne
        rw [jget_jset_other _ _ _ _ (by decide)]
        exact hr1_name s hs hne
      · rw [jget_jset_other _ _ _ _ (by decide)]
        exact hr1_cc
      · intro h; exact Option.noConfusion h
      · intro sch h
        exact absurd (Option.some.inj h) (by intro hh; cases hh)

/-- **C6 (amended).** For every non-empty tools list: if the name of some tool
already begins with `mcp_`, the whole list is left unchanged; otherwise every
plain (non-custom) object tool gets its non-empty string name prefixed with
`mcp_`, the ephemeral cache marker is attached to the last tool only (tools
that already carried one keep it), a missing `input_schema` stays missing,
and a present duplicate-free object `input_schema` is rebuilt as
`\x7btype:"object", ...schema\x7d`: it gains `type:"object"` only when it had
no `type`, keeps an existing `type`, and keeps every other key unchanged (in
particular no `properties` object is forced). -/
theorem C6_tools_decoration (p : List (String × JVal)) (ts : List JVal)
    (hts : jget p "tools" = some (.arr ts)) (hne : ts ≠ []) :
    ((∃ t ∈ ts, hasToolPrefix (toolScanName t) = true) →
      jget (processClaudeCodeRequestBody {} p) "tools" = some (.arr ts)) ∧
    ((∀ t ∈ ts, hasToolPrefix (toolScanName t) = false) →
      ∃ ts' : List JVal,
        jget (processClaudeCodeRequestBody {} p) "tools" = some (.arr ts') ∧
        ts'.length = ts.length ∧
        ∀ i, i < ts.length → ∀ o, ts.getD i .null = .obj o →
          isCustomTool o = false →
          ∃ o', ts'.getD i .null = .obj o' ∧
            (∀ s, jget o "name" = some (.str s) → s ≠ "" →
              jget o' "name" = some (.str (TOOL_PREFIX ++ s))) ∧
            ((jget o' "cache_control").isSome ↔
              (i = ts.length - 1 ∨ (jget o "cache_control").isSome)) ∧
            (jget o "input_schema" = none → jget o' "input_schema" = none) ∧
            (∀ sch, jget o "input_schema" = some (.obj sch) →
              (sch.map Prod.fst).Nodup →
              ∃ sch', jget o' "input_schema" = some (.obj sch') ∧
                (jget sch "type" = none → jget sch' "type" = some (.str "object")) ∧
                (∀ v, jget sch "type" = some v → jget sch' "type" = some v) ∧
                (∀ k, k ≠ "type" → jget sch' k = jget sch k) ∧
                jget sch' "properties" = jget sch "properties")) := by
  have hts1 : jget (decorateSystem true p) "tools" = some (.arr ts) := by
    rw [jget_decorateSystem_other true p "tools" (by decide)]
    exact hts
  constructor
  · intro ⟨t, hmem, hpref⟩
    have halready : ts.any (fun t => hasToolPrefix (toolScanName t)) = true :=
      List.any_eq_true.mpr ⟨t, hmem, hpref⟩
    have h2 : decorateTools {} (decorateSystem true p) = decorateSystem true p := by
      unfold decorateTools
      rw [hts1]
      simp [List.isEmpty_iff, hne, halready]
    unfold processClaudeCodeRequestBody
    rw [h2, jget_decorateMessages_other _ _ _ (by decide)]
    exact hts1
  · intro hnp
    have halready : ts.any (fun t => hasToolPrefix (toolScanName t)) = false :=
      List.any_eq_false.mpr (by intro t ht; simp [hnp t ht])
    have h2 : decorateTools {} (decorateSystem true p) =
        jset (decorateSystem true p) "tools"
          (.arr (ts.mapIdx (fun i t => decorateTool true (i == ts.length - 1) t))) := by
      unfold decorateTools
      rw [hts1]
      have hcond : (!ts.isEmpty) = true := by
        cases ts with
        | nil => exact absurd rfl hne
        | cons a l => rfl
      simp [hcond, halready]
    refine ⟨ts.mapIdx (fun i t => decorateTool true (i == ts.length - 1) t), ?_, by simp, ?_⟩
    · unfold processClaudeCodeRequestBody
      rw [h2, jget_decorateMessages_other _ _ _ (by decide), jget_jset_self]
    · intro i hi o ho hcust
      have hFi : (ts.mapIdx (fun i t => decorateTool true (i == ts.length - 1) t)).getD
          i .null = decorateTool true (i == ts.length - 1) (.obj o) := by
        rw [getD_mapIdx ts _ i .null hi, ho]
      obtain ⟨o', ho', hname, hcc, hsnone, hsobj⟩ :=
        decorateTool_plain true (i == ts.length - 1) o hcust
      refine ⟨o', by rw [hFi, ho'], hname, ?_, hsnone, hsobj⟩
      rw [hcc]
      constructor
      · rintro (h | h)
        · left
          simpa using h
        · right; exact h
      · rintro (h | h)
        · left
          simpa using h
        · right; exact h

/-- Witness for C6 (amended) at a concrete body. -/
theorem C6_tools_decoration_witness :
    jget (processClaudeCodeRequestBody {}
      [("tools", .arr [.obj [("name", .str "mcp_a")], .obj [("name", .str "b")]])])
      "tools" =
      some (.arr [.obj [("name", .str "mcp_a")], .obj [("name", .str "b")]]) :=
  (C6_tools_decoration
    [("tools", .arr [.obj [("name", .str "mcp_a")], .obj [("name", .str "b")]])]
    [.obj [("name", .str "mcp_a")], .obj [("name", .str "b")]]
    rfl (by simp)).1
    ⟨.obj [("name", .str "mcp_a")], List.mem_cons_self _ _, rfl⟩

/-- Witness for C7 on a pure tool-call stream. -/
theorem C7_responses_sequence_numbers_witness :
    List.map REvent.seq
      (responsesStream [.toolCall "c" "f" "x", .finish] none) =
      List.range (responsesStream [.toolCall "c" "f" "x", .finish] none).length ∧
    ∀ e ∈ responsesStream [.toolCall "c" "f" "x", .finish] none,
      e.isMessageItemAdded = false :=
  ⟨(C7_responses_sequence_numbers [.toolCall "c" "f" "x", .finish] none).1,
   (C7_responses_sequence_numbers [.toolCall "c" "f" "x", .finish] none).2
     (by intro p hp; simp at hp; rcases hp with h | h <;> subst h <;> rfl)⟩

/-! ## C1: block-decomposition toolkit -/

theorem contains_iff {c : String} {l : List String} : l.contains c = true ↔ c ∈ l :=
  List.elem_iff

theorem concB_append (xs ys : List Block) :
    concB (xs ++ ys) = concB xs ++ concB ys := by
  induction xs with
  | nil => rfl
  | cons b bs ih => simp [concB, ih, List.append_assoc]

theorem allCallIds_append (xs ys : List Block) :
    allCallIds (xs ++ ys) = allCallIds xs ++ allCallIds ys := by
  induction xs with
  | nil => rfl
  | cons b bs ih => simp [allCallIds, ih, List.append_assoc]

theorem callIdsOf_append (xs ys : List Msg) :
    callIdsOf (xs ++ ys) = callIdsOf xs ++ callIdsOf ys := by
  induction xs with
  | nil => rfl
  | cons m ms ih => simp [callIdsOf, ih, List.append_assoc]

theorem mem_callIdsOf {c : String} {ms : List Msg} :
    c ∈ callIdsOf ms ↔ ∃ m ∈ ms, c ∈ m.tcIds := by
  induction ms with
  | nil => simp [callIdsOf]
  | cons m ms ih =>
    simp only [callIdsOf, List.mem_append, ih, List.mem_cons]
    constructor
    · rintro (h | ⟨m', hm', hc⟩)
      · exact ⟨m, Or.inl rfl, h⟩
      · exact ⟨m', Or.inr hm', hc⟩
    · rintro ⟨m', rfl | hm', hc⟩
      · exact Or.inl hc
      · exact Or.inr ⟨m', hm', hc⟩

theorem mem_allCallIds {c : String} {bs : List Block} :
    c ∈ allCallIds bs ↔ ∃ b ∈ bs, c ∈ b.callIds := by
  induction bs with
  | nil => simp [allCallIds]
  | cons b bs ih =>
    simp only [allCallIds, List.mem_append, ih, List.mem_cons]
    constructor
    · rintro (h | ⟨b', hb', hc⟩)
      · exact ⟨b, Or.inl rfl, h⟩
      · exact ⟨b', Or.inr hb', hc⟩
    · rintro ⟨b', rfl | hb', hc⟩
      · exact Or.inl hc
      · exact Or.inr ⟨b', hb', hc⟩

theorem mentionsCall_iff {msgs : List Msg} {c : String} :
    mentionsCall msgs c = true ↔ ∃ m ∈ msgs, c ∈ m.tcIds := by
  simp [mentionsCall, List.any_eq_true, contains_iff]

theorem mentionsCall_append (xs ys : List Msg) (c : String) :
    mentionsCall (xs ++ ys) c = (mentionsCall xs c || mentionsCall ys c) := by
  simp [mentionsCall, List.any_append]

theorem tcIds_tool (t : List Part) : Msg.tcIds ⟨"tool", .parts t⟩ = [] := rfl

theorem tcIds_assistant (ps : List Part) :
    Msg.tcIds ⟨"assistant", .parts ps⟩ = ps.filterMap Part.toolCallId := rfl

theorem mentionsCall_concB {bs : List Block} (hw : ∀ b ∈ bs, b.WF) (c : String) :
    mentionsCall (concB bs) c = true ↔ c ∈ allCallIds bs := by
  induction bs with
  | nil => simp [concB, allCallIds, mentionsCall]
  | cons b bs ih =>
    have hb := hw b (List.mem_cons_self _ _)
    have ih' := ih (fun b' hb' => hw b' (List.mem_cons_of_mem _ hb'))
    rw [show concB (b :: bs) = b.conc ++ concB bs from rfl, mentionsCall_append]
    cases b with
    | plain m =>
      have hm : m.tcIds = [] := (show WFplain m from hb).2
      have h1 : mentionsCall (Block.conc (.plain m)) c = false := by
        simp [Block.conc, mentionsCall, hm]
      rw [h1, Bool.false_or, ih']
      simp [allCallIds, Block.callIds]
    | chain As t =>
      have h1 : mentionsCall (Block.conc (.chain As t)) c = true ↔ c ∈ callIdsOf As := by
        rw [show Block.conc (.chain As t) = As ++ [⟨"tool", .parts t⟩] from rfl,
          mentionsCall_append]
        have : mentionsCall [⟨"tool", .parts t⟩] c = false := by
          simp [mentionsCall, tcIds_tool]
        rw [this, Bool.or_false, mentionsCall_iff, mem_callIdsOf]
      simp only [Bool.or_eq_true, h1, ih', allCallIds, Block.callIds, List.mem_append]

theorem GoodBlocks.concat {bs : List Block} {b : Block} (h : GoodBlocks bs)
    (hb : b.WF) (hn : b.callIds.Nodup)
    (hd : ∀ c ∈ b.callIds, c ∉ allCallIds bs) : GoodBlocks (bs ++ [b]) := by
  constructor
  · intro b' hb'
    rcases List.mem_append.mp hb' with h' | h'
    · exact h.1 b' h'
    · rw [List.mem_singleton.mp h']
      exact hb
  · rw [allCallIds_append, List.nodup_append]
    refine ⟨h.2, ?_, ?_⟩
    · simpa [allCallIds] using hn
    · intro c hc hc'
      have : c ∈ b.callIds := by simpa [allCallIds] using hc'
      exact hd c this hc

theorem concB_concat_plain (cs : List Block) (m : Msg) :
    concB (cs ++ [.plain m]) = concB cs ++ [m] := by
  rw [concB_append]; rfl

theorem concB_concat_chain (cs : List Block) (As : List Msg) (t : List Part) :
    concB (cs ++ [.chain As t]) = (concB cs ++ As) ++ [⟨"tool", .parts t⟩] := by
  rw [concB_append]; simp [concB, Block.conc, List.append_assoc]

theorem mem_fcIds {input : List RItem} {c : String} :
    c ∈ fcIds input ↔ ∃ it ∈ input, RItem.fcId it = some c :=
  List.mem_filterMap

theorem mem_fcoIds {input : List RItem} {c : String} :
    c ∈ fcoIds input ↔ ∃ it ∈ input, RItem.fcoId it = some c :=
  List.mem_filterMap

theorem fcId_shape {it : RItem} {c : String} (h : RItem.fcId it = some c) :
    ∃ n a, it = .functionCall c n a := by
  cases it with
  | functionCall c' n a =>
    simp [RItem.fcId] at h
    exact ⟨n, a, by rw [h]⟩
  | message r s => simp [RItem.fcId] at h
  | functionCallOutput c' o => simp [RItem.fcId] at h

theorem fcoId_shape {it : RItem} {c : String} (h : RItem.fcoId it = some c) :
    ∃ o, it = .functionCallOutput c o := by
  cases it with
  | functionCallOutput c' o =>
    simp [RItem.fcoId] at h
    exact ⟨o, by rw [h]⟩
  | message r s => simp [RItem.fcoId] at h
  | functionCall c' n a => simp [RItem.fcoId] at h

theorem fcIdx_eq {input : List RItem} (h1 : (fcIds input).Nodup)
    {j : Nat} {c n a : String} (hj : input[j]? = some (.functionCall c n a)) :
    fcIdx input c = j := by
  induction input generalizing j with
  | nil => simp at hj
  | cons it rest ih =>
    cases j with
    | zero =>
      simp only [List.getElem?_cons_zero, Option.some.injEq] at hj
      subst hj
      simp [fcIdx, RItem.fcId]
    | succ k =>
      rw [List.getElem?_cons_succ] at hj
      have hcmem : c ∈ fcIds rest :=
        mem_fcIds.mpr ⟨_, List.mem_iff_getElem?.mpr ⟨k, hj⟩, rfl⟩
      have hfc : fcIds (it :: rest) = (RItem.fcId it).toList ++ fcIds rest := by
        cases hit : RItem.fcId it <;>
          simp [fcIds, List.filterMap_cons, hit, Option.toList]
      by_cases hbeq : (it.fcId == some c) = true
      · exfalso
        have hid : RItem.fcId it = some c := eq_of_beq hbeq
        rw [hfc, hid] at h1
        simp [Option.toList] at h1
        exact h1.1 hcmem
      · have h1' : (fcIds rest).Nodup := by
          rw [hfc] at h1
          exact h1.of_append_right
        rw [fcIdx, if_neg hbeq, ih h1' hj]

theorem fcoIdx_eq {input : List RItem} (h2 : (fcoIds input).Nodup)
    {j : Nat} {c o : String} (hj : input[j]? = some (.functionCallOutput c o)) :
    fcoIdx input c = j := by
  induction input generalizing j with
  | nil => simp at hj
  | cons it rest ih =>
    cases j with
    | zero =>
      simp only [List.getElem?_cons_zero, Option.some.injEq] at hj
      subst hj
      simp [fcoIdx, RItem.fcoId]
    | succ k =>
      rw [List.getElem?_cons_succ] at hj
      have hcmem : c ∈ fcoIds rest :=
        mem_fcoIds.mpr ⟨_, List.mem_iff_getElem?.mpr ⟨k, hj⟩, rfl⟩
      have hfc : fcoIds (it :: rest) = (RItem.fcoId it).toList ++ fcoIds rest := by
        cases hit : RItem.fcoId it <;>
          simp [fcoIds, List.filterMap_cons, hit, Option.toList]
      by_cases hbeq : (it.fcoId == some c) = true
      · exfalso
        have hid : RItem.fcoId it = some c := eq_of_beq hbeq
        rw [hfc, hid] at h2
        simp [Option.toList] at h2
        exact h2.1 hcmem
      · have h2' : (fcoIds rest).Nodup := by
          rw [hfc] at h2
          exact h2.of_append_right
        rw [fcoIdx, if_neg hbeq, ih h2' hj]

theorem takeWhile_getElem? {α : Type} {p : α → Bool} :
    ∀ (l : List α) (k : Nat) (x : α), (l.takeWhile p)[k]? = some x →
      l[k]? = some x ∧ p x = true := by
  intro l
  induction l with
  | nil => intro k x h; simp [List.takeWhile] at h
  | cons a l ih =>
    intro k x h
    rw [List.takeWhile_cons] at h
    by_cases hp : p a = true
    · rw [if_pos hp] at h
      cases k with
      | zero =>
        simp only [List.getElem?_cons_zero, Option.some.injEq] at h ⊢
        rw [← h]
        exact ⟨rfl, hp⟩
      | succ k =>
        rw [List.getElem?_cons_succ] at h ⊢
        exact ih k x h
    · rw [if_neg hp] at h
      simp at h

theorem takeWhile_prefix_prop {α : Type} {p : α → Bool} {l : List α} {k : Nat}
    {x : α} (h : (l.takeWhile p)[k]? = some x) :
    l[k]? = some x ∧ ∀ i, i ≤ k → ∃ y, l[i]? = some y ∧ p y = true := by
  refine ⟨(takeWhile_getElem? l k x h).1, ?_⟩
  intro i hi
  have hk : k < (l.takeWhile p).length := by
    rcases List.getElem?_eq_some.mp h with ⟨hlt, _⟩
    exact hlt
  have hi' : i < (l.takeWhile p).length := lt_of_le_of_lt hi hk
  obtain ⟨y, hy⟩ : ∃ y, (l.takeWhile p)[i]? = some y :=
    ⟨_, List.getElem?_eq_getElem hi'⟩
  have h2 := takeWhile_getElem? l i y hy
  exact ⟨y, h2.1, h2.2⟩

theorem bool_eq_of_iff {a b : Bool} (h : a = true ↔ b = true) : a = b := by
  cases a <;> cases b <;> simp_all

theorem contains_append_ne {pr : List String} {c c' : String} (h : c' ≠ c) :
    (pr ++ [c]).contains c' = pr.contains c' := by
  apply bool_eq_of_iff
  rw [contains_iff, contains_iff, List.mem_append, List.mem_singleton]
  constructor
  · rintro (h' | rfl)
    · exact h'
    · exact absurd rfl h
  · exact Or.inl

theorem mkResult_trId (input : List RItem) (c out : String) :
    Part.toolResultId (mkResult input c out) = some c := rfl

theorem partIds_cons_some {p : Part} {c : String} (h : Part.toolResultId p = some c)
    (t : List Part) : partIds (p :: t) = c :: partIds t := by
  simp [partIds, List.filterMap_cons, h]

theorem findFcoOut_isSome {input : List RItem} {c : String} (h : c ∈ fcoIds input) :
    (findFcoOut input c).isSome = true := by
  obtain ⟨it, hmem, hid⟩ := mem_fcoIds.mp h
  have hfind : (input.find? (fun it => it.fcoId == some c)).isSome = true :=
    List.find?_isSome.mpr ⟨it, hmem, by rw [hid]; exact beq_self_eq_true _⟩
  obtain ⟨it', hit'⟩ := Option.isSome_iff_exists.mp hfind
  have hp0 := List.find?_some hit'
  have hp : RItem.fcoId it' = some c := eq_of_beq hp0
  obtain ⟨o', rfl⟩ := fcoId_shape hp
  unfold findFcoOut
  rw [hit']
  rfl

theorem findFc_of_mem {input : List RItem} {c : String} (h : c ∈ fcIds input) :
    ∃ n a, findFc input c = some (.functionCall c n a) := by
  obtain ⟨it, hmem, hid⟩ := mem_fcIds.mp h
  have hfind : (input.find? (fun it => it.fcId == some c)).isSome = true :=
    List.find?_isSome.mpr ⟨it, hmem, by rw [hid]; exact beq_self_eq_true _⟩
  obtain ⟨it', hit'⟩ := Option.isSome_iff_exists.mp hfind
  have hp0 := List.find?_some hit'
  have hp : RItem.fcId it' = some c := eq_of_beq hp0
  obtain ⟨n, a, rfl⟩ := fcId_shape hp
  exact ⟨n, a, hit'⟩

theorem findFc_of_not_mem {input : List RItem} {c : String} (h : c ∉ fcIds input) :
    findFc input c = none := by
  unfold findFc
  rw [List.find?_eq_none]
  intro it hmem hp
  exact h (mem_fcIds.mpr ⟨it, hmem, eq_of_beq hp⟩)

theorem collectWindow_foldl (input : List RItem) (ids : List String) :
    ∀ (w : List RItem) (a : List Part) (pr : List String),
      (w.filterMap RItem.fcoId).Nodup →
      ∃ parts,
        w.foldl
          (fun acc it =>
            match it with
            | .functionCallOutput c out =>
              if ids.contains c && !acc.2.contains c then
                (acc.1 ++ [mkResult input c out], acc.2 ++ [c])
              else acc
            | _ => acc)
          (a, pr) = (a ++ parts, pr ++ partIds parts) ∧
        (∀ p ∈ parts, (Part.toolResultId p).isSome = true) ∧
        partIds parts =
          (w.filterMap RItem.fcoId).filter
            (fun c => ids.contains c && !pr.contains c) := by
  intro w
  induction w with
  | nil =>
    intro a pr _
    exact ⟨[], by simp [partIds], by simp, by simp [partIds]⟩
  | cons it w ih =>
    intro a pr hnd
    cases it with
    | message r s =>
      obtain ⟨parts, heq, hsome, hids⟩ :=
        ih a pr (by simpa [List.filterMap_cons, RItem.fcoId] using hnd)
      refine ⟨parts, ?_, hsome, ?_⟩
      · rw [List.foldl_cons]
        exact heq
      · rw [hids]
        simp [List.filterMap_cons, RItem.fcoId]
    | functionCall c n arg =>
      obtain ⟨parts, heq, hsome, hids⟩ :=
        ih a pr (by simpa [List.filterMap_cons, RItem.fcoId] using hnd)
      refine ⟨parts, ?_, hsome, ?_⟩
      · rw [List.foldl_cons]
        exact heq
      · rw [hids]
        simp [List.filterMap_cons, RItem.fcoId]
    | functionCallOutput c out =>
      have hnd' : (w.filterMap RItem.fcoId).Nodup := by
        rw [List.filterMap_cons] at hnd
        simp only [RItem.fcoId] at hnd
        exact hnd.of_cons
      have hcnot : c ∉ w.filterMap RItem.fcoId := by
        rw [List.filterMap_cons] at hnd
        simp only [RItem.fcoId] at hnd
        exact (List.nodup_cons.mp hnd).1
      rw [List.foldl_cons]
      by_cases hcond : (ids.contains c && !pr.contains c) = true
      · obtain ⟨parts, heq, hsome, hids⟩ :=
          ih (a ++ [mkResult input c out]) (pr ++ [c]) hnd'
        refine ⟨mkResult input c out :: parts, ?_, ?_, ?_⟩
        · show List.foldl _
              (if ids.contains c && !pr.contains c then
                (a ++ [mkResult input c out], pr ++ [c])
              else (a, pr)) w = _
          rw [if_pos hcond, heq, partIds_cons_some (mkResult_trId input c out)]
          simp [List.append_assoc]
        · intro p hp
          rcases List.mem_cons.mp hp with rfl | hp'
          · simp [mkResult_trId]
          · exact hsome p hp'
        · rw [partIds_cons_some (mkResult_trId input c out), hids,
            List.filterMap_cons]
          simp only [RItem.fcoId]
          rw [List.filter_cons, if_pos hcond]
          congr 1
          apply List.filter_congr
          intro c' hc'
          have hne : c' ≠ c := fun h => hcnot (h ▸ hc')
          rw [contains_append_ne hne]
      · obtain ⟨parts, heq, hsome, hids⟩ := ih a pr hnd'
        refine ⟨parts, ?_, hsome, ?_⟩
        · show List.foldl _
              (if ids.contains c && !pr.contains c then
                (a ++ [mkResult input c out], pr ++ [c])
              else (a, pr)) w = _
          rw [if_neg hcond]
          exact heq
        · rw [hids, List.filterMap_cons]
          simp only [RItem.fcoId]
          rw [List.filter_cons, if_neg hcond]

theorem collectWindow_spec {input : List RItem} {ids : List String}
    {w : List RItem} {pr : List String} (hnd : (w.filterMap RItem.fcoId).Nodup) :
    ∃ parts, collectWindow input w ids pr = (parts, pr ++ partIds parts) ∧
      (∀ p ∈ parts, (Part.toolResultId p).isSome = true) ∧
      partIds parts =
        (w.filterMap RItem.fcoId).filter
          (fun c => ids.contains c && !pr.contains c) := by
  obtain ⟨parts, heq, hsome, hids⟩ := collectWindow_foldl input ids w [] pr hnd
  exact ⟨parts, by simpa [collectWindow] using heq, hsome, hids⟩

theorem collectAnywhere_foldl (input : List RItem) :
    ∀ (cs : List String) (a : List Part) (pr : List String), cs.Nodup →
      (∀ c ∈ cs, c ∉ pr ∧ (findFcoOut input c).isSome = true) →
      ∃ parts,
        cs.foldl
          (fun acc c =>
            if acc.2.contains c then acc
            else
              match findFcoOut input c with
              | some out => (acc.1 ++ [mkResult input c out], acc.2 ++ [c])
              | none => acc)
          (a, pr) = (a ++ parts, pr ++ cs) ∧
        (∀ p ∈ parts, (Part.toolResultId p).isSome = true) ∧
        partIds parts = cs := by
  intro cs
  induction cs with
  | nil =>
    intro a pr _ _
    exact ⟨[], by simp [partIds], by simp, by simp [partIds]⟩
  | cons c cs ih =>
    intro a pr hnd h
    obtain ⟨hcpr, hcsome⟩ := h c (List.mem_cons_self _ _)
    obtain ⟨out, hout⟩ := Option.isSome_iff_exists.mp hcsome
    have hcontains : pr.contains c = false := by
      cases hb : pr.contains c
      · rfl
      · exact absurd (contains_iff.mp hb) hcpr
    rw [List.foldl_cons]
    obtain ⟨parts, heq, hsome, hids⟩ := ih (a ++ [mkResult input c out]) (pr ++ [c])
      (List.nodup_cons.mp hnd).2
      (by
        intro c' hc'
        obtain ⟨h1', h2'⟩ := h c' (List.mem_cons_of_mem _ hc')
        refine ⟨?_, h2'⟩
        intro hmem
        rcases List.mem_append.mp hmem with hm | hm
        · exact h1' hm
        · exact (List.nodup_cons.mp hnd).1 (List.mem_singleton.mp hm ▸ hc'))
    refine ⟨mkResult input c out :: parts, ?_, ?_, ?_⟩
    · show List.foldl _
          (if pr.contains c = true then (a, pr)
           else
             match findFcoOut input c with
             | some o => (a ++ [mkResult input c o], pr ++ [c])
             | none => (a, pr)) cs = _
      rw [hcontains, if_neg Bool.false_ne_true, hout]
      show List.foldl _ (a ++ [mkResult input c out], pr ++ [c]) cs = _
      rw [heq]
      simp [List.append_assoc]
    · intro p hp
      rcases List.mem_cons.mp hp with rfl | hp'
      · simp [mkResult_trId]
      · exact hsome p hp'
    · rw [partIds_cons_some (mkResult_trId input c out), hids]

theorem collectAnywhere_spec {input : List RItem} {cs pr : List String}
    (hnd : cs.Nodup) (h : ∀ c ∈ cs, c ∉ pr ∧ (findFcoOut input c).isSome = true) :
    ∃ parts, collectAnywhere input cs pr = (parts, pr ++ cs) ∧
      (∀ p ∈ parts, (Part.toolResultId p).isSome = true) ∧
      partIds parts = cs := by
  obtain ⟨parts, heq, hsome, hids⟩ := collectAnywhere_foldl input cs [] pr hnd h
  exact ⟨parts, by simpa [collectAnywhere] using heq, hsome, hids⟩

theorem gatherResults_foldl (ids : List String) :
    ∀ (l : List Msg) (acc : List Part),
      l.foldl
        (fun acc m =>
          if m.role == "tool" && m.hasArrayContent then
            acc ++ m.parts.filter
              (fun p =>
                match p.toolResultId with
                | some c => ids.contains c
                | none => false)
          else acc)
        acc = acc ++ gatherInto ids l := by
  intro l
  induction l with
  | nil => intro acc; simp [gatherInto]
  | cons m l ih =>
    intro acc
    rw [List.foldl_cons, ih]
    by_cases hc : (m.role == "tool" && m.hasArrayContent) = true
    · rw [if_pos hc, gatherInto, if_pos hc, List.append_assoc]
    · rw [if_neg hc, gatherInto, if_neg hc]
      simp

theorem gatherResults_eq (ids : List String) (l : List Msg) :
    gatherResults ids l = gatherInto ids l := by
  have h := gatherResults_foldl ids l []
  simpa [gatherResults] using h

theorem gatherInto_append (ids : List String) (l1 l2 : List Msg) :
    gatherInto ids (l1 ++ l2) = gatherInto ids l1 ++ gatherInto ids l2 := by
  induction l1 with
  | nil => simp [gatherInto]
  | cons m l ih => simp [gatherInto, ih, List.append_assoc]

theorem gatherInto_nontool (ids : List String) {l : List Msg}
    (h : ∀ m ∈ l, (m.role == "tool") = false) : gatherInto ids l = [] := by
  induction l with
  | nil => rfl
  | cons m l ih =>
    rw [gatherInto]
    rw [show (m.role == "tool" && m.hasArrayContent) = false by
      rw [h m (List.mem_cons_self _ _)]; rfl]
    simp [ih (fun m' hm' => h m' (List.mem_cons_of_mem _ hm'))]

theorem gatherInto_tool (ids : List String) (t : List Part) :
    gatherInto ids [⟨"tool", .parts t⟩] =
      t.filter (fun p =>
        match p.toolResultId with
        | some c => ids.contains c
        | none => false) := by
  simp [gatherInto, Msg.hasArrayContent, Msg.parts]

theorem stripResults_append (ids : List String) (l1 l2 : List Msg) :
    stripResults ids (l1 ++ l2) = stripResults ids l1 ++ stripResults ids l2 := by
  simp [stripResults]

theorem stripResults_nontool (ids : List String) {l : List Msg}
    (h : ∀ m ∈ l, (m.role == "tool") = false) : stripResults ids l = l := by
  induction l with
  | nil => rfl
  | cons m l ih =>
    rw [stripResults, List.map_cons]
    rw [show (m.role == "tool" && m.hasArrayContent) = false by
      rw [h m (List.mem_cons_self _ _)]; rfl]
    simp only [Bool.false_eq_true, if_false]
    rw [show (List.map _ l) = stripResults ids l from rfl,
      ih (fun m' hm' => h m' (List.mem_cons_of_mem _ hm'))]

theorem stripResults_tool (ids : List String) (t : List Part) :
    stripResults ids [⟨"tool", .parts t⟩] =
      [⟨"tool", .parts (t.filter (fun p =>
        match p.toolResultId with
        | some c => !ids.contains c
        | none => true))⟩] := by
  simp [stripResults, Msg.hasArrayContent, Msg.parts]

theorem partIds_filter_keep (ids : List String) :
    ∀ {t : List Part}, (∀ p ∈ t, (Part.toolResultId p).isSome = true) →
    partIds (t.filter (fun p =>
      match p.toolResultId with
      | some c => ids.contains c
      | none => false)) = (partIds t).filter (fun c => ids.contains c) := by
  intro t
  induction t with
  | nil => intro _; simp [partIds]
  | cons p t ih =>
    intro h
    obtain ⟨c, hc⟩ := Option.isSome_iff_exists.mp (h p (List.mem_cons_self _ _))
    have ih' := ih (fun q hq => h q (List.mem_cons_of_mem _ hq))
    rw [List.filter_cons, partIds_cons_some hc, List.filter_cons]
    simp only [hc]
    by_cases hm : ids.contains c = true
    · rw [if_pos hm, if_pos hm, partIds_cons_some hc, ih']
    · rw [if_neg hm, if_neg hm, ih']

theorem partIds_filter_drop (ids : List String) :
    ∀ {t : List Part}, (∀ p ∈ t, (Part.toolResultId p).isSome = true) →
    partIds (t.filter (fun p =>
      match p.toolResultId with
      | some c => !ids.contains c
      | none => true)) = (partIds t).filter (fun c => !ids.contains c) := by
  intro t
  induction t with
  | nil => intro _; simp [partIds]
  | cons p t ih =>
    intro h
    obtain ⟨c, hc⟩ := Option.isSome_iff_exists.mp (h p (List.mem_cons_self _ _))
    have ih' := ih (fun q hq => h q (List.mem_cons_of_mem _ hq))
    rw [List.filter_cons, partIds_cons_some hc, List.filter_cons]
    simp only [hc]
    by_cases hm : (!ids.contains c) = true
    · rw [if_pos hm, if_pos hm, partIds_cons_some hc, ih']
    · rw [if_neg hm, if_neg hm, ih']

theorem trIds_tool (t : List Part) : Msg.trIds ⟨"tool", .parts t⟩ = partIds t := rfl

theorem tcIds_user (cnt : MContent) : Msg.tcIds ⟨"user", cnt⟩ = [] := rfl

theorem concB_cons_plain (m : Msg) (bs : List Block) :
    concB (.plain m :: bs) = m :: concB bs := rfl

theorem concB_cons_chain (As : List Msg) (t : List Part) (bs : List Block) :
    concB (.chain As t :: bs) = As ++ (⟨"tool", .parts t⟩ :: concB bs) := by
  show (As ++ [⟨"tool", .parts t⟩]) ++ concB bs = _
  simp [List.append_assoc]

theorem validateLoopF_nil (fuel : Nat) : validateLoopF fuel [] = [] := by
  cases fuel <;> rfl

theorem toolPaired_nil : ToolPaired [] := by
  intro i hi
  simp at hi

theorem toolPaired_cons {m : Msg} {rest : List Msg} :
    ToolPaired (m :: rest) ↔
      ((m.tcIds ≠ [] → ∃ t rest', rest = t :: rest' ∧ t.role = "tool" ∧
        ∀ c, (c ∈ m.tcIds ↔ c ∈ t.trIds)) ∧ ToolPaired rest) := by
  constructor
  · intro h
    constructor
    · intro hm
      obtain ⟨h1, h2, h3⟩ := h 0 (Nat.succ_pos _) (by simpa using hm)
      cases rest with
      | nil => simp at h1
      | cons t rest' =>
        refine ⟨t, rest', rfl, ?_, ?_⟩
        · simpa using h2
        · intro c
          simpa using h3 c
    · intro i hi hne
      obtain ⟨h1, h2, h3⟩ := h (i + 1) (by simpa using Nat.succ_lt_succ hi)
        (by simpa using hne)
      refine ⟨by simpa using h1, by simpa using h2, ?_⟩
      intro c
      simpa using h3 c
  · rintro ⟨h0, hrest⟩ i hi hne
    cases i with
    | zero =>
      obtain ⟨t, rest', rfl, hrole, hiff⟩ := h0 (by simpa using hne)
      refine ⟨by simp only [List.length_cons]; omega, by simpa using hrole, ?_⟩
      intro c
      simpa using hiff c
    | succ i =>
      have hi' : i < rest.length := by simpa using hi
      obtain ⟨h1, h2, h3⟩ := hrest i hi' (by simpa using hne)
      refine ⟨by simpa using h1, by simpa using h2, ?_⟩
      intro c
      simpa using h3 c

theorem foldl_mergeAux_nonuser :
    ∀ (l : List Msg) (acc : List Msg), (∀ m ∈ l, (m.role == "user") = false) →
      l.foldl mergeUsersAux acc = acc ++ l := by
  intro l
  induction l with
  | nil => intro acc _; simp
  | cons m l ih =>
    intro acc h
    have hm := h m (List.mem_cons_self _ _)
    have haux : mergeUsersAux acc m = acc ++ [m] := by
      unfold mergeUsersAux
      cases hlast : acc.getLast? with
      | none =>
        rw [List.getLast?_eq_none_iff.mp hlast]
        rfl
      | some last =>
        rw [hm]
        rfl
    rw [List.foldl_cons, haux, ih (acc ++ [m])
      (fun m' hm' => h m' (List.mem_cons_of_mem _ hm'))]
    simp

theorem mergeUsersAux_concat (acc : List Msg) (last m : Msg) :
    mergeUsersAux (acc ++ [last]) m =
      if m.role == "user" && last.role == "user" then
        acc ++ [⟨"user", .parts (toPartList last.content ++ toPartList m.content)⟩]
      else (acc ++ [last]) ++ [m] := by
  unfold mergeUsersAux
  rw [List.getLast?_concat]
  show (if (m.role == "user" && last.role == "user") = true then
      (acc ++ [last]).dropLast ++
        [⟨"user", .parts (toPartList last.content ++ toPartList m.content)⟩]
    else (acc ++ [last]) ++ [m]) = _
  rw [List.dropLast_concat]

theorem mergeUsers_foldl_blocks :
    ∀ (bs cs : List Block), GoodBlocks (cs ++ bs) →
      ∃ ds, (concB bs).foldl mergeUsersAux (concB cs) = concB ds ∧ GoodBlocks ds := by
  intro bs
  induction bs with
  | nil =>
    intro cs hg
    exact ⟨cs, rfl, by simpa using hg⟩
  | cons b bs ih =>
    intro cs hg
    cases b with
    | chain As t =>
      have hw : Block.WF (.chain As t) := hg.1 (.chain As t) (by simp)
      have hnonuser : ∀ m ∈ As ++ [(⟨"tool", .parts t⟩ : Msg)],
          (m.role == "user") = false := by
        intro m hm
        rcases List.mem_append.mp hm with hm' | hm'
        · have := ((show WFchain As t from hw).2.1 m hm').1
          rw [this]
          rfl
        · rw [List.mem_singleton.mp hm']
          rfl
      have hstep : (concB (.chain As t :: bs)).foldl mergeUsersAux (concB cs) =
          (concB bs).foldl mergeUsersAux (concB (cs ++ [.chain As t])) := by
        show ((As ++ [(⟨"tool", .parts t⟩ : Msg)]) ++ concB bs).foldl mergeUsersAux _ = _
        rw [List.foldl_append, foldl_mergeAux_nonuser _ _ hnonuser, concB_append]
        simp [concB, Block.conc]
      rw [hstep]
      apply ih
      rw [List.append_assoc]
      simpa using hg
    | plain m =>
      have hstep0 : (concB (.plain m :: bs)).foldl mergeUsersAux (concB cs) =
          (concB bs).foldl mergeUsersAux (mergeUsersAux (concB cs) m) := by
        rw [concB_cons_plain, List.foldl_cons]
      rcases List.eq_nil_or_concat cs with rfl | ⟨cs', b', rfl⟩
      · have haux : mergeUsersAux (concB []) m = concB [Block.plain m] := rfl
        rw [hstep0, haux]
        apply ih
        simpa using hg
      · rw [List.concat_eq_append] at hg hstep0 ⊢
        cases b' with
        | chain As' t' =>
          have haux : mergeUsersAux (concB (cs' ++ [.chain As' t'])) m =
              concB ((cs' ++ [.chain As' t']) ++ [.plain m]) := by
            rw [concB_concat_chain, mergeUsersAux_concat]
            rw [show ((⟨"tool", .parts t'⟩ : Msg).role == "user") = false from rfl,
              Bool.and_false]
            rw [show concB ((cs' ++ [Block.chain As' t']) ++ [Block.plain m]) =
              concB (cs' ++ [Block.chain As' t']) ++ [m] from concB_concat_plain _ _]
            rw [concB_concat_chain]
            rfl
          rw [hstep0, haux]
          apply ih
          rw [List.append_assoc]
          simpa [List.append_assoc] using hg
        | plain u =>
          by_cases hcond : (m.role == "user" && u.role == "user") = true
          · have haux : mergeUsersAux (concB (cs' ++ [.plain u])) m =
                concB (cs' ++ [.plain ⟨"user",
                  .parts (toPartList u.content ++ toPartList m.content)⟩]) := by
              rw [concB_concat_plain, mergeUsersAux_concat, if_pos hcond,
                concB_concat_plain]
            rw [hstep0, haux]
            apply ih
            obtain ⟨hwf, hnd⟩ := hg
            constructor
            · intro b' hb'
              rcases List.mem_append.mp hb' with hb' | hb'
              · rcases List.mem_append.mp hb' with hb' | hb'
                · exact hwf b' (by simp [List.mem_append, hb'])
                · rw [List.mem_singleton.mp hb']
                  exact show WFplain ⟨"user",
                    .parts (toPartList u.content ++ toPartList m.content)⟩ from
                    ⟨Or.inl rfl, tcIds_user _⟩
              · exact hwf b' (by simp [List.mem_append, List.mem_cons, Or.inr hb'])
            · have e1 : allCallIds ((cs' ++ [Block.plain ⟨"user",
                  .parts (toPartList u.content ++ toPartList m.content)⟩]) ++ bs) =
                  allCallIds cs' ++ allCallIds bs := by
                rw [allCallIds_append, allCallIds_append]
                simp [allCallIds, Block.callIds]
              have e2 : allCallIds ((cs' ++ [Block.plain u]) ++ (Block.plain m :: bs)) =
                  allCallIds cs' ++ allCallIds bs := by
                rw [allCallIds_append, allCallIds_append]
                simp [allCallIds, Block.callIds]
              rw [e1]
              rw [e2] at hnd
              exact hnd
          · have haux : mergeUsersAux (concB (cs' ++ [.plain u])) m =
                concB ((cs' ++ [.plain u]) ++ [.plain m]) := by
              rw [concB_concat_plain, mergeUsersAux_concat,
                if_neg (by rw [Bool.eq_false_iff.mpr hcond]; exact Bool.false_ne_true),
                concB_concat_plain, concB_concat_plain]
            rw [hstep0, haux]
            apply ih
            rw [List.append_assoc]
            simpa [List.append_assoc] using hg

theorem mergeUsers_blocks (bs : List Block) (hg : GoodBlocks bs) :
    ∃ ds, mergeUsers (concB bs) = concB ds ∧ GoodBlocks ds := by
  obtain ⟨ds, heq, hgd⟩ := mergeUsers_foldl_blocks bs [] (by simpa using hg)
  exact ⟨ds, heq, hgd⟩

theorem dropEmptyTools_id {msgs : List Msg}
    (h : ∀ m ∈ msgs, m.role = "tool" →
      (m.hasArrayContent = true ∧ m.parts ≠ [])) :
    dropEmptyTools msgs = msgs := by
  unfold dropEmptyTools
  rw [List.filter_eq_self]
  intro m hm
  by_cases hr : m.role = "tool"
  · obtain ⟨h1, h2⟩ := h m hm hr
    have h3 : m.parts.isEmpty = false := by
      cases hp : m.parts.isEmpty
      · rfl
      · exact absurd (List.isEmpty_iff.mp hp) h2
    rw [hr, h1, h3]
    rfl
  · have : (m.role == "tool") = false := by
      cases hb : m.role == "tool"
      · rfl
      · exact absurd (eq_of_beq hb) hr
    rw [show (m.role != "tool") = true by rw [bne, this]; rfl]
    rfl

theorem GoodBlocks.tail {b : Block} {bs : List Block} (h : GoodBlocks (b :: bs)) :
    GoodBlocks bs := by
  refine ⟨fun b' hb' => h.1 b' (List.mem_cons_of_mem _ hb'), ?_⟩
  have h2 := h.2
  rw [show allCallIds (b :: bs) = b.callIds ++ allCallIds bs from rfl] at h2
  exact h2.of_append_right

theorem gatherInto_concB_disjoint (ids : List String) :
    ∀ (bs : List Block), (∀ b ∈ bs, b.WF) →
      (∀ c ∈ ids, c ∉ allCallIds bs) →
      gatherInto ids (concB bs) = [] := by
  intro bs
  induction bs with
  | nil => intro _ _; rfl
  | cons b bs ih =>
    intro hw hd
    rw [show concB (b :: bs) = b.conc ++ concB bs from rfl, gatherInto_append]
    rw [ih (fun b' h => hw b' (List.mem_cons_of_mem _ h))
      (fun c hc h => hd c hc
        (by rw [show allCallIds (b :: bs) = b.callIds ++ allCallIds bs from rfl]
            exact List.mem_append.mpr (Or.inr h)))]
    rw [List.append_nil]
    cases b with
    | plain m =>
      have hm : WFplain m := hw (.plain m) (List.mem_cons_self _ _)
      apply gatherInto_nontool
      intro m' hm'
      rw [List.mem_singleton.mp hm']
      rcases hm.1 with h | h <;> rw [h] <;> rfl
    | chain As t =>
      have hc : WFchain As t := hw (.chain As t) (List.mem_cons_self _ _)
      rw [show Block.conc (.chain As t) = As ++ [⟨"tool", .parts t⟩] from rfl,
        gatherInto_append]
      rw [gatherInto_nontool ids
        (fun m' hm' => by rw [(hc.2.1 m' hm').1]; rfl)]
      rw [gatherInto_tool, List.nil_append, List.filter_eq_nil_iff]
      intro p hp hpred
      obtain ⟨c, hcEq⟩ := Option.isSome_iff_exists.mp (hc.2.2.1 p hp)
      simp only [hcEq] at hpred
      have hcid : c ∈ ids := contains_iff.mp hpred
      have hcpart : c ∈ partIds t := List.mem_filterMap.mpr ⟨p, hp, hcEq⟩
      have hccall : c ∈ callIdsOf As := (hc.2.2.2.2 c).mp hcpart
      exact hd c hcid
        (by rw [show allCallIds (.chain As t :: bs)
              = callIdsOf As ++ allCallIds bs from rfl]
            exact List.mem_append.mpr (Or.inl hccall))

theorem stripResults_concB_disjoint (ids : List String) :
    ∀ (bs : List Block), (∀ b ∈ bs, b.WF) →
      (∀ c ∈ ids, c ∉ allCallIds bs) →
      stripResults ids (concB bs) = concB bs := by
  intro bs
  induction bs with
  | nil => intro _ _; rfl
  | cons b bs ih =>
    intro hw hd
    rw [show concB (b :: bs) = b.conc ++ concB bs from rfl, stripResults_append]
    rw [ih (fun b' h => hw b' (List.mem_cons_of_mem _ h))
      (fun c hc h => hd c hc
        (by rw [show allCallIds (b :: bs) = b.callIds ++ allCallIds bs from rfl]
            exact List.mem_append.mpr (Or.inr h)))]
    cases b with
    | plain m =>
      have hm : WFplain m := hw (.plain m) (List.mem_cons_self _ _)
      rw [stripResults_nontool ids
        (fun m' hm' => by
          rw [List.mem_singleton.mp hm']
          rcases hm.1 with h | h <;> rw [h] <;> rfl)]
    | chain As t =>
      have hc : WFchain As t := hw (.chain As t) (List.mem_cons_self _ _)
      rw [show Block.conc (.chain As t) = As ++ [⟨"tool", .parts t⟩] from rfl,
        stripResults_append]
      rw [stripResults_nontool ids
        (fun m' hm' => by rw [(hc.2.1 m' hm').1]; rfl)]
      rw [stripResults_tool]
      have hkeep : t.filter (fun p =>
          match p.toolResultId with
          | some c => !ids.contains c
          | none => true) = t := by
        rw [List.filter_eq_self]
        intro p hp
        obtain ⟨c, hcEq⟩ := Option.isSome_iff_exists.mp (hc.2.2.1 p hp)
        simp only [hcEq]
        have hcpart : c ∈ partIds t := List.mem_filterMap.mpr ⟨p, hp, hcEq⟩
        have hccall : c ∈ callIdsOf As := (hc.2.2.2.2 c).mp hcpart
        have hcnotin : c ∉ ids := by
          intro hcid
          exact hd c hcid
            (by rw [show allCallIds (.chain As t :: bs)
                  = callIdsOf As ++ allCallIds bs from rfl]
                exact List.mem_append.mpr (Or.inl hccall))
        cases hb : ids.contains c
        · rfl
        · exact absurd (contains_iff.mp hb) hcnotin
      rw [hkeep]

theorem validateLoopF_succ_cons (fuel : Nat) (msg : Msg) (rest : List Msg) :
    validateLoopF (fuel+1) (msg :: rest) =
      if msg.tcIds.isEmpty then msg :: validateLoopF fuel rest
      else if (match rest.head? with
        | some next => next.role == "tool"
        | none => false) then msg :: validateLoopF fuel rest
      else if (gatherResults msg.tcIds rest).isEmpty then
        msg :: validateLoopF fuel rest
      else msg :: ⟨"tool", .parts (gatherResults msg.tcIds rest)⟩ ::
        validateLoopF fuel (stripResults msg.tcIds rest) := rfl

theorem nextIsTool_cons (next : Msg) (l : List Msg) :
    (match (next :: l).head? with
      | some next => next.role == "tool"
      | none => false) = (next.role == "tool") := rfl

theorem validateLoopF_blocks :
    ∀ (n : Nat) (bs : List Block) (fuel : Nat), GoodBlocks bs →
      (concB bs).length ≤ n → (concB bs).length ≤ fuel →
      ToolPaired (validateLoopF fuel (concB bs)) ∧
      ∀ m ∈ validateLoopF fuel (concB bs), m.role = "tool" →
        (m.hasArrayContent = true ∧ m.parts ≠ []) := by
  intro n
  induction n using Nat.strong_induction_on with
  | _ n ih =>
    intro bs fuel hg hn hfuel
    cases bs with
    | nil =>
      rw [show concB [] = [] from rfl, validateLoopF_nil]
      exact ⟨toolPaired_nil, by simp⟩
    | cons b bs2 =>
      cases b with
      | plain m =>
        have hwm : WFplain m := hg.1 (.plain m) (List.mem_cons_self _ _)
        rw [concB_cons_plain] at hn hfuel ⊢
        rw [List.length_cons] at hn hfuel
        cases fuel with
        | zero => omega
        | succ f =>
          have hred : validateLoopF (f+1) (m :: concB bs2) =
              m :: validateLoopF f (concB bs2) := by
            rw [validateLoopF_succ_cons]
            rw [show m.tcIds.isEmpty = true from by rw [hwm.2]; rfl]
            rw [if_pos rfl]
          rw [hred]
          have hlt : n - 1 < n := by omega
          obtain ⟨htp, hmem⟩ := ih (n-1) hlt bs2 f hg.tail (by omega) (by omega)
          constructor
          · rw [toolPaired_cons]
            exact ⟨fun hne => absurd hwm.2 hne, htp⟩
          · intro m2 hm2 hrole
            rcases List.mem_cons.mp hm2 with rfl | hm3
            · rcases hwm.1 with h | h
              · exact absurd (h.symm.trans hrole) (by decide)
              · exact absurd (h.symm.trans hrole) (by decide)
            · exact hmem m2 hm3 hrole
      | chain As t =>
        have hwc : WFchain As t := hg.1 (.chain As t) (List.mem_cons_self _ _)
        cases As with
        | nil => exact absurd rfl hwc.1
        | cons A As1 =>
          rw [concB_cons_chain] at hn hfuel ⊢
          simp only [List.cons_append] at hn hfuel ⊢
          rw [List.length_cons] at hn hfuel
          cases fuel with
          | zero => omega
          | succ f =>
            have hAne : A.tcIds ≠ [] := (hwc.2.1 A (List.mem_cons_self _ _)).2.2
            have hAEmpty : A.tcIds.isEmpty = false := by
              cases h : A.tcIds.isEmpty
              · rfl
              · exact absurd (List.isEmpty_iff.mp h) hAne
            have hArole : A.role = "assistant" :=
              (hwc.2.1 A (List.mem_cons_self _ _)).1
            have hchainNodup : (callIdsOf (A :: As1)).Nodup := by
              have h2 := hg.2
              rw [show allCallIds (.chain (A :: As1) t :: bs2)
                = callIdsOf (A :: As1) ++ allCallIds bs2 from rfl] at h2
              exact h2.of_append_left
            have hdisjbs : ∀ c ∈ A.tcIds, c ∉ allCallIds bs2 := by
              intro c hc hmem
              have h2 := hg.2
              rw [show allCallIds (.chain (A :: As1) t :: bs2)
                = callIdsOf (A :: As1) ++ allCallIds bs2 from rfl] at h2
              exact (List.nodup_append.mp h2).2.2
                (by rw [show callIdsOf (A :: As1) = A.tcIds ++ callIdsOf As1 from rfl]
                    exact List.mem_append.mpr (Or.inl hc)) hmem
            have hwbs2 : ∀ b ∈ bs2, b.WF :=
              fun b hb => hg.1 b (List.mem_cons_of_mem _ hb)
            cases As1 with
            | nil =>
              rw [List.nil_append] at hn hfuel ⊢
              rw [List.length_cons] at hn hfuel
              cases f with
              | zero => omega
              | succ f2 =>
                have hred : validateLoopF (f2+2)
                    (A :: (⟨"tool", .parts t⟩ : Msg) :: concB bs2) =
                    A :: validateLoopF (f2+1)
                      ((⟨"tool", .parts t⟩ : Msg) :: concB bs2) := by
                  rw [validateLoopF_succ_cons]
                  rw [hAEmpty]
                  rw [if_neg Bool.false_ne_true]
                  rw [nextIsTool_cons]
                  rw [show ((⟨"tool", .parts t⟩ : Msg).role == "tool") = true from rfl]
                  rw [if_pos rfl]
                have hred2 : validateLoopF (f2+1)
                    ((⟨"tool", .parts t⟩ : Msg) :: concB bs2) =
                    (⟨"tool", .parts t⟩ : Msg) :: validateLoopF f2 (concB bs2) := by
                  rw [validateLoopF_succ_cons]
                  rw [show (Msg.tcIds ⟨"tool", .parts t⟩).isEmpty = true from rfl]
                  rw [if_pos rfl]
                rw [hred, hred2]
                have hlt : n - 2 < n := by omega
                obtain ⟨htp, hmem⟩ := ih (n-2) hlt bs2 f2 hg.tail (by omega) (by omega)
                have hiff : ∀ c, c ∈ A.tcIds ↔
                    c ∈ (⟨"tool", .parts t⟩ : Msg).trIds := by
                  intro c
                  rw [trIds_tool]
                  have h5 := hwc.2.2.2.2 c
                  rw [show callIdsOf [A] = A.tcIds ++ [] from rfl,
                    List.append_nil] at h5
                  exact h5.symm
                have htne : t ≠ [] := by
                  intro ht
                  obtain ⟨c, hc⟩ := List.exists_mem_of_ne_nil _ hAne
                  have hmc := (hiff c).mp hc
                  rw [trIds_tool, ht] at hmc
                  simp [partIds] at hmc
                constructor
                · rw [toolPaired_cons]
                  constructor
                  · intro _
                    exact ⟨⟨"tool", .parts t⟩, validateLoopF f2 (concB bs2),
                      rfl, rfl, hiff⟩
                  · rw [toolPaired_cons]
                    exact ⟨fun hne => absurd (tcIds_tool t) hne, htp⟩
                · intro m2 hm2 hrole
                  rcases List.mem_cons.mp hm2 with rfl | hm3
                  · exact absurd (hArole.symm.trans hrole) (by decide)
                  · rcases List.mem_cons.mp hm3 with rfl | hm4
                    · exact ⟨rfl, htne⟩
                    · exact hmem m2 hm4 hrole
            | cons A2 As2 =>
              simp only [List.cons_append] at hn hfuel ⊢
              rw [List.length_cons] at hn hfuel
              have hA2role : A2.role = "assistant" :=
                (hwc.2.1 A2 (List.mem_cons_of_mem _ (List.mem_cons_self _ _))).1
              have hgather : gatherResults A.tcIds
                  (A2 :: (As2 ++ (⟨"tool", .parts t⟩ : Msg) :: concB bs2)) =
                  t.filter (fun p =>
                    match p.toolResultId with
                    | some c => A.tcIds.contains c
                    | none => false) := by
                rw [gatherResults_eq]
                rw [show A2 :: (As2 ++ (⟨"tool", .parts t⟩ : Msg) :: concB bs2)
                  = (A2 :: As2) ++ ([(⟨"tool", .parts t⟩ : Msg)] ++ concB bs2)
                  from by simp]
                rw [gatherInto_append, gatherInto_append]
                rw [gatherInto_nontool _ (fun m2 hm2 => by
                  rw [(hwc.2.1 m2 (List.mem_cons_of_mem _ hm2)).1]; rfl)]
                rw [gatherInto_tool]
                rw [gatherInto_concB_disjoint _ bs2 hwbs2 hdisjbs]
                simp
              have htr_ids : partIds (t.filter (fun p =>
                  match p.toolResultId with
                  | some c => A.tcIds.contains c
                  | none => false)) = (partIds t).filter
                    (fun c => A.tcIds.contains c) :=
                partIds_filter_keep _ hwc.2.2.1
              have htrne : t.filter (fun p =>
                  match p.toolResultId with
                  | some c => A.tcIds.contains c
                  | none => false) ≠ [] := by
                obtain ⟨c, hc⟩ := List.exists_mem_of_ne_nil _ hAne
                have hcall : c ∈ callIdsOf (A :: A2 :: As2) := by
                  rw [show callIdsOf (A :: A2 :: As2)
                    = A.tcIds ++ callIdsOf (A2 :: As2) from rfl]
                  exact List.mem_append.mpr (Or.inl hc)
                have hpart : c ∈ partIds t := (hwc.2.2.2.2 c).mpr hcall
                obtain ⟨p, hp, hpEq⟩ := List.mem_filterMap.mp hpart
                intro hnil
                have hmemf : p ∈ t.filter (fun p =>
                    match p.toolResultId with
                    | some c => A.tcIds.contains c
                    | none => false) := by
                  rw [List.mem_filter]
                  refine ⟨hp, ?_⟩
                  simp only [hpEq]
                  exact contains_iff.mpr hc
                rw [hnil] at hmemf
                simp at hmemf
              have htrEmpty : (t.filter (fun p =>
                  match p.toolResultId with
                  | some c => A.tcIds.contains c
                  | none => false)).isEmpty = false := by
                cases h : (t.filter (fun p =>
                    match p.toolResultId with
                    | some c => A.tcIds.contains c
                    | none => false)).isEmpty
                · rfl
                · exact absurd (List.isEmpty_iff.mp h) htrne
              have hstrip : stripResults A.tcIds
                  (A2 :: (As2 ++ (⟨"tool", .parts t⟩ : Msg) :: concB bs2)) =
                  concB (.chain (A2 :: As2)
                    (t.filter (fun p =>
                      match p.toolResultId with
                      | some c => !A.tcIds.contains c
                      | none => true)) :: bs2) := by
                rw [show A2 :: (As2 ++ (⟨"tool", .parts t⟩ : Msg) :: concB bs2)
                  = (A2 :: As2) ++ ([(⟨"tool", .parts t⟩ : Msg)] ++ concB bs2)
                  from by simp]
                rw [stripResults_append, stripResults_append]
                rw [stripResults_nontool _ (fun m2 hm2 => by
                  rw [(hwc.2.1 m2 (List.mem_cons_of_mem _ hm2)).1]; rfl)]
                rw [stripResults_tool]
                rw [stripResults_concB_disjoint _ bs2 hwbs2 hdisjbs]
                rw [concB_cons_chain]
                simp
              cases f with
              | zero => omega
              | succ f2 =>
                have hred : validateLoopF (f2+2)
                    (A :: A2 :: (As2 ++ (⟨"tool", .parts t⟩ : Msg) :: concB bs2)) =
                    A :: ⟨"tool", .parts (t.filter (fun p =>
                      match p.toolResultId with
                      | some c => A.tcIds.contains c
                      | none => false))⟩ ::
                      validateLoopF (f2+1) (stripResults A.tcIds
                        (A2 :: (As2 ++ (⟨"tool", .parts t⟩ : Msg) :: concB bs2))) := by
                  rw [validateLoopF_succ_cons]
                  rw [hAEmpty]
                  rw [if_neg Bool.false_ne_true]
                  rw [nextIsTool_cons]
                  rw [show (A2.role == "tool") = false from by rw [hA2role]; rfl]
                  rw [if_neg Bool.false_ne_true]
                  rw [hgather, htrEmpty]
                  rw [if_neg Bool.false_ne_true]
                rw [hred, hstrip]
                have hnewGood : GoodBlocks (.chain (A2 :: As2)
                    (t.filter (fun p =>
                      match p.toolResultId with
                      | some c => !A.tcIds.contains c
                      | none => true)) :: bs2) := by
                  constructor
                  · intro b hb
                    rcases List.mem_cons.mp hb with rfl | hb2
                    · show WFchain _ _
                      refine ⟨by simp, fun a ha =>
                        hwc.2.1 a (List.mem_cons_of_mem _ ha), ?_, ?_, ?_⟩
                      · intro p hp
                        exact hwc.2.2.1 p (List.mem_filter.mp hp).1
                      · rw [partIds_filter_drop _ hwc.2.2.1]
                        exact hwc.2.2.2.1.sublist (List.filter_sublist _)
                      · intro c
                        rw [partIds_filter_drop _ hwc.2.2.1, List.mem_filter]
                        constructor
                        · rintro ⟨hpt, hnc⟩
                          have hcall := (hwc.2.2.2.2 c).mp hpt
                          rw [show callIdsOf (A :: A2 :: As2)
                            = A.tcIds ++ callIdsOf (A2 :: As2) from rfl] at hcall
                          rcases List.mem_append.mp hcall with hca | hcr
                          · rw [contains_iff.mpr hca] at hnc
                            simp at hnc
                          · exact hcr
                        · intro hcr
                          have hcall : c ∈ callIdsOf (A :: A2 :: As2) := by
                            rw [show callIdsOf (A :: A2 :: As2)
                              = A.tcIds ++ callIdsOf (A2 :: As2) from rfl]
                            exact List.mem_append.mpr (Or.inr hcr)
                          refine ⟨(hwc.2.2.2.2 c).mpr hcall, ?_⟩
                          have hnotA : c ∉ A.tcIds := by
                            intro hca
                            rw [show callIdsOf (A :: A2 :: As2)
                              = A.tcIds ++ callIdsOf (A2 :: As2) from rfl]
                              at hchainNodup
                            exact (List.nodup_append.mp hchainNodup).2.2 hca hcr
                          cases hb3 : A.tcIds.contains c
                          · rfl
                          · exact absurd (contains_iff.mp hb3) hnotA
                    · exact hg.1 b (List.mem_cons_of_mem _ hb2)
                  · rw [show allCallIds (.chain (A2 :: As2)
                      (t.filter (fun p =>
                        match p.toolResultId with
                        | some c => !A.tcIds.contains c
                        | none => true)) :: bs2)
                      = callIdsOf (A2 :: As2) ++ allCallIds bs2 from rfl]
                    have h2 := hg.2
                    rw [show allCallIds (.chain (A :: A2 :: As2) t :: bs2)
                      = (A.tcIds ++ callIdsOf (A2 :: As2)) ++ allCallIds bs2 from rfl,
                      List.append_assoc] at h2
                    exact h2.of_append_right
                have hlen : (concB (.chain (A2 :: As2)
                    (t.filter (fun p =>
                      match p.toolResultId with
                      | some c => !A.tcIds.contains c
                      | none => true)) :: bs2)).length =
                    (A2 :: (As2 ++ (⟨"tool", .parts t⟩ : Msg) :: concB bs2)).length := by
                  rw [concB_cons_chain]
                  simp [List.length_append]
                have hlt : n - 1 < n := by omega
                obtain ⟨htp, hmem⟩ := ih (n-1) hlt
                  (.chain (A2 :: As2)
                    (t.filter (fun p =>
                      match p.toolResultId with
                      | some c => !A.tcIds.contains c
                      | none => true)) :: bs2) (f2+1) hnewGood
                  (by rw [hlen]
                      simp only [List.length_cons, List.length_append] at hn ⊢
                      omega)
                  (by rw [hlen]
                      simp only [List.length_cons, List.length_append] at hfuel ⊢
                      omega)
                have hiff : ∀ c, c ∈ A.tcIds ↔
                    c ∈ (⟨"tool", .parts (t.filter (fun p =>
                      match p.toolResultId with
                      | some c => A.tcIds.contains c
                      | none => false))⟩ : Msg).trIds := by
                  intro c
                  rw [trIds_tool, htr_ids, List.mem_filter]
                  constructor
                  · intro hc
                    refine ⟨?_, contains_iff.mpr hc⟩
                    apply (hwc.2.2.2.2 c).mpr
                    rw [show callIdsOf (A :: A2 :: As2)
                      = A.tcIds ++ callIdsOf (A2 :: As2) from rfl]
                    exact List.mem_append.mpr (Or.inl hc)
                  · rintro ⟨_, hcont⟩
                    exact contains_iff.mp hcont
                constructor
                · rw [toolPaired_cons]
                  constructor
                  · intro _
                    exact ⟨_, _, rfl, rfl, hiff⟩
                  · rw [toolPaired_cons]
                    exact ⟨fun hne => absurd (tcIds_tool _) hne, htp⟩
                · intro m2 hm2 hrole
                  rcases List.mem_cons.mp hm2 with rfl | hm3
                  · exact absurd (hArole.symm.trans hrole) (by decide)
                  · rcases List.mem_cons.mp hm3 with rfl | hm4
                    · exact ⟨rfl, htrne⟩
                    · exact hmem m2 hm4 hrole

theorem postProcess_toolPaired {bs : List Block} (hg : GoodBlocks bs) :
    ToolPaired (postProcessMessages (concB bs)) := by
  obtain ⟨ds, hmrg, hgd⟩ := mergeUsers_blocks bs hg
  unfold postProcessMessages validateLoop
  rw [hmrg]
  obtain ⟨htp, hne⟩ := validateLoopF_blocks (concB ds).length ds
    (concB ds).length hgd le_rfl le_rfl
  rw [dropEmptyTools_id hne]
  exact htp

/-! ## C1: preservation of the loop invariant -/

theorem reach_mono {input : List RItem} {idx : Nat} {c : String}
    (h : fcoIdx input c < idx ∨ fcIdx input c < idx ∨
      ∀ i, idx ≤ i → i < fcIdx input c → ∀ r s,
        input[i]? ≠ some (.message r s)) :
    fcoIdx input c < idx + 1 ∨ fcIdx input c < idx + 1 ∨
      ∀ i, idx + 1 ≤ i → i < fcIdx input c → ∀ r s,
        input[i]? ≠ some (.message r s) := by
  rcases h with h | h | h
  · exact Or.inl (Nat.lt_succ_of_lt h)
  · exact Or.inr (Or.inl (Nat.lt_succ_of_lt h))
  · exact Or.inr (Or.inr (fun i hi => h i (by omega)))

theorem mentionsCall_false {msgs : List Msg} {c : String}
    (h : mentionsCall msgs c = false) : ∀ m ∈ msgs, m.tcIds.contains c = false := by
  intro m hm
  cases hb : m.tcIds.contains c
  · rfl
  · exfalso
    have ht : mentionsCall msgs c = true :=
      mentionsCall_iff.mpr ⟨m, hm, contains_iff.mp hb⟩
    rw [h] at ht
    exact Bool.false_ne_true ht

theorem mentionsCall_append_none {msgs : List Msg} {m : Msg}
    (hm : m.tcIds = []) (c : String) :
    mentionsCall (msgs ++ [m]) c = mentionsCall msgs c := by
  rw [mentionsCall_append]
  have h1 : mentionsCall [m] c = false := by simp [mentionsCall, hm]
  rw [h1, Bool.or_false]

theorem mem_take_pos {α : Type} {l : List α} {n : Nat} {x : α}
    (h : x ∈ l.take n) : ∃ j, j < n ∧ l[j]? = some x := by
  obtain ⟨j, hj⟩ := List.mem_iff_getElem?.mp h
  have hjlt : j < (l.take n).length := (List.getElem?_eq_some.mp hj).1
  rw [List.length_take] at hjlt
  have hjn : j < n := lt_of_lt_of_le hjlt (min_le_left _ _)
  refine ⟨j, hjn, ?_⟩
  rw [List.getElem?_take, if_pos hjn] at hj
  exact hj

theorem tailNoMsg_subset {l : List RItem} : ∀ it ∈ tailNoMsg l, it ∈ l := by
  intro it hmem
  unfold tailNoMsg at hmem
  rw [List.mem_reverse] at hmem
  have h := (List.takeWhile_sublist _).subset hmem
  rwa [List.mem_reverse] at h

theorem window_fact {input : List RItem} {idx : Nat} {x : RItem}
    (h : x ∈ saWindow input idx) :
    ∃ j, idx < j ∧ input[j]? = some x ∧
      ∀ i, idx < i → i < j → ∀ r s, input[i]? ≠ some (.message r s) := by
  obtain ⟨k, hk⟩ := List.mem_iff_getElem?.mp h
  obtain ⟨h1, h2⟩ := takeWhile_prefix_prop hk
  rw [List.getElem?_drop] at h1
  refine ⟨idx + 1 + k, by omega, h1, ?_⟩
  intro i hi1 hi2 r s hieq
  obtain ⟨y, hy1, hy2⟩ := h2 (i - (idx + 1)) (by omega)
  rw [List.getElem?_drop] at hy1
  rw [show idx + 1 + (i - (idx + 1)) = i from by omega] at hy1
  have hsome : some (RItem.message r s) = some y := hieq.symm.trans hy1
  rw [← Option.some.inj hsome] at hy2
  simp [RItem.isMessage] at hy2

theorem saWindow_sublist (input : List RItem) (idx : Nat) :
    (saWindow input idx).Sublist input :=
  (List.takeWhile_sublist _).trans (List.drop_sublist _ _)

theorem stepSystem_inv {input : List RItem} {idx : Nat} {st : ConvState}
    {r : RRole} {s : String} (hit : input[idx]? = some (.message r s))
    (hinv : Inv input idx st) (content : String) :
    Inv input (idx + 1) (stepSystem content st) := by
  have hmsgs : (stepSystem content st).msgs = st.msgs := by
    unfold stepSystem
    split <;> rfl
  have hproc : (stepSystem content st).processed = st.processed := by
    unfold stepSystem
    split <;> rfl
  refine ⟨?_, ?_, ?_, ?_, ?_, ?_, ?_⟩
  · rw [hmsgs]; exact hinv.good
  · intro c hc; rw [hmsgs] at hc; exact hinv.mentionFc c hc
  · intro c hc
    rw [hmsgs] at hc
    rw [hproc]
    exact hinv.mentionProcessed c hc
  · intro c hc hfc
    rw [hproc] at hc
    rw [hmsgs]
    exact hinv.processedMention c hc hfc
  · intro j hj c n a hj'
    rw [hmsgs]
    rcases Nat.lt_succ_iff_lt_or_eq.mp hj with hj | rfl
    · exact hinv.fcBefore j hj c n a hj'
    · rw [hit] at hj'
      simp at hj'
  · intro j hj c o hj'
    rw [hproc]
    rcases Nat.lt_succ_iff_lt_or_eq.mp hj with hj | rfl
    · exact hinv.fcoBefore j hj c o hj'
    · rw [hit] at hj'
      simp at hj'
  · intro c hc
    rw [hmsgs] at hc
    exact reach_mono (hinv.reach c hc)

theorem stepUser_inv {input : List RItem} {idx : Nat} {st : ConvState}
    {r : RRole} {s : String} (hit : input[idx]? = some (.message r s))
    (hinv : Inv input idx st) (content : String) :
    Inv input (idx + 1) (stepUser content st) := by
  unfold stepUser
  split
  · -- append a plain user message
    have hmf : ∀ c, mentionsCall (st.msgs ++ [⟨"user", .str content⟩]) c =
        mentionsCall st.msgs c := fun c => mentionsCall_append_none (tcIds_user _) c
    refine ⟨?_, ?_, ?_, ?_, ?_, ?_, ?_⟩
    · obtain ⟨bs, hbs, hgood⟩ := hinv.good
      refine ⟨bs ++ [.plain ⟨"user", .str content⟩], ?_, ?_⟩
      · show st.msgs ++ [⟨"user", .str content⟩] = _
        rw [hbs, concB_concat_plain]
      · exact hgood.concat (show WFplain _ from ⟨Or.inl rfl, tcIds_user _⟩)
          (by simp [Block.callIds]) (by simp [Block.callIds])
    · intro c hc
      rw [show ({ st with msgs := st.msgs ++ [⟨"user", .str content⟩]} :
        ConvState).msgs = st.msgs ++ [⟨"user", .str content⟩] from rfl, hmf] at hc
      exact hinv.mentionFc c hc
    · intro c hc
      rw [show ({ st with msgs := st.msgs ++ [⟨"user", .str content⟩]} :
        ConvState).msgs = st.msgs ++ [⟨"user", .str content⟩] from rfl, hmf] at hc
      exact hinv.mentionProcessed c hc
    · intro c hc hfc
      show mentionsCall (st.msgs ++ [⟨"user", .str content⟩]) c = true
      rw [hmf]
      exact hinv.processedMention c hc hfc
    · intro j hj c n a hj'
      show mentionsCall (st.msgs ++ [⟨"user", .str content⟩]) c = true
      rw [hmf]
      rcases Nat.lt_succ_iff_lt_or_eq.mp hj with hj | rfl
      · exact hinv.fcBefore j hj c n a hj'
      · rw [hit] at hj'
        simp at hj'
    · intro j hj c o hj'
      rcases Nat.lt_succ_iff_lt_or_eq.mp hj with hj | rfl
      · exact hinv.fcoBefore j hj c o hj'
      · rw [hit] at hj'
        simp at hj'
    · intro c hc
      rw [show ({ st with msgs := st.msgs ++ [⟨"user", .str content⟩]} :
        ConvState).msgs = st.msgs ++ [⟨"user", .str content⟩] from rfl, hmf] at hc
      exact reach_mono (hinv.reach c hc)
  · -- unchanged
    refine ⟨hinv.good, hinv.mentionFc, hinv.mentionProcessed,
      hinv.processedMention, ?_, ?_, fun c hc => reach_mono (hinv.reach c hc)⟩
    · intro j hj c n a hj'
      rcases Nat.lt_succ_iff_lt_or_eq.mp hj with hj | rfl
      · exact hinv.fcBefore j hj c n a hj'
      · rw [hit] at hj'
        simp at hj'
    · intro j hj c o hj'
      rcases Nat.lt_succ_iff_lt_or_eq.mp hj with hj | rfl
      · exact hinv.fcoBefore j hj c o hj'
      · rw [hit] at hj'
        simp at hj'

theorem nodup_append_concat {xs ys : List String} {c : String}
    (h : (xs ++ ys).Nodup) (hc : c ∉ xs ++ ys) : (xs ++ (ys ++ [c])).Nodup := by
  have he : xs ++ (ys ++ [c]) = (xs ++ ys) ++ [c] := by simp [List.append_assoc]
  rw [he, List.nodup_append]
  refine ⟨h, List.nodup_singleton _, ?_⟩
  intro a ha hb
  rw [List.mem_singleton.mp hb] at ha
  exact hc ha

theorem fcoHasCorr_false {c : String} {msgs : List Msg}
    (hm : mentionsCall msgs c = false) : fcoHasCorr c msgs = false := by
  unfold fcoHasCorr
  cases hgl : msgs.dropLast.getLast? with
  | none => rfl
  | some second =>
    exact mentionsCall_false hm second
      ((List.dropLast_sublist msgs).subset (List.mem_of_mem_getLast? hgl))

theorem stepFco_skip {input : List RItem} {c out : String} {st : ConvState}
    (hp : st.processed.contains c = true) :
    stepFco input c out st = st := by
  unfold stepFco
  rw [hp]
  exact rfl

theorem stepFco_noFc {input : List RItem} {c out : String} {st : ConvState}
    (hp : st.processed.contains c = false)
    (hm : mentionsCall st.msgs c = false)
    (hfc : findFc input c = none) :
    stepFco input c out st = { st with processed := st.processed ++ [c] } := by
  unfold stepFco
  rw [hp, if_neg Bool.false_ne_true]
  cases hgl : st.msgs.getLast? with
  | none =>
    rw [hfc]
  | some last =>
    show { st with
        msgs := if last.role == "tool" then
            fcoLastTool input c (mkResult input c out) st.msgs last
          else fcoNotTool input c (mkResult input c out) st.msgs,
        processed := st.processed ++ [c] } = _
    by_cases hrole : (last.role == "tool") = true
    · rw [if_pos hrole]
      unfold fcoLastTool
      rw [fcoHasCorr_false hm, if_neg Bool.false_ne_true, hfc]
    · rw [if_neg hrole]
      unfold fcoNotTool
      rw [List.findIdx?_eq_none_iff.mpr (mentionsCall_false hm), hfc]

theorem stepFco_append {input : List RItem} {c out n a : String} {st : ConvState}
    (hp : st.processed.contains c = false)
    (hm : mentionsCall st.msgs c = false)
    (hfc : findFc input c = some (.functionCall c n a))
    (hshape : st.msgs.getLast? = none ∨
      ∃ last, st.msgs.getLast? = some last ∧ (last.role == "tool") = false) :
    stepFco input c out st =
      { st with
        msgs := st.msgs ++ [⟨"assistant", .parts [.toolCall c n a]⟩,
          ⟨"tool", .parts [mkResult input c out]⟩],
        processed := st.processed ++ [c] } := by
  unfold stepFco
  rw [hp, if_neg Bool.false_ne_true]
  rcases hshape with hgl | ⟨last, hgl, hrole⟩
  · rw [hgl, hfc]
    exact rfl
  · rw [hgl]
    show { st with
        msgs := if last.role == "tool" then
            fcoLastTool input c (mkResult input c out) st.msgs last
          else fcoNotTool input c (mkResult input c out) st.msgs,
        processed := st.processed ++ [c] } = _
    rw [hrole, if_neg Bool.false_ne_true]
    unfold fcoNotTool
    rw [List.findIdx?_eq_none_iff.mpr (mentionsCall_false hm), hfc]
    exact rfl

theorem stepFco_insert {input : List RItem} {c out n a : String} {st : ConvState}
    {pre : List Msg} {t : List Part}
    (hp : st.processed.contains c = false)
    (hm : mentionsCall st.msgs c = false)
    (hfc : findFc input c = some (.functionCall c n a))
    (hmsgs : st.msgs = pre ++ [⟨"tool", .parts t⟩]) :
    stepFco input c out st =
      { st with
        msgs := pre ++ [⟨"assistant", .parts [.toolCall c n a]⟩,
          ⟨"tool", .parts (t ++ [mkResult input c out])⟩],
        processed := st.processed ++ [c] } := by
  unfold stepFco
  rw [hp, if_neg Bool.false_ne_true]
  rw [hmsgs, List.getLast?_concat]
  show { st with
      msgs := if (⟨"tool", .parts t⟩ : Msg).role == "tool" then
          fcoLastTool input c (mkResult input c out)
            (pre ++ [(⟨"tool", .parts t⟩ : Msg)]) ⟨"tool", .parts t⟩
        else fcoNotTool input c (mkResult input c out)
          (pre ++ [(⟨"tool", .parts t⟩ : Msg)]),
      processed := st.processed ++ [c] } = _
  rw [if_pos (show ((⟨"tool", .parts t⟩ : Msg).role == "tool") = true from rfl)]
  unfold fcoLastTool
  rw [fcoHasCorr_false (by rw [← hmsgs]; exact hm)]
  rw [if_neg Bool.false_ne_true]
  rw [hfc, List.dropLast_concat]
  exact rfl

theorem mentions_double_append {msgs : List Msg} {c n a : String} {tp : List Part}
    (c' : String) :
    mentionsCall (msgs ++ [⟨"assistant", .parts [.toolCall c n a]⟩,
      ⟨"tool", .parts tp⟩]) c' = true ↔
      (mentionsCall msgs c' = true ∨ c' = c) := by
  rw [show msgs ++ [(⟨"assistant", .parts [.toolCall c n a]⟩ : Msg),
      ⟨"tool", .parts tp⟩]
    = msgs ++ ([⟨"assistant", .parts [.toolCall c n a]⟩] ++
      [⟨"tool", .parts tp⟩]) from by simp]
  rw [mentionsCall_append, mentionsCall_append]
  have hAc : mentionsCall [(⟨"assistant", .parts [.toolCall c n a]⟩ : Msg)] c'
      = true ↔ c' = c := by
    rw [mentionsCall_iff]
    constructor
    · rintro ⟨m, hm', hmc⟩
      rw [List.mem_singleton.mp hm'] at hmc
      simpa [tcIds_assistant, Part.toolCallId] using hmc
    · rintro rfl
      exact ⟨_, List.mem_singleton.mpr rfl, by simp [tcIds_assistant, Part.toolCallId]⟩
  have hTm : mentionsCall [(⟨"tool", .parts tp⟩ : Msg)] c' = false := by
    simp [mentionsCall, tcIds_tool]
  rw [hTm, Bool.or_false, Bool.or_eq_true, hAc]

theorem stepFco_inv {input : List RItem} (h1 : (fcIds input).Nodup)
    (h2 : (fcoIds input).Nodup)
    {idx : Nat} {st : ConvState} {c out : String}
    (hit : input[idx]? = some (.functionCallOutput c out))
    (hinv : Inv input idx st) :
    Inv input (idx + 1) (stepFco input c out st) := by
  by_cases hp : st.processed.contains c = true
  · rw [stepFco_skip hp]
    refine ⟨hinv.good, hinv.mentionFc, hinv.mentionProcessed,
      hinv.processedMention, ?_, ?_, fun c' hc => reach_mono (hinv.reach c' hc)⟩
    · intro j hj c0 n0 a0 hj'
      rcases Nat.lt_succ_iff_lt_or_eq.mp hj with hj | rfl
      · exact hinv.fcBefore j hj c0 n0 a0 hj'
      · rw [hit] at hj'
        simp at hj'
    · intro j hj c0 o0 hj'
      rcases Nat.lt_succ_iff_lt_or_eq.mp hj with hj | rfl
      · exact hinv.fcoBefore j hj c0 o0 hj'
      · rw [hit] at hj'
        simp only [Option.some.injEq, RItem.functionCallOutput.injEq] at hj'
        rw [← hj'.1]
        exact contains_iff.mp hp
  · have hp' : st.processed.contains c = false := Bool.eq_false_iff.mpr hp
    have hm : mentionsCall st.msgs c = false := by
      cases hb : mentionsCall st.msgs c
      · rfl
      · have hc := contains_iff.mpr (hinv.mentionProcessed c hb)
        rw [hp'] at hc
        exact absurd hc Bool.false_ne_true
    have hfcoidx : fcoIdx input c = idx := fcoIdx_eq h2 hit
    by_cases hcfc : c ∈ fcIds input
    · obtain ⟨n, a, hfc⟩ := findFc_of_mem hcfc
      obtain ⟨bs, hbs, hgood⟩ := hinv.good
      -- common invariant-transfer script, for either result shape
      have main : ∀ msgs' : List Msg,
          (∃ bs', msgs' = concB bs' ∧ GoodBlocks bs') →
          (∀ c', mentionsCall msgs' c' = true ↔
            (mentionsCall st.msgs c' = true ∨ c' = c)) →
          Inv input (idx + 1)
            { st with msgs := msgs', processed := st.processed ++ [c] } := by
        intro msgs' hgood' hment
        refine ⟨hgood', ?_, ?_, ?_, ?_, ?_, ?_⟩
        · intro c' hc'
          rcases (hment c').mp hc' with h | rfl
          · exact hinv.mentionFc c' h
          · exact hcfc
        · intro c' hc'
          show c' ∈ st.processed ++ [c]
          rcases (hment c').mp hc' with h | rfl
          · exact List.mem_append.mpr (Or.inl (hinv.mentionProcessed c' h))
          · exact List.mem_append.mpr (Or.inr (List.mem_singleton.mpr rfl))
        · intro c' hc' hfc'
          show mentionsCall msgs' c' = true
          rcases List.mem_append.mp hc' with h | h
          · exact (hment c').mpr (Or.inl (hinv.processedMention c' h hfc'))
          · exact (hment c').mpr (Or.inr (List.mem_singleton.mp h))
        · intro j hj c0 n0 a0 hj'
          show mentionsCall msgs' c0 = true
          rcases Nat.lt_succ_iff_lt_or_eq.mp hj with hj | rfl
          · exact (hment c0).mpr (Or.inl (hinv.fcBefore j hj c0 n0 a0 hj'))
          · rw [hit] at hj'
            simp at hj'
        · intro j hj c0 o0 hj'
          show c0 ∈ st.processed ++ [c]
          rcases Nat.lt_succ_iff_lt_or_eq.mp hj with hj | rfl
          · exact List.mem_append.mpr (Or.inl (hinv.fcoBefore j hj c0 o0 hj'))
          · rw [hit] at hj'
            simp only [Option.some.injEq, RItem.functionCallOutput.injEq] at hj'
            exact List.mem_append.mpr
              (Or.inr (List.mem_singleton.mpr hj'.1.symm))
        · intro c' hc'
          rcases (hment c').mp hc' with h | rfl
          · exact reach_mono (hinv.reach c' h)
          · exact Or.inl (by omega)
      rcases List.eq_nil_or_concat bs with rfl | ⟨cs, b, rfl⟩
      · -- empty message list: append a fresh pair
        rw [stepFco_append hp' hm hfc (Or.inl (by rw [hbs]; rfl))]
        apply main
        · refine ⟨[.chain [⟨"assistant", .parts [.toolCall c n a]⟩]
            [mkResult input c out]], ?_, ?_⟩
          · rw [hbs]
            simp [concB, Block.conc]
          · constructor
            · intro b hb
              rw [List.mem_singleton.mp hb]
              show WFchain _ _
              refine ⟨by simp, ?_, ?_, ?_, ?_⟩
              · intro m hm'
                rw [List.mem_singleton.mp hm']
                exact ⟨rfl, rfl, by simp [tcIds_assistant, Part.toolCallId]⟩
              · intro p hp''
                rw [List.mem_singleton.mp hp'']
                simp [mkResult_trId]
              · simp [partIds, mkResult, Part.toolResultId]
              · intro c'
                simp [partIds, mkResult, Part.toolResultId, callIdsOf,
                  tcIds_assistant, Part.toolCallId]
            · simp [allCallIds, Block.callIds, callIdsOf, tcIds_assistant,
                Part.toolCallId, partIds]
        · intro c'
          exact mentions_double_append c'
      · rw [List.concat_eq_append] at hbs hgood
        have hfresh : c ∉ allCallIds (cs ++ [b]) := by
          intro hcmem
          have := (mentionsCall_concB hgood.1 c).mpr hcmem
          rw [← hbs, hm] at this
          exact Bool.false_ne_true this
        cases b with
        | plain m =>
          have hwm : WFplain m := hgood.1 (.plain m) (by simp)
          have hshape : st.msgs.getLast? = none ∨
              ∃ last, st.msgs.getLast? = some last ∧
                (last.role == "tool") = false := by
            refine Or.inr ⟨m, ?_, ?_⟩
            · rw [hbs, concB_concat_plain]
              exact List.getLast?_concat _
            · rcases hwm.1 with h | h <;> rw [h] <;> rfl
          rw [stepFco_append hp' hm hfc hshape]
          apply main
          · refine ⟨(cs ++ [.plain m]) ++
              [.chain [⟨"assistant", .parts [.toolCall c n a]⟩]
                [mkResult input c out]], ?_, ?_⟩
            · simp [hbs, concB_append, concB, Block.conc, List.append_assoc]
            · apply hgood.concat
              · show WFchain _ _
                refine ⟨by simp, ?_, ?_, ?_, ?_⟩
                · intro m' hm'
                  rw [List.mem_singleton.mp hm']
                  exact ⟨rfl, rfl, by simp [tcIds_assistant, Part.toolCallId]⟩
                · intro p hp''
                  rw [List.mem_singleton.mp hp'']
                  simp [mkResult_trId]
                · simp [partIds, mkResult, Part.toolResultId]
                · intro c'
                  simp [partIds, mkResult, Part.toolResultId, callIdsOf,
                    tcIds_assistant, Part.toolCallId]
              · simp [Block.callIds, callIdsOf, tcIds_assistant, Part.toolCallId]
              · intro c' hc'
                have : c' = c := by
                  simpa [Block.callIds, callIdsOf, tcIds_assistant,
                    Part.toolCallId] using hc'
                rw [this]
                exact hfresh
          · intro c'
            exact mentions_double_append c'
        | chain As t =>
          have hwch : WFchain As t := hgood.1 (.chain As t) (by simp)
          have hbs2 : st.msgs = (concB cs ++ As) ++ [⟨"tool", .parts t⟩] := by
            rw [hbs, concB_concat_chain]
          rw [stepFco_insert hp' hm hfc hbs2]
          have hAllOld : allCallIds (cs ++ [Block.chain As t]) =
              allCallIds cs ++ callIdsOf As := by
            rw [allCallIds_append]
            simp [allCallIds, Block.callIds]
          have hcnotAs : c ∉ callIdsOf As := by
            intro hmem
            exact hfresh (by rw [hAllOld]; exact List.mem_append.mpr (Or.inr hmem))
          have hcnotT : c ∉ partIds t := fun hmem =>
            hcnotAs ((hwch.2.2.2.2 c).mp hmem)
          apply main
          · refine ⟨cs ++ [.chain (As ++ [⟨"assistant",
              .parts [.toolCall c n a]⟩]) (t ++ [mkResult input c out])], ?_, ?_⟩
            · rw [concB_concat_chain]
              show (concB cs ++ As) ++ _ = _
              simp [List.append_assoc]
            · constructor
              · intro b hb
                rcases List.mem_append.mp hb with hb | hb
                · exact hgood.1 b (List.mem_append.mpr (Or.inl hb))
                · rw [List.mem_singleton.mp hb]
                  show WFchain _ _
                  refine ⟨by simp, ?_, ?_, ?_, ?_⟩
                  · intro m' hm'
                    rcases List.mem_append.mp hm' with hm' | hm'
                    · exact hwch.2.1 m' hm'
                    · rw [List.mem_singleton.mp hm']
                      exact ⟨rfl, rfl, by simp [tcIds_assistant, Part.toolCallId]⟩
                  · intro p hp''
                    rcases List.mem_append.mp hp'' with hp'' | hp''
                    · exact hwch.2.2.1 p hp''
                    · rw [List.mem_singleton.mp hp'']
                      simp [mkResult_trId]
                  · rw [partIds, List.filterMap_append]
                    show ((partIds t) ++ _).Nodup
                    rw [show List.filterMap Part.toolResultId
                        [mkResult input c out] = [c] from by
                      simp [mkResult, Part.toolResultId]]
                    rw [List.nodup_append]
                    refine ⟨hwch.2.2.2.1, List.nodup_singleton _, ?_⟩
                    intro x hx hx'
                    rw [List.mem_singleton.mp hx'] at hx
                    exact hcnotT hx
                  · intro c'
                    rw [partIds, List.filterMap_append, callIdsOf_append]
                    show c' ∈ partIds t ++ _ ↔ _
                    rw [show List.filterMap Part.toolResultId
                        [mkResult input c out] = [c] from by
                      simp [mkResult, Part.toolResultId]]
                    rw [List.mem_append, List.mem_append]
                    constructor
                    · rintro (h | h)
                      · exact Or.inl ((hwch.2.2.2.2 c').mp h)
                      · refine Or.inr ?_
                        rw [List.mem_singleton.mp h]
                        simp [callIdsOf, tcIds_assistant, Part.toolCallId]
                    · rintro (h | h)
                      · exact Or.inl ((hwch.2.2.2.2 c').mpr h)
                      · refine Or.inr ?_
                        have : c' = c := by
                          simpa [callIdsOf, tcIds_assistant,
                            Part.toolCallId] using h
                        rw [this]
                        exact List.mem_singleton.mpr rfl
              · have hNew : allCallIds (cs ++ [Block.chain (As ++ [⟨"assistant",
                    .parts [.toolCall c n a]⟩]) (t ++ [mkResult input c out])])
                    = allCallIds cs ++ (callIdsOf As ++ [c]) := by
                  rw [allCallIds_append]
                  simp [allCallIds, Block.callIds, callIdsOf_append, callIdsOf,
                    tcIds_assistant, Part.toolCallId]
                rw [hNew]
                apply nodup_append_concat
                · rw [← hAllOld]
                  exact hgood.2
                · rw [← hAllOld]
                  exact hfresh
          · intro c'
            rw [mentions_double_append c', hbs2,
              mentionsCall_append_none (tcIds_tool t) c']
    · -- no matching function_call item: only the processed list changes
      rw [stepFco_noFc hp' hm (findFc_of_not_mem hcfc)]
      refine ⟨hinv.good, hinv.mentionFc, ?_, ?_, ?_, ?_,
        fun c' hc => reach_mono (hinv.reach c' hc)⟩
      · intro c' hc'
        exact List.mem_append.mpr (Or.inl (hinv.mentionProcessed c' hc'))
      · intro c' hc' hfc'
        rcases List.mem_append.mp hc' with h | h
        · exact hinv.processedMention c' h hfc'
        · rw [List.mem_singleton.mp h] at hfc'
          exact absurd hfc' hcfc
      · intro j hj c0 n0 a0 hj'
        rcases Nat.lt_succ_iff_lt_or_eq.mp hj with hj | rfl
        · exact hinv.fcBefore j hj c0 n0 a0 hj'
        · rw [hit] at hj'
          simp at hj'
      · intro j hj c0 o0 hj'
        show c0 ∈ st.processed ++ [c]
        rcases Nat.lt_succ_iff_lt_or_eq.mp hj with hj | rfl
        · exact List.mem_append.mpr (Or.inl (hinv.fcoBefore j hj c0 o0 hj'))
        · rw [hit] at hj'
          simp only [Option.some.injEq, RItem.functionCallOutput.injEq] at hj'
          exact List.mem_append.mpr
            (Or.inr (List.mem_singleton.mpr hj'.1.symm))

theorem batch_fact {input : List RItem} {idx : Nat} {x : RItem}
    (h : x ∈ (input.drop idx).takeWhile RItem.isFc) :
    ∃ j, idx ≤ j ∧ input[j]? = some x ∧
      ∀ i, idx ≤ i → i < j → ∀ r s, input[i]? ≠ some (.message r s) := by
  obtain ⟨k, hk⟩ := List.mem_iff_getElem?.mp h
  obtain ⟨h1, h2⟩ := takeWhile_prefix_prop hk
  rw [List.getElem?_drop] at h1
  refine ⟨idx + k, by omega, h1, ?_⟩
  intro i hi1 hi2 r s hieq
  obtain ⟨y, hy1, hy2⟩ := h2 (i - idx) (by omega)
  rw [List.getElem?_drop, show idx + (i - idx) = i from by omega] at hy1
  have hsome := hieq.symm.trans hy1
  rw [← Option.some.inj hsome] at hy2
  simp [RItem.isFc] at hy2

theorem map_mkToolCall_ids {l : List RItem} (h : ∀ it ∈ l, it.isFc = true) :
    (l.map mkToolCall).filterMap Part.toolCallId = l.filterMap RItem.fcId := by
  induction l with
  | nil => rfl
  | cons it l ih =>
    have hfc := h it (List.mem_cons_self _ _)
    cases it with
    | functionCall c n a =>
      simp only [List.map_cons, List.filterMap_cons]
      rw [ih (fun it' h' => h it' (List.mem_cons_of_mem _ h'))]
      rfl
    | message r s => simp [RItem.isFc] at hfc
    | functionCallOutput c o => simp [RItem.isFc] at hfc

theorem fcMerge_append {tcc : List Part} {msgs : List Msg}
    (hshape : msgs.getLast? = none ∨
      ∃ last, msgs.getLast? = some last ∧
        (last.role == "assistant" && last.hasArrayContent) = false) :
    fcMerge tcc msgs = msgs ++ [⟨"assistant", .parts tcc⟩] := by
  unfold fcMerge
  rcases hshape with hgl | ⟨last, hgl, hcond⟩
  · rw [hgl]
  · rw [hgl]
    show (if last.role == "assistant" && last.hasArrayContent then
        msgs.dropLast ++ [⟨"assistant", .parts (last.parts ++ tcc)⟩]
      else msgs ++ [⟨"assistant", .parts tcc⟩]) = _
    rw [hcond, if_neg Bool.false_ne_true]

theorem fcMerge_merge {tcc : List Part} {msgs pre : List Msg} {ps : List Part}
    (hmsgs : msgs = pre ++ [⟨"assistant", .parts ps⟩]) :
    fcMerge tcc msgs = pre ++ [⟨"assistant", .parts (ps ++ tcc)⟩] := by
  unfold fcMerge
  rw [hmsgs, List.getLast?_concat]
  show (if (⟨"assistant", .parts ps⟩ : Msg).role == "assistant" &&
        (⟨"assistant", .parts ps⟩ : Msg).hasArrayContent then
      (pre ++ [(⟨"assistant", .parts ps⟩ : Msg)]).dropLast ++
        [⟨"assistant", .parts ((⟨"assistant", .parts ps⟩ : Msg).parts ++ tcc)⟩]
    else (pre ++ [(⟨"assistant", .parts ps⟩ : Msg)]) ++
      [⟨"assistant", .parts tcc⟩]) = _
  rw [if_pos (show ((⟨"assistant", .parts ps⟩ : Msg).role == "assistant" &&
    (⟨"assistant", .parts ps⟩ : Msg).hasArrayContent) = true from rfl),
    List.dropLast_concat]
  rfl

theorem stepFc_red {input : List RItem} {idx : Nat} {c : String} {st : ConvState}
    {parts : List Part} {pr' : List String}
    (hment : mentionsCall st.msgs c = false)
    (hbne : (fcBatch input idx st).isEmpty = false)
    (hca : collectAnywhere input ((fcBatch input idx st).filterMap RItem.fcId)
      st.processed = (parts, pr'))
    (hpne : parts.isEmpty = false) :
    stepFc input idx c st =
      { st with
        msgs := fcMerge ((fcBatch input idx st).map mkToolCall) st.msgs ++
          [⟨"tool", .parts parts⟩],
        processed := pr' } := by
  unfold stepFc
  rw [hment, if_neg Bool.false_ne_true, hbne, if_neg Bool.false_ne_true, hca]
  show { st with
      msgs := if parts.isEmpty = true then
          fcMerge ((fcBatch input idx st).map mkToolCall) st.msgs
        else fcMerge ((fcBatch input idx st).map mkToolCall) st.msgs ++
          [(⟨"tool", .parts parts⟩ : Msg)],
      processed := pr' } = _
  rw [hpne, if_neg Bool.false_ne_true]

theorem stepFc_skip {input : List RItem} {idx : Nat} {c : String} {st : ConvState}
    (hment : mentionsCall st.msgs c = true) :
    stepFc input idx c st = st := by
  unfold stepFc
  rw [hment]
  exact rfl

theorem mentions_append_AT {x : List Msg} {ps tp : List Part} (c' : String) :
    mentionsCall (x ++ [⟨"assistant", .parts ps⟩, ⟨"tool", .parts tp⟩]) c'
      = true ↔
      (mentionsCall x c' = true ∨ c' ∈ ps.filterMap Part.toolCallId) := by
  rw [show x ++ [(⟨"assistant", .parts ps⟩ : Msg), ⟨"tool", .parts tp⟩]
    = x ++ ([⟨"assistant", .parts ps⟩] ++ [⟨"tool", .parts tp⟩]) from by simp]
  rw [mentionsCall_append, mentionsCall_append]
  have hAc : mentionsCall [(⟨"assistant", .parts ps⟩ : Msg)] c' = true ↔
      c' ∈ ps.filterMap Part.toolCallId := by
    rw [mentionsCall_iff]
    constructor
    · rintro ⟨m, hm', hmc⟩
      rw [List.mem_singleton.mp hm'] at hmc
      simpa [tcIds_assistant] using hmc
    · intro h
      exact ⟨_, List.mem_singleton.mpr rfl, by simpa [tcIds_assistant] using h⟩
  have hTm : mentionsCall [(⟨"tool", .parts tp⟩ : Msg)] c' = false := by
    simp [mentionsCall, tcIds_tool]
  rw [hTm, Bool.or_false, Bool.or_eq_true, hAc]

theorem stepFc_inv {input : List RItem} (h1 : (fcIds input).Nodup)
    (h2 : (fcoIds input).Nodup) (h3 : ∀ c ∈ fcIds input, c ∈ fcoIds input)
    {idx : Nat} {st : ConvState} {c nm ar : String}
    (hit : input[idx]? = some (.functionCall c nm ar))
    (hinv : Inv input idx st) :
    Inv input (idx + 1) (stepFc input idx c st) := by
  by_cases hment : mentionsCall st.msgs c = true
  · rw [stepFc_skip hment]
    refine ⟨hinv.good, hinv.mentionFc, hinv.mentionProcessed,
      hinv.processedMention, ?_, ?_, fun c' hc => reach_mono (hinv.reach c' hc)⟩
    · intro j hj c0 n0 a0 hj'
      rcases Nat.lt_succ_iff_lt_or_eq.mp hj with hj | rfl
      · exact hinv.fcBefore j hj c0 n0 a0 hj'
      · rw [hit] at hj'
        simp only [Option.some.injEq, RItem.functionCall.injEq] at hj'
        rw [← hj'.1]
        exact hment
    · intro j hj c0 o0 hj'
      rcases Nat.lt_succ_iff_lt_or_eq.mp hj with hj | rfl
      · exact hinv.fcoBefore j hj c0 o0 hj'
      · rw [hit] at hj'
        simp at hj'
  · have hm : mentionsCall st.msgs c = false := Bool.eq_false_iff.mpr hment
    have hidxlt : idx < input.length := (List.getElem?_eq_some.mp hit).1
    -- the item heads the batch
    have hseg : RItem.functionCall c nm ar ∈
        (input.drop idx).takeWhile RItem.isFc := by
      have hdrop : input.drop idx = RItem.functionCall c nm ar ::
          input.drop (idx + 1) := by
        rw [List.drop_eq_getElem_cons hidxlt]
        congr 1
        have := List.getElem?_eq_getElem hidxlt
        rw [hit] at this
        exact (Option.some.inj this).symm
      rw [hdrop, List.takeWhile_cons]
      rw [show RItem.isFc (RItem.functionCall c nm ar) = true from rfl, if_pos rfl]
      exact List.mem_cons_self _ _
    have hcbatch : RItem.functionCall c nm ar ∈ fcBatch input idx st := by
      unfold fcBatch
      rw [List.mem_filter]
      refine ⟨hseg, ?_⟩
      simp [RItem.isFc, RItem.fcId, hm]
    have hbne : (fcBatch input idx st).isEmpty = false := by
      cases hb : (fcBatch input idx st).isEmpty
      · rfl
      · rw [List.isEmpty_iff.mp hb] at hcbatch
        simp at hcbatch
    -- facts about the batch
    have hbatch_fc : ∀ it ∈ fcBatch input idx st, it.isFc = true := by
      intro it hmem
      exact List.mem_takeWhile_imp (List.mem_filter.mp hmem).1
    have hbatch_sub : ∀ it ∈ fcBatch input idx st, it ∈ input := by
      intro it hmem
      have h' := (List.mem_filter.mp hmem).1
      exact ((List.takeWhile_sublist _).trans (List.drop_sublist _ _)).subset h'
    have hids_sub : ((fcBatch input idx st).filterMap RItem.fcId).Sublist
        (fcIds input) :=
      List.Sublist.filterMap _
        (((List.filter_sublist _).trans (List.takeWhile_sublist _)).trans
          (List.drop_sublist _ _))
    have hids_nodup : ((fcBatch input idx st).filterMap RItem.fcId).Nodup :=
      h1.sublist hids_sub
    have hids_fcIds : ∀ c' ∈ (fcBatch input idx st).filterMap RItem.fcId,
        c' ∈ fcIds input := fun c' h' => hids_sub.subset h'
    have hids_unmentioned : ∀ c' ∈ (fcBatch input idx st).filterMap RItem.fcId,
        mentionsCall st.msgs c' = false := by
      intro c' h'
      obtain ⟨it, hmem, hid⟩ := List.mem_filterMap.mp h'
      have hflt := (List.mem_filter.mp hmem).2
      obtain ⟨n', a', rfl⟩ := fcId_shape hid
      have : (!mentionsCall st.msgs ((RItem.fcId
          (RItem.functionCall c' n' a')).getD "")) = true := hflt
      rw [show (RItem.fcId (RItem.functionCall c' n' a')).getD "" = c'
        from rfl] at this
      cases hb : mentionsCall st.msgs c'
      · rfl
      · rw [hb] at this
        simp at this
    have hids_cond : ∀ c' ∈ (fcBatch input idx st).filterMap RItem.fcId,
        c' ∉ st.processed ∧ (findFcoOut input c').isSome = true := by
      intro c' h'
      constructor
      · intro hp'
        have := hinv.processedMention c' hp' (hids_fcIds c' h')
        rw [hids_unmentioned c' h'] at this
        exact Bool.false_ne_true this
      · exact findFcoOut_isSome (h3 c' (hids_fcIds c' h'))
    obtain ⟨parts, hca, hsome, hpids⟩ :=
      collectAnywhere_spec hids_nodup hids_cond
    have hcin : c ∈ (fcBatch input idx st).filterMap RItem.fcId :=
      List.mem_filterMap.mpr ⟨_, hcbatch, rfl⟩
    have hpne : parts.isEmpty = false := by
      cases hb : parts.isEmpty
      · rfl
      · rw [List.isEmpty_iff.mp hb] at hpids
        rw [← hpids] at hcin
        simp [partIds] at hcin
    rw [stepFc_red hm hbne hca hpne]
    obtain ⟨bs, hbs, hgood⟩ := hinv.good
    clear hment
    -- common invariant-transfer script
    have main : ∀ msgs' : List Msg,
        (∃ bs', msgs' = concB bs' ∧ GoodBlocks bs') →
        (∀ c', mentionsCall msgs' c' = true ↔
          (mentionsCall st.msgs c' = true ∨
            c' ∈ (fcBatch input idx st).filterMap RItem.fcId)) →
        Inv input (idx + 1)
          { st with
            msgs := msgs',
            processed := st.processed ++
              (fcBatch input idx st).filterMap RItem.fcId } := by
      intro msgs' hgood' hment'
      refine ⟨hgood', ?_, ?_, ?_, ?_, ?_, ?_⟩
      · intro c' hc'
        rcases (hment' c').mp hc' with h | h
        · exact hinv.mentionFc c' h
        · exact hids_fcIds c' h
      · intro c' hc'
        show c' ∈ st.processed ++ _
        rcases (hment' c').mp hc' with h | h
        · exact List.mem_append.mpr (Or.inl (hinv.mentionProcessed c' h))
        · exact List.mem_append.mpr (Or.inr h)
      · intro c' hc' hfc'
        show mentionsCall msgs' c' = true
        rcases List.mem_append.mp hc' with h | h
        · exact (hment' c').mpr (Or.inl (hinv.processedMention c' h hfc'))
        · exact (hment' c').mpr (Or.inr h)
      · intro j hj c0 n0 a0 hj'
        show mentionsCall msgs' c0 = true
        rcases Nat.lt_succ_iff_lt_or_eq.mp hj with hj | rfl
        · exact (hment' c0).mpr (Or.inl (hinv.fcBefore j hj c0 n0 a0 hj'))
        · rw [hit] at hj'
          simp only [Option.some.injEq, RItem.functionCall.injEq] at hj'
          rw [← hj'.1]
          exact (hment' c).mpr (Or.inr hcin)
      · intro j hj c0 o0 hj'
        show c0 ∈ st.processed ++ _
        rcases Nat.lt_succ_iff_lt_or_eq.mp hj with hj | rfl
        · exact List.mem_append.mpr (Or.inl (hinv.fcoBefore j hj c0 o0 hj'))
        · rw [hit] at hj'
          simp at hj'
      · intro c' hc'
        rcases (hment' c').mp hc' with h | h
        · exact reach_mono (hinv.reach c' h)
        · -- a fresh batch id: no message item up to its call position
          obtain ⟨it, hmem, hid⟩ := List.mem_filterMap.mp h
          obtain ⟨n', a', rfl⟩ := fcId_shape hid
          obtain ⟨j, hjge, hjeq, hnomsg⟩ :=
            batch_fact (List.mem_filter.mp hmem).1
          have hfcidx : fcIdx input c' = j := fcIdx_eq h1 hjeq
          refine Or.inr (Or.inr ?_)
          intro i hi1 hi2 r s
          rw [hfcidx] at hi2
          exact hnomsg i (by omega) hi2 r s
    have htcc_ids : ((fcBatch input idx st).map mkToolCall).filterMap
        Part.toolCallId = (fcBatch input idx st).filterMap RItem.fcId :=
      map_mkToolCall_ids hbatch_fc
    have hfreshAll : ∀ c' ∈ (fcBatch input idx st).filterMap RItem.fcId,
        c' ∉ allCallIds bs := by
      intro c' h' hmem
      have := (mentionsCall_concB hgood.1 c').mpr hmem
      rw [← hbs, hids_unmentioned c' h'] at this
      exact Bool.false_ne_true this
    have hwfchain : WFchain [⟨"assistant",
        .parts ((fcBatch input idx st).map mkToolCall)⟩] parts := by
      refine ⟨by simp, ?_, hsome, ?_, ?_⟩
      · intro m hm'
        rw [List.mem_singleton.mp hm']
        refine ⟨rfl, rfl, ?_⟩
        rw [tcIds_assistant, htcc_ids]
        intro hnil
        rw [hnil] at hcin
        simp at hcin
      · rw [hpids]
        exact hids_nodup
      · intro c'
        rw [hpids]
        simp [callIdsOf, tcIds_assistant, htcc_ids]
    -- split on the shape of the last block
    rcases List.eq_nil_or_concat bs with rfl | ⟨cs, b, rfl⟩
    · have hfm : fcMerge ((fcBatch input idx st).map mkToolCall) st.msgs =
          st.msgs ++ [⟨"assistant",
            .parts ((fcBatch input idx st).map mkToolCall)⟩] :=
        fcMerge_append (Or.inl (by rw [hbs]; rfl))
      rw [hfm]
      apply main
      · refine ⟨[.chain [⟨"assistant",
          .parts ((fcBatch input idx st).map mkToolCall)⟩] parts], ?_, ?_⟩
        · simp [hbs, concB, Block.conc, List.append_assoc]
        · refine ⟨?_, ?_⟩
          · intro b hb
            rw [List.mem_singleton.mp hb]
            exact hwfchain
          · simp only [allCallIds, Block.callIds, callIdsOf, tcIds_assistant,
              htcc_ids, List.append_nil]
            simpa using hids_nodup
      · intro c'
        rw [List.append_assoc]
        rw [show [(⟨"assistant", .parts ((fcBatch input idx st).map mkToolCall)⟩ :
            Msg)] ++ [(⟨"tool", .parts parts⟩ : Msg)]
          = [⟨"assistant", .parts ((fcBatch input idx st).map mkToolCall)⟩,
             ⟨"tool", .parts parts⟩] from rfl]
        rw [mentions_append_AT c', htcc_ids]
    · rw [List.concat_eq_append] at hbs hgood hfreshAll
      cases b with
      | chain As t =>
        have hbs2 : st.msgs = (concB cs ++ As) ++ [⟨"tool", .parts t⟩] := by
          rw [hbs, concB_concat_chain]
        have hfm : fcMerge ((fcBatch input idx st).map mkToolCall) st.msgs =
            st.msgs ++ [⟨"assistant",
              .parts ((fcBatch input idx st).map mkToolCall)⟩] :=
          fcMerge_append (Or.inr ⟨⟨"tool", .parts t⟩,
            by rw [hbs2]; exact List.getLast?_concat _, rfl⟩)
        rw [hfm]
        apply main
        · refine ⟨(cs ++ [.chain As t]) ++ [.chain [⟨"assistant",
            .parts ((fcBatch input idx st).map mkToolCall)⟩] parts], ?_, ?_⟩
          · simp [hbs, concB_append, concB, Block.conc, List.append_assoc]
          · apply hgood.concat
            · exact hwfchain
            · simp only [Block.callIds, callIdsOf, tcIds_assistant, htcc_ids,
                List.append_nil]
              exact hids_nodup
            · intro c' hc'
              apply hfreshAll c'
              simpa [Block.callIds, callIdsOf, tcIds_assistant, htcc_ids]
                using hc'
        · intro c'
          rw [List.append_assoc]
          rw [show [(⟨"assistant", .parts ((fcBatch input idx st).map mkToolCall)⟩ :
              Msg)] ++ [(⟨"tool", .parts parts⟩ : Msg)]
            = [⟨"assistant", .parts ((fcBatch input idx st).map mkToolCall)⟩,
               ⟨"tool", .parts parts⟩] from rfl]
          rw [mentions_append_AT c', htcc_ids]
      | plain m =>
        have hwm : WFplain m := hgood.1 (.plain m) (by simp)
        by_cases harr : (m.role == "assistant" && m.hasArrayContent) = true
        · -- merge into the trailing assistant message
          rcases m with ⟨mrole, mcontent⟩
          have hrole : mrole = "assistant" := eq_of_beq (Bool.and_elim_left harr)
          subst hrole
          cases mcontent with
          | str s => simp [Msg.hasArrayContent] at harr
          | parts ps =>
            have hpsids : ps.filterMap Part.toolCallId = [] := by
              have h' := hwm.2
              rwa [tcIds_assistant] at h'
            have hbs2 : st.msgs = concB cs ++ [⟨"assistant", .parts ps⟩] := by
              rw [hbs, concB_concat_plain]
            have hfm : fcMerge ((fcBatch input idx st).map mkToolCall) st.msgs =
                concB cs ++ [⟨"assistant",
                  .parts (ps ++ (fcBatch input idx st).map mkToolCall)⟩] :=
              fcMerge_merge hbs2
            rw [hfm]
            have hmIds : (⟨"assistant",
                .parts (ps ++ (fcBatch input idx st).map mkToolCall)⟩ : Msg).tcIds
                = (fcBatch input idx st).filterMap RItem.fcId := by
              rw [tcIds_assistant, List.filterMap_append, hpsids,
                List.nil_append, htcc_ids]
            apply main
            · refine ⟨cs ++ [.chain [⟨"assistant",
                .parts (ps ++ (fcBatch input idx st).map mkToolCall)⟩] parts],
                ?_, ?_⟩
              · rw [concB_concat_chain]
              · have hAllOld : allCallIds (cs ++ [Block.plain
                    ⟨"assistant", .parts ps⟩]) = allCallIds cs := by
                  rw [allCallIds_append]
                  simp [allCallIds, Block.callIds]
                refine ⟨?_, ?_⟩
                · intro b hb
                  rcases List.mem_append.mp hb with hb | hb
                  · exact hgood.1 b (List.mem_append.mpr (Or.inl hb))
                  · rw [List.mem_singleton.mp hb]
                    show WFchain _ _
                    refine ⟨by simp, ?_, hsome, ?_, ?_⟩
                    · intro m' hm'
                      rw [List.mem_singleton.mp hm']
                      refine ⟨rfl, rfl, ?_⟩
                      rw [hmIds]
                      intro hnil
                      rw [hnil] at hcin
                      simp at hcin
                    · rw [hpids]
                      exact hids_nodup
                    · intro c'
                      rw [hpids]
                      simp [callIdsOf, hmIds]
                · have hAllNew : allCallIds (cs ++ [Block.chain [⟨"assistant",
                      .parts (ps ++ (fcBatch input idx st).map mkToolCall)⟩]
                      parts]) = allCallIds cs ++
                      (fcBatch input idx st).filterMap RItem.fcId := by
                    rw [allCallIds_append]
                    simp [allCallIds, Block.callIds, callIdsOf, hmIds]
                  rw [hAllNew, List.nodup_append]
                  refine ⟨by rw [← hAllOld]; exact hgood.2, hids_nodup, ?_⟩
                  intro c' hc' hc''
                  exact hfreshAll c' hc'' (by rw [hAllOld]; exact hc')
            · intro c'
              rw [show (concB cs ++ [(⟨"assistant",
                  .parts (ps ++ (fcBatch input idx st).map mkToolCall)⟩ : Msg)])
                  ++ [(⟨"tool", .parts parts⟩ : Msg)]
                = concB cs ++ [⟨"assistant",
                  .parts (ps ++ (fcBatch input idx st).map mkToolCall)⟩,
                  ⟨"tool", .parts parts⟩] from by simp]
              rw [mentions_append_AT c', List.filterMap_append, hpsids,
                List.nil_append, htcc_ids, hbs2,
                mentionsCall_append_none hwm.2 c']
        · -- append a fresh assistant message after the plain block
          have hfm : fcMerge ((fcBatch input idx st).map mkToolCall) st.msgs =
              st.msgs ++ [⟨"assistant",
                .parts ((fcBatch input idx st).map mkToolCall)⟩] :=
            fcMerge_append (Or.inr ⟨m,
              by rw [hbs, concB_concat_plain]; exact List.getLast?_concat _,
              Bool.eq_false_iff.mpr harr⟩)
          rw [hfm]
          apply main
          · refine ⟨(cs ++ [.plain m]) ++ [.chain [⟨"assistant",
              .parts ((fcBatch input idx st).map mkToolCall)⟩] parts], ?_, ?_⟩
            · simp [hbs, concB_append, concB, Block.conc, List.append_assoc]
            · apply hgood.concat
              · exact hwfchain
              · simp only [Block.callIds, callIdsOf, tcIds_assistant, htcc_ids,
                  List.append_nil]
                exact hids_nodup
              · intro c' hc'
                apply hfreshAll c'
                simpa [Block.callIds, callIdsOf, tcIds_assistant, htcc_ids]
                  using hc'
          · intro c'
            rw [List.append_assoc]
            rw [show [(⟨"assistant",
                .parts ((fcBatch input idx st).map mkToolCall)⟩ : Msg)] ++
                [(⟨"tool", .parts parts⟩ : Msg)]
              = [⟨"assistant", .parts ((fcBatch input idx st).map mkToolCall)⟩,
                 ⟨"tool", .parts parts⟩] from rfl]
            rw [mentions_append_AT c', htcc_ids]

theorem isFc_fcId {it : RItem} (h : it.isFc = true) : ∃ c, it.fcId = some c := by
  cases it with
  | functionCall c n a => exact ⟨c, rfl⟩
  | message r s => simp [RItem.isFc] at h
  | functionCallOutput c o => simp [RItem.isFc] at h

theorem saMid_skip {input : List RItem} {idx : Nat} {content : String}
    {st1 : ConvState} (h : (saContentParts input idx content).isEmpty = true) :
    saMid input idx content st1 = st1 := by
  unfold saMid
  rw [h]
  exact rfl

theorem saMid_emit {input : List RItem} {idx : Nat} {content : String}
    {st1 : ConvState} (h : (saContentParts input idx content).isEmpty = false) :
    saMid input idx content st1 = { st1 with
      msgs := st1.msgs ++
        [⟨"assistant", .parts (saContentParts input idx content)⟩] } := by
  unfold saMid
  rw [h, if_neg Bool.false_ne_true]

theorem stepAssistant_red {input : List RItem} {idx : Nat} {content : String}
    {st : ConvState} (hpre : saPreceding input idx st = []) :
    stepAssistant input idx content st = saFinish input idx content st := by
  unfold stepAssistant
  rw [hpre]
  exact rfl

theorem saFinish_noids {input : List RItem} {idx : Nat} {content : String}
    {st : ConvState} (hids : (saToolCallIds input idx).isEmpty = true) :
    saFinish input idx content st = saMid input idx content st := by
  unfold saFinish
  rw [hids]
  exact rfl

theorem saFinish_red {input : List RItem} {idx : Nat} {content : String}
    {st : ConvState} {parts : List Part} {pr2 : List String}
    (hids : (saToolCallIds input idx).isEmpty = false)
    (hcps : (saContentParts input idx content).isEmpty = false)
    (hcw : collectWindow input (saWindow input idx) (saToolCallIds input idx)
      st.processed = (parts, pr2))
    (hpne : parts.isEmpty = false) :
    saFinish input idx content st =
      { st with
        msgs := (st.msgs ++
            [⟨"assistant", .parts (saContentParts input idx content)⟩]) ++
          [⟨"tool", .parts parts⟩],
        processed := pr2 } := by
  unfold saFinish
  rw [hids, if_neg Bool.false_ne_true, saMid_emit hcps]
  show { st with
      msgs :=
        if (collectWindow input (saWindow input idx) (saToolCallIds input idx)
            st.processed).1.isEmpty then
          st.msgs ++
            [(⟨"assistant", .parts (saContentParts input idx content)⟩ : Msg)]
        else (st.msgs ++
            [(⟨"assistant", .parts (saContentParts input idx content)⟩ : Msg)]) ++
          [(⟨"tool", .parts (collectWindow input (saWindow input idx)
            (saToolCallIds input idx) st.processed).1⟩ : Msg)],
      processed := (collectWindow input (saWindow input idx)
        (saToolCallIds input idx) st.processed).2 } = _
  rw [hcw]
  show { st with
      msgs :=
        if parts.isEmpty then
          st.msgs ++
            [(⟨"assistant", .parts (saContentParts input idx content)⟩ : Msg)]
        else (st.msgs ++
            [(⟨"assistant", .parts (saContentParts input idx content)⟩ : Msg)]) ++
          [(⟨"tool", .parts parts⟩ : Msg)],
      processed := pr2 } = _
  rw [hpne, if_neg Bool.false_ne_true]

theorem saToolCallIds_nil_included {input : List RItem} {idx : Nat}
    (h : saToolCallIds input idx = []) : saIncluded input idx = [] := by
  cases hi : saIncluded input idx with
  | nil => rfl
  | cons it rest =>
    exfalso
    have hmem : it ∈ saIncluded input idx := by
      rw [hi]
      exact List.mem_cons_self _ _
    have hfc : it.isFc = true :=
      Bool.and_elim_left (List.mem_filter.mp hmem).2
    obtain ⟨c, hc⟩ := isFc_fcId hfc
    have hids : saToolCallIds input idx = c :: rest.filterMap RItem.fcId := by
      unfold saToolCallIds
      rw [hi]
      simp [List.filterMap_cons, hc]
    rw [h] at hids
    simp at hids

theorem stepAssistant_inv {input : List RItem} (h1 : (fcIds input).Nodup)
    (h2 : (fcoIds input).Nodup)
    {idx : Nat} {st : ConvState} {content : String}
    (hit : input[idx]? = some (.message .assistant content))
    (hinv : Inv input idx st) :
    Inv input (idx + 1) (stepAssistant input idx content st) := by
  -- the preceding flush never fires under the invariant
  have hpre : saPreceding input idx st = [] := by
    unfold saPreceding
    rw [List.filter_eq_nil_iff]
    intro it hmem hcond
    obtain ⟨j, hj, hjeq⟩ := mem_take_pos (tailNoMsg_subset it hmem)
    have hfc : it.isFc = true := Bool.and_elim_left hcond
    obtain ⟨c, hc⟩ := isFc_fcId hfc
    obtain ⟨n, a, rfl⟩ := fcId_shape hc
    have hm := hinv.fcBefore j hj c n a hjeq
    have hcond2 := Bool.and_elim_right hcond
    rw [show (RItem.fcId (RItem.functionCall c n a)).getD "" = c from rfl,
      hm] at hcond2
    simp at hcond2
  rw [stepAssistant_red hpre]
  by_cases hids0 : (saToolCallIds input idx).isEmpty = true
  · -- no included window calls
    rw [saFinish_noids hids0]
    have hincl : saIncluded input idx = [] :=
      saToolCallIds_nil_included (List.isEmpty_iff.mp hids0)
    by_cases htext : jsTrim content = ""
    · have hcps : (saContentParts input idx content).isEmpty = true := by
        unfold saContentParts
        rw [hincl, if_neg (not_not_intro htext)]
        rfl
      rw [saMid_skip hcps]
      refine ⟨hinv.good, hinv.mentionFc, hinv.mentionProcessed,
        hinv.processedMention, ?_, ?_, fun c hc => reach_mono (hinv.reach c hc)⟩
      · intro j hj c0 n0 a0 hj'
        rcases Nat.lt_succ_iff_lt_or_eq.mp hj with hj | rfl
        · exact hinv.fcBefore j hj c0 n0 a0 hj'
        · rw [hit] at hj'
          simp at hj'
      · intro j hj c0 o0 hj'
        rcases Nat.lt_succ_iff_lt_or_eq.mp hj with hj | rfl
        · exact hinv.fcoBefore j hj c0 o0 hj'
        · rw [hit] at hj'
          simp at hj'
    · have hcpseq : saContentParts input idx content = [Part.text content] := by
        unfold saContentParts
        rw [hincl, if_pos htext]
        rfl
      have hcps : (saContentParts input idx content).isEmpty = false := by
        rw [hcpseq]
        rfl
      rw [saMid_emit hcps, hcpseq]
      have hMids : (⟨"assistant", .parts [Part.text content]⟩ : Msg).tcIds = [] := rfl
      have hmf : ∀ c, mentionsCall (st.msgs ++
          [⟨"assistant", .parts [Part.text content]⟩]) c = mentionsCall st.msgs c :=
        fun c => mentionsCall_append_none hMids c
      refine ⟨?_, ?_, ?_, ?_, ?_, ?_, ?_⟩
      · obtain ⟨bs, hbs, hgood⟩ := hinv.good
        refine ⟨bs ++ [.plain ⟨"assistant", .parts [Part.text content]⟩], ?_, ?_⟩
        · show st.msgs ++ [⟨"assistant", .parts [Part.text content]⟩] = _
          rw [hbs, concB_concat_plain]
        · exact hgood.concat (show WFplain _ from ⟨Or.inr rfl, hMids⟩)
            (by simp [Block.callIds]) (by simp [Block.callIds])
      · intro c hc
        rw [show ({ st with msgs := st.msgs ++
          [⟨"assistant", .parts [Part.text content]⟩]} : ConvState).msgs
          = st.msgs ++ [⟨"assistant", .parts [Part.text content]⟩] from rfl,
          hmf] at hc
        exact hinv.mentionFc c hc
      · intro c hc
        rw [show ({ st with msgs := st.msgs ++
          [⟨"assistant", .parts [Part.text content]⟩]} : ConvState).msgs
          = st.msgs ++ [⟨"assistant", .parts [Part.text content]⟩] from rfl,
          hmf] at hc
        exact hinv.mentionProcessed c hc
      · intro c hc hfc
        show mentionsCall (st.msgs ++
          [⟨"assistant", .parts [Part.text content]⟩]) c = true
        rw [hmf]
        exact hinv.processedMention c hc hfc
      · intro j hj c0 n0 a0 hj'
        show mentionsCall (st.msgs ++
          [⟨"assistant", .parts [Part.text content]⟩]) c0 = true
        rw [hmf]
        rcases Nat.lt_succ_iff_lt_or_eq.mp hj with hj | rfl
        · exact hinv.fcBefore j hj c0 n0 a0 hj'
        · rw [hit] at hj'
          simp at hj'
      · intro j hj c0 o0 hj'
        rcases Nat.lt_succ_iff_lt_or_eq.mp hj with hj | rfl
        · exact hinv.fcoBefore j hj c0 o0 hj'
        · rw [hit] at hj'
          simp at hj'
      · intro c hc
        rw [show ({ st with msgs := st.msgs ++
          [⟨"assistant", .parts [Part.text content]⟩]} : ConvState).msgs
          = st.msgs ++ [⟨"assistant", .parts [Part.text content]⟩] from rfl,
          hmf] at hc
        exact reach_mono (hinv.reach c hc)
  · -- at least one included window call: a new chain block is appended
    have hids : (saToolCallIds input idx).isEmpty = false :=
      Bool.eq_false_iff.mpr hids0
    obtain ⟨c0, hc0⟩ : ∃ c0, c0 ∈ saToolCallIds input idx := by
      cases hl : saToolCallIds input idx with
      | nil =>
        rw [hl] at hids
        simp at hids
      | cons x xs =>
        exact ⟨x, List.mem_cons_self _ _⟩
    have havail_nodup : ((saWindow input idx).filterMap RItem.fcoId).Nodup :=
      h2.sublist (List.Sublist.filterMap _ (saWindow_sublist input idx))
    have hids_sub : (saToolCallIds input idx).Sublist (fcIds input) :=
      List.Sublist.filterMap _
        ((List.filter_sublist _).trans (saWindow_sublist input idx))
    have hids_nodup : (saToolCallIds input idx).Nodup := h1.sublist hids_sub
    have hids_fcIds : ∀ c' ∈ saToolCallIds input idx, c' ∈ fcIds input :=
      fun c' h' => hids_sub.subset h'
    -- every included id has its call and its output inside the window
    have hwin : ∀ c' ∈ saToolCallIds input idx,
        (∃ n a, RItem.functionCall c' n a ∈ saWindow input idx) ∧
          ((saWindow input idx).filterMap RItem.fcoId).contains c' = true := by
      intro c' h'
      obtain ⟨it, hmem, hid⟩ := List.mem_filterMap.mp h'
      obtain ⟨n, a, rfl⟩ := fcId_shape hid
      have hfl := List.mem_filter.mp hmem
      refine ⟨⟨n, a, hfl.1⟩, ?_⟩
      have hcond := Bool.and_elim_right hfl.2
      rw [show (RItem.fcId (RItem.functionCall c' n a)).getD "" = c'
        from rfl] at hcond
      exact hcond
    have hfc_pos : ∀ c' ∈ saToolCallIds input idx,
        idx < fcIdx input c' ∧
          ∀ i, idx < i → i < fcIdx input c' → ∀ r s,
            input[i]? ≠ some (.message r s) := by
      intro c' h'
      obtain ⟨⟨n, a, hmem⟩, _⟩ := hwin c' h'
      obtain ⟨j, hjgt, hjeq, hnomsg⟩ := window_fact hmem
      have hfcidx : fcIdx input c' = j := fcIdx_eq h1 hjeq
      rw [hfcidx]
      exact ⟨hjgt, hnomsg⟩
    have hfco_pos : ∀ c' ∈ saToolCallIds input idx, idx < fcoIdx input c' := by
      intro c' h'
      obtain ⟨_, hav⟩ := hwin c' h'
      obtain ⟨it, hmem, hid⟩ := List.mem_filterMap.mp (contains_iff.mp hav)
      obtain ⟨o, rfl⟩ := fcoId_shape hid
      obtain ⟨j, hjgt, hjeq, _⟩ := window_fact hmem
      have hfcoidx : fcoIdx input c' = j := fcoIdx_eq h2 hjeq
      omega
    have hids_unmentioned : ∀ c' ∈ saToolCallIds input idx,
        mentionsCall st.msgs c' = false := by
      intro c' h'
      cases hb : mentionsCall st.msgs c'
      · rfl
      · exfalso
        rcases hinv.reach c' hb with hd | hd | hd
        · have := hfco_pos c' h'
          omega
        · have := (hfc_pos c' h').1
          omega
        · exact hd idx (le_refl idx) (hfc_pos c' h').1 .assistant content hit
    have hids_notproc : ∀ c' ∈ saToolCallIds input idx, c' ∉ st.processed := by
      intro c' h' hp
      have hmt := hinv.processedMention c' hp (hids_fcIds c' h')
      rw [hids_unmentioned c' h'] at hmt
      exact Bool.false_ne_true hmt
    -- run the window collection
    obtain ⟨parts, hcw, hsome, hpids⟩ :=
      @collectWindow_spec input (saToolCallIds input idx) (saWindow input idx)
        st.processed havail_nodup
    have hpmem : ∀ c', c' ∈ partIds parts ↔ c' ∈ saToolCallIds input idx := by
      intro c'
      rw [hpids]
      constructor
      · intro h'
        have hcnd := (List.mem_filter.mp h').2
        exact contains_iff.mp (Bool.and_elim_left hcnd)
      · intro h'
        apply List.mem_filter.mpr
        refine ⟨contains_iff.mp (hwin c' h').2, ?_⟩
        have hc1 : (saToolCallIds input idx).contains c' = true :=
          contains_iff.mpr h'
        have hc2 : st.processed.contains c' = false := by
          cases hb : st.processed.contains c'
          · rfl
          · exact absurd (contains_iff.mp hb) (hids_notproc c' h')
        rw [hc1, hc2]
        rfl
    have hpids_nodup : (partIds parts).Nodup := by
      rw [hpids]
      exact havail_nodup.filter _
    have hpne : parts.isEmpty = false := by
      cases hb : parts.isEmpty
      · rfl
      · exfalso
        have hmm := (hpmem c0).mpr hc0
        rw [List.isEmpty_iff.mp hb] at hmm
        simp [partIds] at hmm
    have hincl_fc : ∀ it ∈ saIncluded input idx, it.isFc = true :=
      fun it h' => Bool.and_elim_left (List.mem_filter.mp h').2
    have htext_ids : ((if jsTrim content ≠ "" then [Part.text content] else []) :
        List Part).filterMap Part.toolCallId = [] := by
      split
      · rfl
      · rfl
    have hcps_ids : (saContentParts input idx content).filterMap Part.toolCallId
        = saToolCallIds input idx := by
      unfold saContentParts
      rw [List.filterMap_append, htext_ids, List.nil_append,
        map_mkToolCall_ids hincl_fc]
      rfl
    have hcps : (saContentParts input idx content).isEmpty = false := by
      cases hb : (saContentParts input idx content).isEmpty
      · rfl
      · exfalso
        have hnil := List.isEmpty_iff.mp hb
        have h0 : saToolCallIds input idx = [] := by
          rw [← hcps_ids, hnil]
          simp
        rw [h0] at hc0
        simp at hc0
    have hAids : (⟨"assistant",
        .parts (saContentParts input idx content)⟩ : Msg).tcIds
        = saToolCallIds input idx := by
      rw [tcIds_assistant, hcps_ids]
    have hAids_ne : (⟨"assistant",
        .parts (saContentParts input idx content)⟩ : Msg).tcIds ≠ [] := by
      rw [hAids]
      intro h0
      rw [h0] at hc0
      simp at hc0
    obtain ⟨bs, hbs, hgood⟩ := hinv.good
    have hfreshAll : ∀ c' ∈ saToolCallIds input idx, c' ∉ allCallIds bs := by
      intro c' h' hmem
      have hmt := (mentionsCall_concB hgood.1 c').mpr hmem
      rw [← hbs, hids_unmentioned c' h'] at hmt
      exact Bool.false_ne_true hmt
    have hwfchain : WFchain
        [⟨"assistant", .parts (saContentParts input idx content)⟩] parts := by
      refine ⟨by simp, ?_, hsome, hpids_nodup, ?_⟩
      · intro m hm'
        rw [List.mem_singleton.mp hm']
        exact ⟨rfl, rfl, hAids_ne⟩
      · intro c'
        rw [hpmem c']
        simp [callIdsOf, hAids]
    rw [saFinish_red hids hcps hcw hpne]
    -- common invariant-transfer script
    have main : ∀ msgs' : List Msg,
        (∃ bs', msgs' = concB bs' ∧ GoodBlocks bs') →
        (∀ c', mentionsCall msgs' c' = true ↔
          (mentionsCall st.msgs c' = true ∨ c' ∈ saToolCallIds input idx)) →
        Inv input (idx + 1)
          { st with
            msgs := msgs',
            processed := st.processed ++ partIds parts } := by
      intro msgs' hgood' hment'
      refine ⟨hgood', ?_, ?_, ?_, ?_, ?_, ?_⟩
      · intro c' hc'
        rcases (hment' c').mp hc' with h | h
        · exact hinv.mentionFc c' h
        · exact hids_fcIds c' h
      · intro c' hc'
        show c' ∈ st.processed ++ partIds parts
        rcases (hment' c').mp hc' with h | h
        · exact List.mem_append.mpr (Or.inl (hinv.mentionProcessed c' h))
        · exact List.mem_append.mpr (Or.inr ((hpmem c').mpr h))
      · intro c' hc' hfc'
        show mentionsCall msgs' c' = true
        rcases List.mem_append.mp hc' with h | h
        · exact (hment' c').mpr (Or.inl (hinv.processedMention c' h hfc'))
        · exact (hment' c').mpr (Or.inr ((hpmem c').mp h))
      · intro j hj c0' n0 a0 hj'
        show mentionsCall msgs' c0' = true
        rcases Nat.lt_succ_iff_lt_or_eq.mp hj with hj | rfl
        · exact (hment' c0').mpr (Or.inl (hinv.fcBefore j hj c0' n0 a0 hj'))
        · rw [hit] at hj'
          simp at hj'
      · intro j hj c0' o0 hj'
        show c0' ∈ st.processed ++ partIds parts
        rcases Nat.lt_succ_iff_lt_or_eq.mp hj with hj | rfl
        · exact List.mem_append.mpr (Or.inl (hinv.fcoBefore j hj c0' o0 hj'))
        · rw [hit] at hj'
          simp at hj'
      · intro c' hc'
        rcases (hment' c').mp hc' with h | h
        · exact reach_mono (hinv.reach c' h)
        · obtain ⟨hgt, hnomsg⟩ := hfc_pos c' h
          refine Or.inr (Or.inr ?_)
          intro i hi1 hi2 r s
          exact hnomsg i (by omega) hi2 r s
    apply main
    · refine ⟨bs ++ [.chain [⟨"assistant",
        .parts (saContentParts input idx content)⟩] parts], ?_, ?_⟩
      · rw [hbs, concB_concat_chain]
      · apply hgood.concat
        · exact hwfchain
        · simp only [Block.callIds, callIdsOf, List.append_nil]
          rw [hAids]
          exact hids_nodup
        · intro c' hc'
          apply hfreshAll c'
          simpa [Block.callIds, callIdsOf, hAids] using hc'
    · intro c'
      rw [List.append_assoc]
      rw [show [(⟨"assistant", .parts (saContentParts input idx content)⟩ :
          Msg)] ++ [(⟨"tool", .parts parts⟩ : Msg)]
        = [⟨"assistant", .parts (saContentParts input idx content)⟩,
           ⟨"tool", .parts parts⟩] from rfl]
      rw [mentions_append_AT c', hcps_ids]

theorem stepItem_inv {input : List RItem} (h1 : (fcIds input).Nodup)
    (h2 : (fcoIds input).Nodup) (h3 : ∀ c ∈ fcIds input, c ∈ fcoIds input)
    {idx : Nat} {st : ConvState} (hinv : Inv input idx st) :
    Inv input (idx + 1) (stepItem input idx st) := by
  unfold stepItem
  cases hit : input[idx]? with
  | none =>
    refine ⟨hinv.good, hinv.mentionFc, hinv.mentionProcessed,
      hinv.processedMention, ?_, ?_, fun c hc => reach_mono (hinv.reach c hc)⟩
    · intro j hj c0 n0 a0 hj'
      rcases Nat.lt_succ_iff_lt_or_eq.mp hj with hj | rfl
      · exact hinv.fcBefore j hj c0 n0 a0 hj'
      · rw [hit] at hj'
        simp at hj'
    · intro j hj c0 o0 hj'
      rcases Nat.lt_succ_iff_lt_or_eq.mp hj with hj | rfl
      · exact hinv.fcoBefore j hj c0 o0 hj'
      · rw [hit] at hj'
        simp at hj'
  | some it =>
    cases it with
    | message r s =>
      cases r with
      | developer => exact stepSystem_inv hit hinv s
      | system => exact stepSystem_inv hit hinv s
      | assistant => exact stepAssistant_inv h1 h2 hit hinv
      | user => exact stepUser_inv hit hinv s
    | functionCall c n a => exact stepFc_inv h1 h2 h3 hit hinv
    | functionCallOutput c o => exact stepFco_inv h1 h2 hit hinv

theorem inv_init (input : List RItem) (instructions : Option String) :
    Inv input 0 ⟨[], [], instructions⟩ := by
  refine ⟨⟨[], rfl, ⟨by simp, by simp [allCallIds]⟩⟩, ?_, ?_, ?_, ?_, ?_, ?_⟩
  · intro c hc
    simp [mentionsCall] at hc
  · intro c hc
    simp [mentionsCall] at hc
  · intro c hc hfc
    simp at hc
  · intro j hj c n a hj'
    omega
  · intro j hj c o hj'
    omega
  · intro c hc
    simp [mentionsCall] at hc

theorem convLoop_inv {input : List RItem}
    (h1 : (fcIds input).Nodup) (h2 : (fcoIds input).Nodup)
    (h3 : ∀ c ∈ fcIds input, c ∈ fcoIds input)
    {st0 : ConvState} (hinv0 : Inv input 0 st0) :
    ∀ n, Inv input n (convLoop input (List.range n) st0) := by
  intro n
  induction n with
  | zero => exact hinv0
  | succ k ih =>
    rw [show convLoop input (List.range (k + 1)) st0 =
        stepItem input k (convLoop input (List.range k) st0) from by
      unfold convLoop
      rw [List.range_succ, List.foldl_append]
      rfl]
    exact stepItem_inv h1 h2 h3 ih

/-- **C1 counterexample.** A single `function_call` item with no matching
`function_call_output` yields one assistant message carrying a tool-call part
that is followed by no tool message at all, so the pairing property fails for
this input and the claim does not hold for every input item list. -/
theorem C1_pairing_counterexample :
    ToolPaired (convertResponsesInputToAISDK
      [.functionCall "c1" "f" "x"] none).1 ↔ False := by
  constructor
  · intro h
    exact absurd (h 0 (by decide) (by decide)).1 (by decide)
  · exact False.elim

/-- **C1 (amended).** For every Responses-shape input item list whose
`function_call` call_ids are pairwise distinct, whose `function_call_output`
call_ids are pairwise distinct, and in which every `function_call` has a
matching `function_call_output`, the message sequence produced by
`convertResponsesInputToAISDK` satisfies the pairing property: every
assistant message containing tool-call parts is immediately followed by a
tool message whose tool-result ids form the same set as that assistant
message's tool-call ids. -/
theorem C1_pairing_amended {input : List RItem}
    (h1 : (fcIds input).Nodup) (h2 : (fcoIds input).Nodup)
    (h3 : ∀ c ∈ fcIds input, c ∈ fcoIds input) (instructions : Option String) :
    ToolPaired (convertResponsesInputToAISDK input instructions).1 := by
  have hinv := convLoop_inv h1 h2 h3 (inv_init input instructions) input.length
  obtain ⟨bs, hbs, hgood⟩ := hinv.good
  show ToolPaired (postProcessMessages (convLoop input
    (List.range input.length) ⟨[], [], instructions⟩).msgs)
  rw [hbs]
  exact postProcess_toolPaired hgood

/-- Witness for the amended C1 at a concrete complete input: the three
hypotheses hold and the produced message list is tool-paired. -/
theorem C1_pairing_amended_witness :
    (fcIds [RItem.functionCall "c1" "f" "a",
      RItem.functionCallOutput "c1" "o"]).Nodup ∧
    (fcoIds [RItem.functionCall "c1" "f" "a",
      RItem.functionCallOutput "c1" "o"]).Nodup ∧
    (∀ c ∈ fcIds [RItem.functionCall "c1" "f" "a",
      RItem.functionCallOutput "c1" "o"],
      c ∈ fcoIds [RItem.functionCall "c1" "f" "a",
        RItem.functionCallOutput "c1" "o"]) ∧
    ToolPaired (convertResponsesInputToAISDK
      [.functionCall "c1" "f" "a", .functionCallOutput "c1" "o"] none).1 :=
  ⟨by decide, by decide, by decide,
   C1_pairing_amended (by decide) (by decide) (by decide) none⟩

end CCProxy
